import Mathlib

/-!
# Behaviour pacing and scheduling engine: retry policy, rate limiter, activity window, pointer path

A shallow embedding of `internal/retry/retry.go`, `internal/limits/limiter.go`
(with the counting queries and `MarkRequestSent` of `internal/storage/storage.go`),
`internal/stealth/schedule.go`, `internal/stealth/controller.go`,
`internal/stealth/mouse.go`, `internal/stealth/typing.go`, `internal/stealth/scroll.go` and
`Session.MoveMouseTo` of `internal/browser/session.go`, followed by theorems about them.

Conventions of the embedding.

* Go `int` and `time.Duration` values are `Int`; where a product, a sum or a
  difference can leave the 64-bit range it is wrapped explicitly (`wrapInt64`).
* A `float64` value is a rational.  A conversion of an `int` to `float64` gives
  the nearest value with 53 significant bits (`float64OfInt`); a conversion of
  a float to an integer type truncates toward zero and, for a value outside the
  64-bit range, gives `-2^63` as on amd64 (`int64OfFloat`).  In `backoffDelay`
  each of `*`, `+` and `-` gives the `float64` nearest to its exact result
  (`roundFloat64`), one operation at a time as on amd64, and `math.Pow` is a
  parameter.  The range of the exponent of a `float64` is not modelled: no
  value is infinite, not a number or subnormal.  In `buildPath` the arithmetic
  on coordinates, and the conversion of a drawn offset to `float64`, are exact
  rational arithmetic.  The functions of package `math` that have no rational
  value (`Hypot`, `Sin`, `Pi`) are a parameter of the functions that call them,
  and so are the tables of package `unicode`.
* The surroundings of `retry.Do` (the context, the attempt function, the random
  source, the timer race inside `sleep`) are an environment that answers each
  query as a function of the trace of everything that happened so far.  The
  trace is ghost state: it records each observable step of `Do` in order.  The
  methods of the controller that drive the page have an environment of the
  same kind for the context and the driver.
* An instant is Unix seconds and nanoseconds; a location gives the offset from
  UTC in force at each instant, so zones that change their offset are covered.
  A calendar date is the number of its day since 1 January 1970.
* The random source of a `Controller` is the sequence of raw values it will
  produce; a call that panics returns `none`.
* A string is ranged over as the list of its runes.
-/

/-! ## Definitions -/

namespace GoTime

/-- The constant `time.Second`, in nanoseconds. -/
def Second : Int := 1000000000

/-- The constant `time.Minute`. -/
def Minute : Int := 60 * Second

/-- The constant `time.Hour`. -/
def Hour : Int := 60 * Minute

/-- The value of an `int64` computation: the result wrapped into the 64-bit range. -/
def wrapInt64 (x : Int) : Int :=
  (x + 9223372036854775808) % 18446744073709551616 - 9223372036854775808

/-- The value `m` rounded to a multiple of `2^e`, to the nearest one, and on a tie to the one
whose quotient by `2^e` is even. -/
def roundAt (m e : Nat) : Nat :=
  if 2 * (m % 2 ^ e) < 2 ^ e then m / 2 ^ e * 2 ^ e
  else if 2 ^ e < 2 * (m % 2 ^ e) then (m / 2 ^ e + 1) * 2 ^ e
  else if m / 2 ^ e % 2 = 0 then m / 2 ^ e * 2 ^ e
  else (m / 2 ^ e + 1) * 2 ^ e

/-- The number of low bits of `m` that do not fit the 53 significant bits of a `float64`: the
least `e` from the one given with `m < 2^(53 + e)`, looked for in `left` steps. -/
def droppedBits (m : Nat) : Nat → Nat → Nat
  | 0, e => e
  | left + 1, e => if m < 2 ^ (53 + e) then e else droppedBits m left (e + 1)

/-- The `float64` nearest to the whole number `m < 2^64`: `m` rounded to 53 significant bits,
a tie going to the even one. -/
def nearestFloat (m : Nat) : Nat :=
  roundAt m (droppedBits m 11 0)

/-- The conversion `float64(n)` of an `int`: the nearest value with 53 significant bits, a tie
going to the even one.  Exact up to `2^53`. -/
def float64OfInt (n : Int) : ℚ :=
  if n < 0 then -((nearestFloat n.natAbs : Nat) : ℚ) else ((nearestFloat n.natAbs : Nat) : ℚ)

/-- The number of binary digits of `m`, counted in at most `left` steps. -/
def bitsAux : Nat → Nat → Nat
  | 0, _ => 0
  | left + 1, m => if m = 0 then 0 else bitsAux left (m / 2) + 1

/-- The number of binary digits of `m`. -/
def bitLength (m : Nat) : Nat :=
  bitsAux m m

/-- The whole number nearest to `x`, a tie going to the even one. -/
def roundHalfEven (x : ℚ) : Int :=
  if x - ⌊x⌋ < 1 / 2 then ⌊x⌋
  else if 1 / 2 < x - ⌊x⌋ then ⌊x⌋ + 1
  else if ⌊x⌋ % 2 = 0 then ⌊x⌋
  else ⌊x⌋ + 1

/-- The binary exponent at which a value that is not zero has 53 significant bits: the `e`
with `2^52 <= |x| / 2^e < 2^53`. -/
def float64Exponent (x : ℚ) : Int :=
  let e : Int := (bitLength x.num.natAbs : Int) - (bitLength x.den : Int) - 53
  if |x| / (2 : ℚ) ^ e < 9007199254740992 then e else e + 1

/-- The result of a `float64` operation whose exact result is `x`: the nearest value with 53
significant bits, a tie going to the even one.  The range of the exponent of a `float64` is
not modelled: no result overflows to infinity or loses bits by underflow. -/
def roundFloat64 (x : ℚ) : ℚ :=
  if x = 0 then 0
  else (roundHalfEven (x / (2 : ℚ) ^ float64Exponent x) : ℚ) * (2 : ℚ) ^ float64Exponent x

/-- The conversion of a float to `int`, `int64` or `time.Duration`: truncation toward zero.
For a value outside the 64-bit range the language leaves the result to the platform; this is
the result on amd64, `-2^63`. -/
def int64OfFloat (x : ℚ) : Int :=
  if -9223372036854775808 ≤ (if 0 ≤ x then ⌊x⌋ else ⌈x⌉) ∧
      (if 0 ≤ x then ⌊x⌋ else ⌈x⌉) < 9223372036854775808
  then (if 0 ≤ x then ⌊x⌋ else ⌈x⌉) else -9223372036854775808

/-- A `*time.Location`: the offset east of UTC, in seconds, in force at each instant (given in
Unix seconds). -/
structure Location where
  offsetAt : Int → Int

/-- The location `time.UTC`. -/
def UTC : Location := ⟨fun _ => 0⟩

/-- A `time.Time`: an instant, as Unix seconds and nanoseconds within the second, and the
location it is displayed in.  The monotonic clock reading is not modelled. -/
structure Time where
  sec : Int
  nsec : Fin 1000000000
  loc : Location

namespace Time

/-- The method `Time.After`: `t` is a later instant than `u`. -/
def After (t u : Time) : Bool :=
  decide (t.sec > u.sec) || (decide (t.sec = u.sec) && decide (t.nsec > u.nsec))

/-- The method `Time.Add`: the instant `d` nanoseconds later, in the same location. -/
def Add (t : Time) (d : Int) : Time :=
  let total := t.sec * 1000000000 + (t.nsec.val : Int) + d
  { sec := total / 1000000000
    nsec := ⟨(total % 1000000000).toNat % 1000000000, Nat.mod_lt _ (by decide)⟩
    loc := t.loc }

/-- The method `Time.In`: the same instant, displayed in `loc`. -/
def In (t : Time) (loc : Location) : Time :=
  { t with loc := loc }

/-- Seconds since the Unix epoch on the local clock of the location of `t`. -/
def localSec (t : Time) : Int :=
  t.sec + t.loc.offsetAt t.sec

/-- The method `Time.Weekday`, as an `int`: 0 is Sunday; 1 January 1970 was a Thursday. -/
def Weekday (t : Time) : Int :=
  (t.localSec / 86400 + 4) % 7

/-- The method `Time.Hour`. -/
def Hour (t : Time) : Int :=
  t.localSec % 86400 / 3600

/-- The method `Time.Minute`. -/
def Minute (t : Time) : Int :=
  t.localSec % 3600 / 60

end Time

end GoTime

namespace Store

open GoTime

/-- The struct `storage.RequestRecord`. -/
structure RequestRecord where
  ProfileURL : String
  Note : String
  SentAt : Time

/-- The struct `storage.AcceptRecord`. -/
structure AcceptRecord where
  ProfileURL : String
  AcceptedAt : Time

/-- The struct `storage.MessageRecord`. -/
structure MessageRecord where
  ProfileURL : String
  Template : String
  Body : String
  SentAt : Time

/-- The struct `storage.State`.  A Go map is the list of its entries, one per key. -/
structure State where
  SentRequests : List (String × RequestRecord)
  Accepted : List (String × AcceptRecord)
  Messages : List MessageRecord
  LastUpdated : Time

/-- The struct `storage.Storage`, without its mutex, ticker, channel, logger and path. -/
structure Storage where
  state : State
  dirty : Bool

/-- The loop of `CountRequestsSince`, lines 207-212. -/
def countRequests (since : Time) : List (String × RequestRecord) → Int
  | [] => 0
  | entry :: rest =>
    if entry.2.SentAt.After since then countRequests since rest + 1 else countRequests since rest

/-- The method `Storage.CountRequestsSince`: the count, and the storage after the call. -/
def CountRequestsSince (s : Storage) (since : Time) : Int × Storage :=
  (countRequests since s.state.SentRequests, s)

/-- The loop of `CountMessagesSince`, lines 219-224. -/
def countMessages (since : Time) : List MessageRecord → Int
  | [] => 0
  | record :: rest =>
    if record.SentAt.After since then countMessages since rest + 1 else countMessages since rest

/-- The method `Storage.CountMessagesSince`: the count, and the storage after the call. -/
def CountMessagesSince (s : Storage) (since : Time) : Int × Storage :=
  (countMessages since s.state.Messages, s)

end Store

namespace Retry

/-- Go `error` values, as far as `errors.Is` can tell them apart: the two context
sentinels, any other leaf error, and an error wrapping another one. -/
inductive GoErr where
  | canceled : GoErr
  | deadlineExceeded : GoErr
  | plain (code : Nat) : GoErr
  | wrap (tag : Nat) (inner : GoErr) : GoErr
  deriving DecidableEq, Repr

/-- The call `errors.Is(err, target)` for a sentinel target: `err` is the target or wraps it. -/
def errorsIs : GoErr → GoErr → Bool
  | GoErr.wrap tag inner, target =>
      decide (GoErr.wrap tag inner = target) || errorsIs inner target
  | err, target => decide (err = target)

/-- The test of retry.go line 62: the error is, or wraps, `context.Canceled` or
`context.DeadlineExceeded`. -/
def isCancellation (err : GoErr) : Bool :=
  errorsIs err GoErr.canceled || errorsIs err GoErr.deadlineExceeded

/-- The struct `retry.Policy`.  Durations are nanoseconds.  `Retryable` is `none` for a nil
predicate.  `OnRetry` tells whether an observer is configured; its invocations are recorded
in the trace. -/
structure Policy where
  Attempts : Int
  BaseDelay : Int
  MaxDelay : Int
  Factor : ℚ
  Jitter : ℚ
  Retryable : Option (GoErr → Bool)
  OnRetry : Bool

/-- The function `retry.DefaultPolicy`. -/
def DefaultPolicy : Policy :=
  { Attempts := 3
    BaseDelay := 500 * 1000000
    MaxDelay := 6 * 1000000000
    Factor := 2
    Jitter := 1 / 5
    Retryable := none
    OnRetry := false }

/-- Lines 36-50 of `Do`: the clamping of the policy fields.  Each field is clamped on its own;
`MaxDelay` falls back to the already clamped `BaseDelay`, as line 46 follows line 43. -/
def normalize (policy : Policy) : Policy :=
  let baseDelay := if policy.BaseDelay < 0 then 0 else policy.BaseDelay
  { Attempts := if policy.Attempts ≤ 0 then 1 else policy.Attempts
    Factor := if policy.Factor ≤ 0 then 2 else policy.Factor
    BaseDelay := baseDelay
    MaxDelay := if policy.MaxDelay ≤ 0 then baseDelay else policy.MaxDelay
    Jitter := if policy.Jitter < 0 then 0 else policy.Jitter
    Retryable := policy.Retryable
    OnRetry := policy.OnRetry }

/-- The conversion `time.Duration(x)` of a float. -/
def truncToDuration (x : ℚ) : Int :=
  GoTime.int64OfFloat x

/-- The `float64` operations of `backoffDelay` that round their result, and `math.Pow`.
Results that are not finite are not modelled. -/
structure FloatOps where
  Pow : ℚ → ℚ → ℚ
  mul : ℚ → ℚ → ℚ
  add : ℚ → ℚ → ℚ
  sub : ℚ → ℚ → ℚ

/-- The operations of the machine: each of `*`, `+` and `-` gives the `float64` nearest to the
exact result; `math.Pow`, which the library does not promise to round correctly, is the
function given. -/
def ieeeOps (pow : ℚ → ℚ → ℚ) : FloatOps :=
  { Pow := pow
    mul := fun x y => GoTime.roundFloat64 (x * y)
    add := fun x y => GoTime.roundFloat64 (x + y)
    sub := fun x y => GoTime.roundFloat64 (x - y) }

/-- A stand-in for `math.Pow` at an exponent that is a whole number and not negative: the
`float64` nearest to the power.  At the exponents 0 and 1, where `math.Pow` returns 1 and its
first argument, it is `math.Pow`. -/
def nearestPow (x y : ℚ) : ℚ :=
  GoTime.roundFloat64 (x ^ ⌊y⌋.toNat)

/-- Lines 85-98 of `backoffDelay`: the delay as a float, before the conversion of line 99.
`draw` is the value `rand.Float64()` returns when it is called. -/
def backoffDelayFloat (ops : FloatOps) (policy : Policy) (attempt : Int) (draw : ℚ) : ℚ :=
  let attempt := if attempt ≤ 0 then 1 else attempt
  let delay : ℚ :=
    ops.mul (GoTime.float64OfInt policy.BaseDelay)
      (ops.Pow policy.Factor (GoTime.float64OfInt (attempt - 1)))
  let delay : ℚ :=
    if policy.MaxDelay > 0 ∧ delay > GoTime.float64OfInt policy.MaxDelay
    then GoTime.float64OfInt policy.MaxDelay else delay
  if policy.Jitter > 0 ∧ delay > 0 then
    let j := ops.mul delay policy.Jitter
    let delay := ops.add delay (ops.sub (ops.mul (ops.mul draw 2) j) j)
    if delay < 0 then 0 else delay
  else delay

/-- The function `backoffDelay`. -/
def backoffDelay (ops : FloatOps) (policy : Policy) (attempt : Int) (draw : ℚ) : Int :=
  truncToDuration (backoffDelayFloat ops policy attempt draw)

/-- One observable step of `Do`. -/
inductive Event where
  /-- Line 53, `ctx.Err()` at the head of an iteration, with its result. -/
  | ctxErr (result : Option GoErr) : Event
  /-- Line 57, `fn(attempt)`, with its result. -/
  | call (attempt : Int) (result : Option GoErr) : Event
  /-- Line 75, `policy.OnRetry(attempt, delay, err)`. -/
  | onRetry (attempt : Int) (delay : Int) (err : GoErr) : Event
  /-- Lines 106-113, a timer of `delay` raced against `ctx.Done()`: `none` when the timer
  fired, `some e` when the context was done first and `ctx.Err()` was `e`. -/
  | sleep (delay : Int) (result : Option GoErr) : Event
  deriving DecidableEq, Repr

/-- The surroundings of `Do`.  Every answer may depend on the whole trace so far, so a stateful
attempt function, a context cancelled by anyone at any time and the passing of time are all
covered. -/
structure Env where
  /-- The result of `ctx.Err()`. -/
  ctxErr : List Event → Option GoErr
  /-- The result of the attempt function on the given attempt number. -/
  fn : List Event → Int → Option GoErr
  /-- The result of `rand.Float64()`. -/
  float64 : List Event → ℚ
  /-- The `float64` arithmetic of the machine. -/
  arith : FloatOps
  /-- The outcome of the `select` in `sleep` for a positive delay. -/
  ctxDone : List Event → Int → Option GoErr

/-- The function `sleep`: no timer for a non-positive delay. -/
def sleep (env : Env) (trace : List Event) (d : Int) : Option GoErr × List Event :=
  if d ≤ 0 then (none, trace)
  else (env.ctxDone trace d, trace ++ [Event.sleep d (env.ctxDone trace d)])

/-- Line 69: a predicate is configured and rejects the error. -/
def rejects (policy : Policy) (err : GoErr) : Bool :=
  match policy.Retryable with
  | some f => !f err
  | none => false

/-- Line 74-76: the observer, when one is configured, is called once. -/
def observe (policy : Policy) (attempt delay : Int) (err : GoErr) : List Event :=
  if policy.OnRetry then [Event.onRetry attempt delay err] else []

/-- How one iteration of the loop of `Do` ends: with a `return`, or by falling through to
`attempt++`. -/
inductive Step where
  | ret (result : Option GoErr) (trace : List Event) : Step
  | next (trace : List Event) : Step

/-- The body of the loop of `Do`, lines 53-79, for one value of `attempt`. -/
def body (env : Env) (policy : Policy) (attempt : Int) (trace : List Event) : Step :=
  match env.ctxErr trace with
  | some e => Step.ret (some e) (trace ++ [Event.ctxErr (some e)])
  | none =>
    let t1 := trace ++ [Event.ctxErr none]
    match env.fn t1 attempt with
    | none => Step.ret none (t1 ++ [Event.call attempt none])
    | some err =>
      let t2 := t1 ++ [Event.call attempt (some err)]
      if isCancellation err then Step.ret (some err) t2
      else if attempt = policy.Attempts then Step.ret (some err) t2
      else if rejects policy err then Step.ret (some err) t2
      else
        let delay := backoffDelay env.arith policy attempt (env.float64 t2)
        let t3 := t2 ++ observe policy attempt delay err
        match sleep env t3 delay with
        | (some e, t4) => Step.ret (some e) t4
        | (none, t4) => Step.next t4

/-- The loop of `Do`, lines 52-81, from the head of the iteration for `attempt`.  The first
argument bounds the number of iterations still to run; `Do` passes `Attempts`, which is
enough since `attempt` starts at 1. -/
def doLoop (env : Env) (policy : Policy) : Nat → Int → List Event → Option GoErr × List Event
  | 0, _, trace => (none, trace)
  | fuel + 1, attempt, trace =>
    if attempt ≤ policy.Attempts then
      match body env policy attempt trace with
      | Step.ret result t => (result, t)
      | Step.next t => doLoop env policy fuel (attempt + 1) t
    else (none, trace)

/-- The function `retry.Do`: its result and the trace of what it did. -/
def Do (env : Env) (policy : Policy) : Option GoErr × List Event :=
  let p := normalize policy
  doLoop env p p.Attempts.toNat 1 []

/-- The attempt numbers passed to the attempt function, in order. -/
def calls : List Event → List Int
  | [] => []
  | Event.call attempt _ :: rest => attempt :: calls rest
  | _ :: rest => calls rest

/-- The attempt numbers `first, first + 1, ..., first + n - 1`. -/
def attemptsFrom (first : Int) : Nat → List Int
  | 0 => []
  | n + 1 => first :: attemptsFrom (first + 1) n

/-- What `Do` returns when this event is the last one of its trace: `some r` for an event after
which `Do` returns `r`, `none` for an event after which `Do` goes on. -/
def verdict (policy : Policy) : Event → Option (Option GoErr)
  | Event.ctxErr (some e) => some (some e)
  | Event.ctxErr none => none
  | Event.call _ none => some none
  | Event.call attempt (some err) =>
      if isCancellation err || decide (attempt = policy.Attempts) || rejects policy err
      then some (some err) else none
  | Event.onRetry _ _ _ => none
  | Event.sleep _ (some e) => some (some e)
  | Event.sleep _ none => none

/-- The event is what the environment answered after the trace `before`: a check and a timer
race report the environment's answer, a call reports the attempt function's answer and comes
right after a check that found the context alive, a timer is only started for a positive delay
and after an attempt. -/
def okEvent (env : Env) (before : List Event) : Event → Prop
  | Event.ctxErr r => env.ctxErr before = r
  | Event.call attempt r =>
      env.fn before attempt = r ∧ ∃ start, before = start ++ [Event.ctxErr none]
  | Event.onRetry _ _ _ => True
  | Event.sleep d r => 0 < d ∧ env.ctxDone before d = r ∧ calls before ≠ []

/-- Every event of `news`, appended in order after `before`, is `okEvent`. -/
def okFrom (env : Env) : List Event → List Event → Prop
  | _, [] => True
  | before, ev :: rest => okEvent env before ev ∧ okFrom env (before ++ [ev]) rest

/-- The timer event of `sleep`, when a timer is started and fires. -/
def slept (d : Int) : List Event :=
  if 0 < d then [Event.sleep d none] else []

/-- The shape of the events `Do` appends: every event but the last lets `Do` go on, and the
last one, if any, decides the result (a loop that runs out returns nil). -/
def shape (policy : Policy) (r : Option GoErr) : List Event → Prop
  | [] => r = none
  | ev :: rest =>
    match verdict policy ev with
    | some r1 => rest = [] ∧ r = r1
    | none => shape policy r rest

/-- The delay the specification names `D`: `min(maxDelay, baseDelay * multiplier^(k-1))`. -/
def cappedDelay (policy : Policy) (k : Int) : ℚ :=
  min (policy.MaxDelay : ℚ) ((policy.BaseDelay : ℚ) * policy.Factor ^ (k - 1).toNat)

/-- A policy with a base delay of 333333333 ns, no maximum of its own and a jitter of one half. -/
def oddPolicy : Policy :=
  { Attempts := 3
    BaseDelay := 333333333
    MaxDelay := 0
    Factor := 2
    Jitter := 1 / 2
    Retryable := none
    OnRetry := false }

/-- A policy with the longest base delay and the longest maximum a `time.Duration` holds, and
no jitter. -/
def hugePolicy : Policy :=
  { Attempts := 3
    BaseDelay := 9223372036854775807
    MaxDelay := 9223372036854775807
    Factor := 2
    Jitter := 0
    Retryable := none
    OnRetry := false }

/-- A policy with a base delay of 10 ns, no maximum of its own and the jitter `0.3`, that is the
`float64` nearest to three tenths, `5404319552844595 / 2^54`. -/
def roundingPolicy : Policy :=
  { Attempts := 3
    BaseDelay := 10
    MaxDelay := 0
    Factor := 2
    Jitter := 5404319552844595 / 18014398509481984
    Retryable := none
    OnRetry := false }

/-- The largest value `rand.Float64` returns, `1 - 2^-53`. -/
def lastDraw : ℚ :=
  9007199254740991 / 9007199254740992

/-- The value `computed` is the value `exact` up to a relative error of `eps`. -/
def near (eps computed exact : ℚ) : Prop :=
  |computed - exact| ≤ eps * |exact|

instance (eps computed exact : ℚ) : Decidable (near eps computed exact) := by
  unfold near
  infer_instance

/-- An attempt function that fails with a plain error on its first two invocations and then
succeeds, under a context that stays alive. -/
def envFailTwice : Env :=
  { ctxErr := fun _ => none
    fn := fun t _ => if (calls t).length < 2 then some (GoErr.plain 7) else none
    float64 := fun _ => 1 / 2
    arith := ieeeOps nearestPow
    ctxDone := fun _ _ => none }

/-- An attempt function that always fails with a plain error, under a context that stays
alive. -/
def envAlwaysFail : Env :=
  { ctxErr := fun _ => none
    fn := fun _ _ => some (GoErr.plain 7)
    float64 := fun _ => 1 / 2
    arith := ieeeOps nearestPow
    ctxDone := fun _ _ => none }

/-- A context that is cancelled before `Do` is entered. -/
def envCancelledAtEntry : Env :=
  { ctxErr := fun _ => some GoErr.canceled
    fn := fun _ _ => none
    float64 := fun _ => 1 / 2
    arith := ieeeOps nearestPow
    ctxDone := fun _ _ => some GoErr.canceled }

/-- An attempt function whose first invocation fails with a plain error and whose second one
fails with an error wrapping `context.DeadlineExceeded`. -/
def envDeadlineInside : Env :=
  { ctxErr := fun _ => none
    fn := fun t _ =>
      if (calls t).length < 1 then some (GoErr.plain 7)
      else some (GoErr.wrap 1 GoErr.deadlineExceeded)
    float64 := fun _ => 1 / 2
    arith := ieeeOps nearestPow
    ctxDone := fun _ _ => none }

/-- The policy of `NavigateWithRetry`: the default policy with a predicate that rejects one
error (there the one whose message names invalid credentials) and an observer. -/
def navigatePolicy : Policy :=
  { DefaultPolicy with
    Retryable := some (fun err => !decide (err = GoErr.plain 401))
    OnRetry := true }

/-- An attempt function that always fails with the error the predicate of `navigatePolicy`
rejects. -/
def envRejected : Env :=
  { ctxErr := fun _ => none
    fn := fun _ _ => some (GoErr.plain 401)
    float64 := fun _ => 1 / 2
    arith := ieeeOps nearestPow
    ctxDone := fun _ _ => none }

/-- An attempt function that always fails, under a context that is cancelled during the
second backoff sleep. -/
def envCancelledAsleep : Env :=
  { ctxErr := fun _ => none
    fn := fun _ _ => some (GoErr.plain 7)
    float64 := fun _ => 1 / 2
    arith := ieeeOps nearestPow
    ctxDone := fun t _ => if (calls t).length < 2 then none else some GoErr.canceled }

end Retry

namespace Limits

open GoTime Store

/-- The fields of `config.ConnectConfig` the limiter reads. -/
structure ConnectConfig where
  DailyLimit : Int
  MaxPerRun : Int

/-- The fields of `config.MessagingConfig` the limiter reads. -/
structure MessagingConfig where
  DailyLimit : Int
  MaxPerRun : Int

/-- The struct `config.LimitsConfig`. -/
structure LimitsConfig where
  ConnectionPerHour : Int
  MessagePerHour : Int

/-- The parts of `config.Config` the limiter reads. -/
structure Config where
  Connect : ConnectConfig
  Messaging : MessagingConfig
  Limits : LimitsConfig

/-- The method `Limiter.CheckConnectionLimits`, with `time.Now()` as the argument `now`: the
error message, if any, and the storage after the call. -/
def CheckConnectionLimits (cfg : Config) (store : Storage) (now : Time) :
    Option String × Storage :=
  let (dayCount, store1) := CountRequestsSince store (now.Add (-24 * GoTime.Hour))
  let (hourCount, store2) := CountRequestsSince store1 (now.Add (-1 * GoTime.Hour))
  if dayCount ≥ cfg.Connect.DailyLimit then
    (some "daily connection limit reached", store2)
  else if cfg.Limits.ConnectionPerHour > 0 ∧ hourCount ≥ cfg.Limits.ConnectionPerHour then
    (some "hourly connection limit reached", store2)
  else (none, store2)

/-- The method `Limiter.CheckMessageLimits`, with `time.Now()` as the argument `now`. -/
def CheckMessageLimits (cfg : Config) (store : Storage) (now : Time) :
    Option String × Storage :=
  let (dayCount, store1) := CountMessagesSince store (now.Add (-24 * GoTime.Hour))
  let (hourCount, store2) := CountMessagesSince store1 (now.Add (-1 * GoTime.Hour))
  if dayCount ≥ cfg.Messaging.DailyLimit then
    (some "daily message limit reached", store2)
  else if cfg.Limits.MessagePerHour > 0 ∧ hourCount ≥ cfg.Limits.MessagePerHour then
    (some "hourly message limit reached", store2)
  else (none, store2)

/-- The 24-hour count of connection requests at `now`. -/
def dayRequests (store : Storage) (now : Time) : Int :=
  (CountRequestsSince store (now.Add (-24 * GoTime.Hour))).1

/-- The 1-hour count of connection requests at `now`. -/
def hourRequests (store : Storage) (now : Time) : Int :=
  (CountRequestsSince store (now.Add (-1 * GoTime.Hour))).1

/-- The 24-hour count of messages at `now`. -/
def dayMessages (store : Storage) (now : Time) : Int :=
  (CountMessagesSince store (now.Add (-24 * GoTime.Hour))).1

/-- The 1-hour count of messages at `now`. -/
def hourMessages (store : Storage) (now : Time) : Int :=
  (CountMessagesSince store (now.Add (-1 * GoTime.Hour))).1

/-- Wednesday 3 January 2024, 11:00:00 UTC. -/
def wednesdayEleven : Time := ⟨1704279600, 0, UTC⟩

/-- A connection request sent at the given Unix second. -/
def requestAt (url : String) (sec : Int) : String × RequestRecord :=
  (url, ⟨url, "", ⟨sec, 0, UTC⟩⟩)

/-- A log with two connection requests in the 24 hours before `wednesdayEleven`, two and three
hours before it, and none in the last hour. -/
def twoRequests : Storage :=
  { state :=
      { SentRequests := [requestAt "a" (1704279600 - 7200), requestAt "b" (1704279600 - 10800)]
        Accepted := []
        Messages := []
        LastUpdated := ⟨1704279600 - 7200, 0, UTC⟩ }
    dirty := true }

/-- A daily limit of two connection requests and the default hourly cap of eight. -/
def limitTwo : Config :=
  { Connect := ⟨2, 10⟩, Messaging := ⟨25, 10⟩, Limits := ⟨8, 8⟩ }

end Limits

namespace Stealth

open GoTime

/-- The struct `config.ScheduleConfig`. -/
structure ScheduleConfig where
  Enabled : Bool
  Timezone : String
  BusinessDays : List Int
  StartHour : Int
  EndHour : Int
  Breaks : List String
  Enforce : Bool

/-- The struct `timeRange`: the two ends of a break, as durations since midnight. -/
structure timeRange where
  Start : Int
  End : Int

/-- The struct `Scheduler`. -/
structure Scheduler where
  cfg : ScheduleConfig
  loc : Location
  breaks : List timeRange

/-- The function `containsInt`. -/
def containsInt : List Int → Int → Bool
  | [], _ => false
  | v :: rest, target => if v = target then true else containsInt rest target

/-- The function `timeOfDay`: hours and minutes only. -/
def timeOfDay (t : Time) : Int :=
  t.Hour * GoTime.Hour + t.Minute * GoTime.Minute

/-- The loop over the breaks in `IsWithinWindow`, lines 80-84: false as soon as a break
contains `tod`. -/
def outsideBreaks (tod : Int) : List timeRange → Bool
  | [] => true
  | br :: rest =>
    if tod ≥ br.Start ∧ tod ≤ br.End then false else outsideBreaks tod rest

/-- The method `Scheduler.IsWithinWindow`. -/
def IsWithinWindow (s : Scheduler) (now : Time) : Bool :=
  if !containsInt s.cfg.BusinessDays now.Weekday then false
  else
    let tod := timeOfDay now
    let start := wrapInt64 (s.cfg.StartHour * GoTime.Hour)
    let stop := wrapInt64 (s.cfg.EndHour * GoTime.Hour)
    if tod < start ∨ tod > stop then false
    else outsideBreaks tod s.breaks

/-- The time of day of `t` on the local clock of its location, as a duration since midnight,
to the nanosecond. -/
def exactTimeOfDay (t : Time) : Int :=
  t.localSec % 86400 * GoTime.Second + (t.nsec.val : Int)

/-- The time of day of `t` cut down to whole minutes. -/
def minuteOfDay (t : Time) : Int :=
  exactTimeOfDay t / GoTime.Minute * GoTime.Minute

/-- The window as the specification words it, for a time of day `tod`: the weekday is allowed,
`tod` lies in `[startHour:00, endHour:00]` and in no break, all bounds included. -/
def windowOpen (s : Scheduler) (weekday tod : Int) : Prop :=
  weekday ∈ s.cfg.BusinessDays ∧
    (s.cfg.StartHour * GoTime.Hour ≤ tod ∧ tod ≤ s.cfg.EndHour * GoTime.Hour) ∧
    ∀ br ∈ s.breaks, ¬ (br.Start ≤ tod ∧ tod ≤ br.End)

/-- Monday to Friday, 9 to 17, with one break from 12:00 to 12:45, in UTC. -/
def officeHours : Scheduler :=
  { cfg :=
      { Enabled := true
        Timezone := "UTC"
        BusinessDays := [1, 2, 3, 4, 5]
        StartHour := 9
        EndHour := 17
        Breaks := ["12:00-12:45"]
        Enforce := false }
    loc := UTC
    breaks := [⟨12 * GoTime.Hour, 12 * GoTime.Hour + 45 * GoTime.Minute⟩] }

/-- Wednesday 3 January 2024, 17:00:30 UTC. -/
def wednesdayAfterFive : Time := ⟨1704301230, 0, UTC⟩

/-- Wednesday 3 January 2024, 11:00:00, on a clock two hours east of UTC. -/
def wednesdayElevenEast : Time := ⟨1704272400, 0, ⟨fun _ => 7200⟩⟩

end Stealth

namespace GoTime

namespace Time

/-- The method `Time.Before`: `t` is an earlier instant than `u`. -/
def Before (t u : Time) : Bool :=
  decide (t.sec < u.sec) || (decide (t.sec = u.sec) && decide (t.nsec < u.nsec))

/-- The instant of `t` in nanoseconds since the Unix epoch. -/
def nanos (t : Time) : Int :=
  t.sec * 1000000000 + (t.nsec.val : Int)

/-- The calendar day of `t` in its location, as the number of days since 1 January 1970.  It
stands for the triple `t.Year()`, `t.Month()`, `t.Day()`. -/
def dayNumber (t : Time) : Int :=
  t.localSec / 86400

end Time

/-- The call `time.Date(y, m, d, hour, 0, 0, 0, loc)` for the calendar day `day`: the instant
whose clock reading in `loc` is `hour` hours after the midnight that starts the day (an hour
outside 0..23 runs over into the neighbouring days).  The offset is looked up as the library
does: first at the reading taken as UTC, then at the instant that first offset gives. -/
def Date (day hour : Int) (loc : Location) : Time :=
  let reading := day * 86400 + hour * 3600
  { sec := reading - loc.offsetAt (reading - loc.offsetAt reading)
    nsec := 0
    loc := loc }

end GoTime

namespace Stealth

open GoTime

/-- The function `unicode.IsSpace`. -/
def isSpace (c : Char) : Bool :=
  c = '\t' || c = '\n' || c.toNat = 11 || c.toNat = 12 || c = '\r' || c = ' ' ||
    c.toNat = 0x85 || c.toNat = 0xA0 || c.toNat = 0x1680 ||
    (0x2000 ≤ c.toNat && c.toNat ≤ 0x200a) || c.toNat = 0x2028 || c.toNat = 0x2029 ||
    c.toNat = 0x202f || c.toNat = 0x205f || c.toNat = 0x3000

/-- The function `strings.TrimSpace`, on the characters of the string. -/
def TrimSpace (s : List Char) : List Char :=
  ((s.dropWhile isSpace).reverse.dropWhile isSpace).reverse

/-- The function `strings.Split` for a separator of one character: the pieces between the
separators, at least one piece. -/
def Split (sep : Char) : List Char → List (List Char)
  | [] => [[]]
  | c :: rest =>
    if c = sep then [] :: Split sep rest
    else
      match Split sep rest with
      | [] => [[c]]
      | piece :: pieces => (c :: piece) :: pieces

/-- A decimal digit, as the library function `isDigit` tests it, with its value. -/
def digit (c : Char) : Option Int :=
  if '0' ≤ c ∧ c ≤ '9' then some ((c.toNat : Int) - 48) else none

/-- The library function `getnum` of package `time`: a number of one or two digits at the head
of `s` (exactly two when `fixed`), and the rest of `s`. -/
def getnum (s : List Char) (fixed : Bool) : Option (Int × List Char) :=
  match s with
  | [] => none
  | c0 :: rest =>
    match digit c0 with
    | none => none
    | some d0 =>
      match rest with
      | [] => if fixed then none else some (d0, [])
      | c1 :: rest1 =>
        match digit c1 with
        | none => if fixed then none else some (d0, c1 :: rest1)
        | some d1 => some (d0 * 10 + d1, rest1)

/-- The call `time.Parse("15:04", value)`, as far as the caller reads it: the hour and the
minute.  An hour of one or two digits below 24, a colon, a minute of two digits below 60, and
nothing after it. -/
def parseClock (value : List Char) : Option (Int × Int) :=
  match getnum value false with
  | none => none
  | some (hour, rest) =>
    if hour < 0 ∨ 24 ≤ hour then none
    else
      match rest with
      | ':' :: rest1 =>
        match getnum rest1 true with
        | none => none
        | some (minute, rest2) =>
          if minute < 0 ∨ 60 ≤ minute then none
          else if rest2 = [] then some (hour, minute) else none
      | _ => none

/-- The function `parseTimeOfDay`. -/
def parseTimeOfDay (raw : List Char) : Int :=
  match Split ':' (TrimSpace raw) with
  | [part0, part1] =>
    match parseClock (part0 ++ ':' :: part1) with
    | none => 0
    | some (hour, minute) => hour * GoTime.Hour + minute * GoTime.Minute
  | _ => 0

/-- The function `parseBreaks`. -/
def parseBreaks : List String → List timeRange
  | [] => []
  | entry :: entries =>
    match Split '-' entry.toList with
    | [part0, part1] =>
      let start := parseTimeOfDay part0
      let stop := parseTimeOfDay part1
      if start = 0 ∧ stop = 0 then parseBreaks entries
      else ⟨start, stop⟩ :: parseBreaks entries
    | _ => parseBreaks entries

/-- The function `NewScheduler`.  `loadLocation` stands for `time.LoadLocation`: `none` when
it fails, and then so does `NewScheduler`. -/
def NewScheduler (loadLocation : String → Option Location) (cfg : ScheduleConfig) :
    Option Scheduler :=
  match loadLocation cfg.Timezone with
  | none => none
  | some loc => some { cfg := cfg, loc := loc, breaks := parseBreaks cfg.Breaks }

/-- The loop over the breaks in `NextWindow`, lines 102-108: the end of the first break that
`current` lies strictly inside, the breaks being counted from `start`. -/
def breakEnd (start current : Time) : List timeRange → Option Time
  | [] => none
  | br :: rest =>
    if current.After (start.Add br.Start) && current.Before (start.Add br.End)
    then some (start.Add br.End)
    else breakEnd start current rest

/-- The loop of `NextWindow`, lines 90-112, with the number of iterations left. -/
def nextWindowLoop (s : Scheduler) (now : Time) : Nat → Time → Time
  | 0, _ => now.Add (24 * GoTime.Hour)
  | left + 1, current =>
    if containsInt s.cfg.BusinessDays current.Weekday then
      let start := Date current.dayNumber s.cfg.StartHour s.loc
      let stop := Date current.dayNumber s.cfg.EndHour s.loc
      if current.Before start then start
      else if current.After stop then
        nextWindowLoop s now left (start.Add (24 * GoTime.Hour))
      else
        match breakEnd start current s.breaks with
        | some t => t
        | none => current
    else
      nextWindowLoop s now left
        ((Date current.dayNumber s.cfg.StartHour s.loc).Add (24 * GoTime.Hour))

/-- The method `Scheduler.NextWindow`. -/
def NextWindow (s : Scheduler) (now : Time) : Time :=
  nextWindowLoop s now 8 now

/-- The error of `Enforce`, "outside activity window, next slot: ..." with the instant it
prints. -/
structure OutsideWindow where
  next : Time

/-- The method `Scheduler.Enforce`, with `time.Now()` as the argument `clock` and whether a
logger is given: the error, if any, and the instants of the warnings logged. -/
def Enforce (s : Scheduler) (clock : Time) (hasLog : Bool) : Option OutsideWindow × List Time :=
  if !s.cfg.Enabled then (none, [])
  else
    let now := clock.In s.loc
    if IsWithinWindow s now then (none, [])
    else
      let next := NextWindow s now
      if s.cfg.Enforce then (some ⟨next⟩, [])
      else if hasLog then (none, [next])
      else (none, [])

/-- The configuration of `officeHours`. -/
def officeConfig : ScheduleConfig :=
  { Enabled := true
    Timezone := "UTC"
    BusinessDays := [1, 2, 3, 4, 5]
    StartHour := 9
    EndHour := 17
    Breaks := ["12:00-12:45"]
    Enforce := false }

/-- A loader that knows the zone "UTC" only. -/
def loadUTC (name : String) : Option Location :=
  if name = "UTC" then some UTC else none

/-- Wednesday 3 January 2024, 11:00:00 UTC. -/
def wednesdayEleven : Time := ⟨1704279600, 0, UTC⟩

/-- Wednesday 3 January 2024, 12:20:00 UTC. -/
def wednesdayTwelveTwenty : Time := ⟨1704284400, 0, UTC⟩

/-- Wednesday 3 January 2024, 12:45:00 UTC. -/
def wednesdayTwelveFortyFive : Time := ⟨1704285900, 0, UTC⟩

/-- Saturday 6 January 2024, 10:00:00 UTC. -/
def saturdayTen : Time := ⟨1704535200, 0, UTC⟩

/-- Monday 8 January 2024, 09:00:00 UTC. -/
def mondayNine : Time := ⟨1704704400, 0, UTC⟩

/-- A zone five hours west of UTC that moves its clocks one hour forward on Sunday 10 March
2024 at 07:00 UTC, as New York did. -/
def springForward : Location :=
  ⟨fun t => if t < 1710054000 then -18000 else -14400⟩

/-- A loader that knows the zone of `springForward` only. -/
def loadSpring (name : String) : Option Location :=
  if name = "America/New_York" then some springForward else none

/-- Sunday to Friday, 9 to 17, no breaks, in the zone of `springForward`. -/
def sundayConfig : ScheduleConfig :=
  { Enabled := true
    Timezone := "America/New_York"
    BusinessDays := [0, 1, 2, 3, 4, 5]
    StartHour := 9
    EndHour := 17
    Breaks := []
    Enforce := true }

/-- The scheduler `NewScheduler` builds from `sundayConfig`. -/
def sundayScheduler : Scheduler :=
  { cfg := sundayConfig, loc := springForward, breaks := [] }

/-- Monday to Friday, from 0 to 23, with one break from 12:00 to 12:45, in UTC. -/
def allDayConfig : ScheduleConfig :=
  { officeConfig with StartHour := 0, EndHour := 23 }

/-- The scheduler `NewScheduler` builds from `allDayConfig`. -/
def allDay : Scheduler :=
  { cfg := allDayConfig
    loc := UTC
    breaks := [⟨12 * GoTime.Hour, 12 * GoTime.Hour + 45 * GoTime.Minute⟩] }

/-- Saturday 9 March 2024, 10:00:00 on the clock of `springForward`. -/
def saturdayBeforeSpring : Time := ⟨1709996400, 0, springForward⟩

end Stealth

namespace Stealth

open GoTime

/-- The struct `config.StealthConfig`. -/
structure StealthConfig where
  UserAgent : String
  Locale : String
  Timezone : String
  ViewportWidth : Int
  ViewportHeight : Int
  Headless : Bool
  MouseMoveJitter : Int
  ThinkTimeMinMs : Int
  ThinkTimeMaxMs : Int
  TypingDelayMinMs : Int
  TypingDelayMaxMs : Int
  ScrollStepMin : Int
  ScrollStepMax : Int
  EnableRodStealth : Bool
  RandomizeViewport : Bool
  ViewportVariancePx : Int
  ActionIntervalMinMs : Int
  ActionIntervalMaxMs : Int
  ScrollBackChance : Int
  TypoChance : Int
  MouseWanderChance : Int
  HoverPauseMinMs : Int
  HoverPauseMaxMs : Int

/-- The stealth part of `config.DefaultConfig`. -/
def defaultStealth : StealthConfig :=
  { UserAgent := "Mozilla/5.0 (Windows NT 10.0; Win64; x64) AppleWebKit/537.36 (KHTML, like Gecko) Chrome/120.0.0.0 Safari/537.36"
    Locale := "en-US"
    Timezone := "America/New_York"
    ViewportWidth := 1366
    ViewportHeight := 768
    Headless := false
    MouseMoveJitter := 3
    ThinkTimeMinMs := 600
    ThinkTimeMaxMs := 1800
    TypingDelayMinMs := 45
    TypingDelayMaxMs := 190
    ScrollStepMin := 280
    ScrollStepMax := 820
    EnableRodStealth := true
    RandomizeViewport := true
    ViewportVariancePx := 80
    ActionIntervalMinMs := 350
    ActionIntervalMaxMs := 1200
    ScrollBackChance := 15
    TypoChance := 4
    MouseWanderChance := 20
    HoverPauseMinMs := 200
    HoverPauseMaxMs := 800 }

/-- A `*rand.Rand`, as the raw values it is going to produce, in order. -/
structure Rng where
  raw : Nat → Nat

/-- The method `Rand.Intn`: it panics (`none`) when `n <= 0`; otherwise it gives a value in
`[0, n)` and the state after the draw. -/
def Rng.Intn (rng : Rng) (n : Int) : Option (Int × Rng) :=
  if n ≤ 0 then none
  else some ((rng.raw 0 : Int) % n, ⟨fun i => rng.raw (i + 1)⟩)

/-- The struct `Controller`, without its logger. -/
structure Controller where
  cfg : StealthConfig
  rng : Rng

/-- The method `Controller.randomInt`, on `int` arguments: the value and the controller after
the draw, `none` when `Intn` panics. -/
def randomInt (c : Controller) (min max : Int) : Option (Int × Controller) :=
  if max ≤ min then some (min, c)
  else
    match c.rng.Intn (wrapInt64 (wrapInt64 (max - min) + 1)) with
    | none => none
    | some (r, rng) => some (wrapInt64 (min + r), { c with rng := rng })

/-- The method `Controller.rollPercent`. -/
def rollPercent (c : Controller) (chance : Int) : Option (Bool × Controller) :=
  if chance ≤ 0 then some (false, c)
  else if chance ≥ 100 then some (true, c)
  else
    match c.rng.Intn 100 with
    | none => none
    | some (d, rng) => some (decide (d < chance), { c with rng := rng })

/-- The function `clampInt`. -/
def clampInt (value min max : Int) : Int :=
  if value < min then min
  else if value > max then max
  else value

/-- The struct `Point`. -/
structure Point where
  X : ℚ
  Y : ℚ

/-- The struct `mouseStep`. -/
structure mouseStep where
  X : ℚ
  Y : ℚ
  Delay : Int

/-- The functions and the constant of package `math` that `buildPath` uses and exact rational
arithmetic cannot give: `math.Hypot`, `math.Sin` and `math.Pi`. -/
structure MathLib where
  Hypot : ℚ → ℚ → ℚ
  Sin : ℚ → ℚ
  Pi : ℚ

/-- The conversion `int(x)` of a float. -/
def truncInt (x : ℚ) : Int :=
  int64OfFloat x

/-- The function `cubicBezier`. -/
def cubicBezier (p0 p1 p2 p3 : Point) (t : ℚ) : Point :=
  let u := 1 - t
  let tt := t * t
  let uu := u * u
  let uuu := uu * u
  let ttt := tt * t
  { X := uuu * p0.X + 3 * uu * t * p1.X + 3 * u * tt * p2.X + ttt * p3.X
    Y := uuu * p0.Y + 3 * uu * t * p1.Y + 3 * u * tt * p2.Y + ttt * p3.Y }

/-- The constant `time.Millisecond`. -/
def Millisecond : Int := 1000000

/-- Line 51 of `buildPath`: the number of steps of the curve. -/
def pathSteps (math : MathLib) (source target : Point) : Int :=
  clampInt (wrapInt64 (truncInt (math.Hypot (target.X - source.X) (target.Y - source.Y) / 8) + 10))
    18 64

/-- The pattern `Point{X: x + float64(c.randomInt(lo, hi)), Y: y + float64(c.randomInt(lo, hi))}`
of `buildPath`: two draws, the one for `X` first. -/
def offsetPoint (c : Controller) (base : Point) (lo hi : Int) : Option (Point × Controller) :=
  match randomInt c lo hi with
  | none => none
  | some (dx, c1) =>
    match randomInt c1 lo hi with
    | none => none
    | some (dy, c2) => some (⟨base.X + (dx : ℚ), base.Y + (dy : ℚ)⟩, c2)

/-- The first loop of `buildPath`, lines 67-72, from index `i` with `left` iterations to go. -/
def curveSteps (math : MathLib) (p0 p1 p2 p3 : Point) (steps : Int) :
    Nat → Int → Controller → Option (List mouseStep × Controller)
  | 0, _, c => some ([], c)
  | left + 1, i, c =>
    let t : ℚ := (i : ℚ) / (steps : ℚ)
    let p := cubicBezier p0 p1 p2 p3 t
    match randomInt c 0 6 with
    | none => none
    | some (r, c1) =>
      let delay := wrapInt64 (truncInt (6 + math.Sin (t * math.Pi) * 9 + (r : ℚ)) * Millisecond)
      match curveSteps math p0 p1 p2 p3 steps left (i + 1) c1 with
      | none => none
      | some (rest, c2) => some (⟨p.X, p.Y, delay⟩ :: rest, c2)

/-- The last loop of `buildPath`, lines 80-86, with `left` iterations to go. -/
def settleSteps (target : Point) : Nat → Controller → Option (List mouseStep × Controller)
  | 0, c => some ([], c)
  | left + 1, c =>
    match offsetPoint c target (-2) 2 with
    | none => none
    | some (p, c1) =>
      match settleSteps target left c1 with
      | none => none
      | some (rest, c2) => some (⟨p.X, p.Y, 12 * Millisecond⟩ :: rest, c2)

/-- The method `Controller.buildPath`: the path and the controller after the draws, `none`
when a draw panics. -/
def buildPath (math : MathLib) (c : Controller) (source target : Point) :
    Option (List mouseStep × Controller) :=
  let steps := pathSteps math source target
  let jitter := if c.cfg.MouseMoveJitter < 0 then 0 else c.cfg.MouseMoveJitter
  let lo := wrapInt64 (-40 - jitter)
  let hi := wrapInt64 (40 + jitter)
  match offsetPoint c
      ⟨source.X + (target.X - source.X) * (3 / 10), source.Y + (target.Y - source.Y) * (3 / 10)⟩
      lo hi with
  | none => none
  | some (control1, c1) =>
    match offsetPoint c1
        ⟨source.X + (target.X - source.X) * (7 / 10), source.Y + (target.Y - source.Y) * (7 / 10)⟩
        lo hi with
    | none => none
    | some (control2, c2) =>
      match curveSteps math source control1 control2 target steps (steps + 1).toNat 0 c2 with
      | none => none
      | some (curve, c3) =>
        match offsetPoint c3 target (-12) 12 with
        | none => none
        | some (overshoot, c4) =>
          match settleSteps target 3 c4 with
          | none => none
          | some (settle, c5) =>
            some (curve ++ ⟨overshoot.X, overshoot.Y, 14 * Millisecond⟩ :: settle, c5)

/-- A step is within 2 of the target in each coordinate. -/
def nearTarget (target : Point) (s : mouseStep) : Prop :=
  |s.X - target.X| ≤ 2 ∧ |s.Y - target.Y| ≤ 2

/-- Newton's iteration for the whole part of the square root of `n`, from the guess `x`. -/
def wholeRootFrom (n : Nat) : Nat → Nat → Nat
  | 0, x => x
  | left + 1, x =>
    if x = 0 then 0
    else if (x + n / x) / 2 < x then wholeRootFrom n left ((x + n / x) / 2) else x

/-- Rational stand-ins for package `math` in the examples: the whole part of the hypotenuse,
the approximation `16 x (pi - x) / (5 pi^2 - 4 x (pi - x))` of the sine, and 355/113. -/
def approxMath : MathLib :=
  { Hypot := fun x y =>
      (wholeRootFrom ⌊x * x + y * y⌋.toNat 128 ⌊x * x + y * y⌋.toNat : ℚ)
    Sin := fun x =>
      16 * x * (355 / 113 - x) / (5 * (355 / 113) * (355 / 113) - 4 * x * (355 / 113 - x))
    Pi := 355 / 113 }

/-- A random source that produces 0, 1, 2, ... -/
def countingRng : Rng := ⟨fun i => i⟩

/-- The controller of the default configuration, with `countingRng`. -/
def defaultController : Controller := ⟨defaultStealth, countingRng⟩

/-- The default controller with a mouse jitter of `2^62`. -/
def wideJitterController : Controller :=
  ⟨{ defaultStealth with MouseMoveJitter := 4611686018427387904 }, countingRng⟩

end Stealth

namespace Retry

/-- The default policy with an attempt count of -2. -/
def negativeAttemptsPolicy : Policy :=
  { DefaultPolicy with Attempts := -2, OnRetry := true }

end Retry

namespace Stealth

open GoTime

/-- Every day of the week, with a window that starts at 17 and ends at 9, and the break of
`officeHours`, in UTC. -/
def backwardsHours : Scheduler :=
  { cfg :=
      { officeConfig with BusinessDays := [0, 1, 2, 3, 4, 5, 6], StartHour := 17, EndHour := 9 }
    loc := UTC
    breaks := [⟨12 * GoTime.Hour, 12 * GoTime.Hour + 45 * GoTime.Minute⟩] }

/-- A zone four hours west of UTC that moves its clocks one hour back on Sunday 3 November
2024 at 06:00 UTC, as New York did. -/
def fallBack : Location :=
  ⟨fun t => if t < 1730613600 then -14400 else -18000⟩

/-- A loader that knows the zone of `fallBack` only. -/
def loadFall (name : String) : Option Location :=
  if name = "America/New_York" then some fallBack else none

/-- Every day of the week, from 0 to 23, no breaks, in the zone of `fallBack`. -/
def roundTheClockConfig : ScheduleConfig :=
  { Enabled := true
    Timezone := "America/New_York"
    BusinessDays := [0, 1, 2, 3, 4, 5, 6]
    StartHour := 0
    EndHour := 23
    Breaks := []
    Enforce := true }

/-- The scheduler `NewScheduler` builds from `roundTheClockConfig`. -/
def roundTheClock : Scheduler :=
  { cfg := roundTheClockConfig, loc := fallBack, breaks := [] }

/-- Sunday 3 November 2024, 23:30:00 on the clock of `fallBack`, after the clocks went back. -/
def sundayLateFall : Time := ⟨1730694600, 0, fallBack⟩

/-- The scheduler of `officeHours` with no weekday allowed. -/
def noDays : Scheduler :=
  { officeHours with cfg := { officeConfig with BusinessDays := [] } }

end Stealth

namespace Stealth

/-- The step lies in the bounding box of `source` and `target`, widened by `margin` on every
side. -/
def withinBox (source target : Point) (margin : ℚ) (s : mouseStep) : Prop :=
  (min source.X target.X - margin ≤ s.X ∧ s.X ≤ max source.X target.X + margin) ∧
    (min source.Y target.Y - margin ≤ s.Y ∧ s.Y ≤ max source.Y target.Y + margin)

end Stealth

namespace Store

open GoTime

/-- The assignment `m[key] = value` on a Go map, the map being the list of its entries: the
entry of the key is replaced, or a new entry is added. -/
def mapSet (key : String) (value : RequestRecord) :
    List (String × RequestRecord) → List (String × RequestRecord)
  | [] => [(key, value)]
  | entry :: rest =>
    if entry.1 = key then (key, value) :: rest else entry :: mapSet key value rest

/-- The state `storage.New` starts from when there is no state file to load; `clock` is the
reading of `time.Now()`. -/
def New (clock : Time) : Storage :=
  { state := { SentRequests := [], Accepted := [], Messages := [], LastUpdated := clock }
    dirty := false }

/-- The method `Storage.MarkRequestSent`; `clock` is the reading of `time.Now()`. -/
def MarkRequestSent (s : Storage) (clock : Time) (profileURL note : String) : Storage :=
  { state :=
      { s.state with
        SentRequests := mapSet profileURL ⟨profileURL, note, clock⟩ s.state.SentRequests }
    dirty := true }

/-- One call of `MarkRequestSent`: its arguments and the reading of the clock during it. -/
structure SentCall where
  ProfileURL : String
  Note : String
  At : Time

/-- A sequence of calls of `MarkRequestSent`, in order. -/
def markAll (s : Storage) : List SentCall → Storage
  | [] => s
  | call :: rest => markAll (MarkRequestSent s call.At call.ProfileURL call.Note) rest

/-- The calls that no later call for the same profile URL follows. -/
def lastPerProfile : List SentCall → List SentCall
  | [] => []
  | call :: rest =>
    if call.ProfileURL ∈ rest.map SentCall.ProfileURL then lastPerProfile rest
    else call :: lastPerProfile rest

/-- The number of calls with a clock reading after `since`. -/
def sentAfter (since : Time) (calls : List SentCall) : Int :=
  ((calls.filter (fun call => call.At.After since)).length : Int)

/-- Two requests to the same profile, on Wednesday 3 January 2024 at 09:00 and at 10:00 UTC. -/
def sameProfileTwice : List SentCall :=
  [⟨"https://www.linkedin.com/in/a", "hello", ⟨1704272400, 0, UTC⟩⟩,
    ⟨"https://www.linkedin.com/in/a", "hello again", ⟨1704276000, 0, UTC⟩⟩]

/-- Requests to two profiles, on Wednesday 3 January 2024 at 09:00 and at 10:00 UTC. -/
def twoProfiles : List SentCall :=
  [⟨"https://www.linkedin.com/in/a", "hello", ⟨1704272400, 0, UTC⟩⟩,
    ⟨"https://www.linkedin.com/in/b", "hello", ⟨1704276000, 0, UTC⟩⟩]

/-- Tuesday 2 January 2024, 11:00:00 UTC. -/
def tuesdayEleven : Time := ⟨1704193200, 0, UTC⟩

end Store

namespace Stealth

open GoTime

/-- The keys of package `input` that `TypeHuman` presses. -/
inductive Key where
  | Enter : Key
  | Tab : Key
  | Backspace : Key
  deriving DecidableEq, Repr

/-- One thing a method of the controller does to the outside: a request to the page, or a
sleep. -/
inductive Action where
  /-- The call `page.Mouse.MoveTo(proto.Point{X: x, Y: y})`. -/
  | moveTo (x y : ℚ) : Action
  /-- The call `page.Mouse.Scroll(dx, dy, steps)`. -/
  | scroll (dx dy : ℚ) (steps : Int) : Action
  /-- The call `page.InsertText(text)`. -/
  | insertText (text : List Char) : Action
  /-- The call `page.Keyboard.Type(key)`. -/
  | press (key : Key) : Action
  /-- The call `time.Sleep(d)`. -/
  | sleep (d : Int) : Action
  deriving DecidableEq

/-- The surroundings of a method of the controller: the context and the driver of the page.
Every answer may depend on everything the method did so far. -/
structure Env where
  /-- The result of `ctx.Err()`. -/
  ctxErr : List Action → Option Retry.GoErr
  /-- The error the driver returns for a request, `none` for nil. -/
  answer : List Action → Action → Option Retry.GoErr

/-- A context that is never cancelled and a driver that never fails. -/
def Env.quiet (env : Env) : Prop :=
  (∀ trace, env.ctxErr trace = none) ∧ ∀ trace request, env.answer trace request = none

/-- A context that is never cancelled and a driver that never fails. -/
def quietEnv : Env := ⟨fun _ => none, fun _ _ => none⟩

end Stealth

namespace Stealth

open GoTime

/-- The method `Controller.randomDuration`, in nanoseconds. -/
def randomDuration (c : Controller) (minMs maxMs : Int) : Option (Int × Controller) :=
  if maxMs ≤ minMs then some (wrapInt64 (minMs * Millisecond), c)
  else
    match randomInt c minMs maxMs with
    | none => none
    | some (value, c1) => some (wrapInt64 (value * Millisecond), c1)

/-- The method `Controller.TypingDelay`. -/
def TypingDelay (c : Controller) : Option (Int × Controller) :=
  randomDuration c c.cfg.TypingDelayMinMs c.cfg.TypingDelayMaxMs

/-- The method `Controller.ShouldTypo`. -/
def ShouldTypo (c : Controller) : Option (Bool × Controller) :=
  rollPercent c c.cfg.TypoChance

/-- The functions of package `unicode` that `TypeHuman` uses; their tables are a parameter. -/
structure UnicodeLib where
  IsLetter : Char → Bool
  IsUpper : Char → Bool
  ToLower : Char → Char

/-- The map `neighborKeys`, as the list of its entries. -/
def neighborKeys : List (Char × List Char) :=
  [('a', "qwsz".toList), ('b', "vghn".toList), ('c', "xdfv".toList), ('d', "erfcxs".toList),
    ('e', "wsdr".toList), ('f', "rtgvcd".toList), ('g', "tyhbvf".toList),
    ('h', "yujnbg".toList), ('i', "ujko".toList), ('j', "uikmnh".toList),
    ('k', "iolmj".toList), ('l', "opk".toList), ('m', "njk".toList), ('n', "bhjm".toList),
    ('o', "iklp".toList), ('p', "ol".toList), ('q', "wa".toList), ('r', "edft".toList),
    ('s', "wedxza".toList), ('t', "rfgy".toList), ('u', "yhji".toList), ('v', "cfgb".toList),
    ('w', "qase".toList), ('x', "zsdc".toList), ('y', "tghu".toList), ('z', "asx".toList)]

/-- The lookup `m[key]` in a map to strings: the empty string when the key is missing. -/
def mapGet (key : Char) : List (Char × List Char) → List Char
  | [] => []
  | entry :: rest => if entry.1 = key then entry.2 else mapGet key rest

/-- The expression `rune(strings.ToUpper(string(selected))[0])` for a byte `selected` below
128, as are all bytes of `neighborKeys`: the upper case of an ASCII lower-case letter, any
other such byte unchanged. -/
def upperByte (selected : Char) : Char :=
  if 97 ≤ selected.toNat ∧ selected.toNat ≤ 122 then Char.ofNat (selected.toNat - 32)
  else selected

/-- The function `isTypoCandidate`. -/
def isTypoCandidate (u : UnicodeLib) (ch : Char) : Bool :=
  u.IsLetter ch

/-- The method `Controller.randomNeighbor`; the rune 0 is `Char.ofNat 0`. -/
def randomNeighbor (u : UnicodeLib) (c : Controller) (ch : Char) : Option (Char × Controller) :=
  let lower := u.ToLower ch
  let candidates := mapGet lower neighborKeys
  if candidates = [] then some (Char.ofNat 0, c)
  else
    match c.rng.Intn (candidates.length : Int) with
    | none => none
    | some (index, rng) =>
      let selected := candidates.getD index.toNat (Char.ofNat 0)
      if u.IsUpper ch then some (upperByte selected, { c with rng := rng })
      else some (selected, { c with rng := rng })

/-- The `switch` of `TypeHuman`, lines 60-73: the request that dispatches the character. -/
def charRequest (ch : Char) : Action :=
  if ch = '\n' then Action.press Key.Enter
  else if ch = '\t' then Action.press Key.Tab
  else Action.insertText [ch]

/-- Lines 48-58 of `TypeHuman`, the body of the `if` for a typo: the error it makes
`TypeHuman` return, if any, what was done, and the controller after it. -/
def typoBlock (u : UnicodeLib) (env : Env) (c : Controller) (ch : Char) (trace : List Action) :
    Option (Option Retry.GoErr × List Action × Controller) :=
  match randomNeighbor u c ch with
  | none => none
  | some (typo, c1) =>
    if typo = Char.ofNat 0 then some (none, trace, c1)
    else
      match env.answer trace (Action.insertText [typo]) with
      | some err => some (some err, trace ++ [Action.insertText [typo]], c1)
      | none =>
        match TypingDelay c1 with
        | none => none
        | some (d, c2) =>
          let trace1 := trace ++ [Action.insertText [typo], Action.sleep d]
          match env.answer trace1 (Action.press Key.Backspace) with
          | some err => some (some err, trace1 ++ [Action.press Key.Backspace], c2)
          | none =>
            match randomInt c2 30 80 with
            | none => none
            | some (r, c3) =>
              some (none,
                trace1 ++ [Action.press Key.Backspace, Action.sleep (wrapInt64 (r * Millisecond))],
                c3)

/-- The loop of `TypeHuman`, lines 43-75, over the runes that are left. -/
def typeLoop (u : UnicodeLib) (env : Env) :
    List Char → Controller → List Action → Option (Option Retry.GoErr × List Action × Controller)
  | [], c, trace => some (none, trace, c)
  | ch :: rest, c, trace =>
    match env.ctxErr trace with
    | some err => some (some err, trace, c)
    | none =>
      match ShouldTypo c with
      | none => none
      | some (roll, c1) =>
        match (if roll && isTypoCandidate u ch then typoBlock u env c1 ch trace
            else some (none, trace, c1)) with
        | none => none
        | some (some err, trace1, c2) => some (some err, trace1, c2)
        | some (none, trace1, c2) =>
          match env.answer trace1 (charRequest ch) with
          | some err => some (some err, trace1 ++ [charRequest ch], c2)
          | none =>
            match TypingDelay c2 with
            | none => none
            | some (d, c3) => typeLoop u env rest c3 (trace1 ++ [charRequest ch, Action.sleep d])

/-- The method `Controller.TypeHuman` on the runes of the text: the error it returns, what it
did, and the controller after it; `none` when it panics. -/
def TypeHuman (u : UnicodeLib) (env : Env) (c : Controller) (text : List Char) :
    Option (Option Retry.GoErr × List Action × Controller) :=
  typeLoop u env text c []

/-- The requests to the page in a trace, without the sleeps. -/
def requests : List Action → List Action
  | [] => []
  | Action.sleep _ :: rest => requests rest
  | request :: rest => request :: requests rest

/-- An ASCII letter. -/
def asciiLetter (ch : Char) : Prop :=
  (97 ≤ ch.toNat ∧ ch.toNat ≤ 122) ∨ (65 ≤ ch.toNat ∧ ch.toNat ≤ 90)

instance (ch : Char) : Decidable (asciiLetter ch) := by
  unfold asciiLetter
  infer_instance

/-- The lower case of an ASCII letter. -/
def asciiLower (ch : Char) : Char :=
  if 65 ≤ ch.toNat ∧ ch.toNat ≤ 90 then Char.ofNat (ch.toNat + 32) else ch

/-- What the tables of package `unicode` say about the ASCII letters: they are letters, and
`ToLower` gives their lower case. -/
def UnicodeLib.knowsAscii (u : UnicodeLib) : Prop :=
  ∀ ch, asciiLetter ch → u.IsLetter ch = true ∧ u.ToLower ch = asciiLower ch

/-- The rune is a letter whose lower case has an entry in `neighborKeys`. -/
def hasNeighbours (u : UnicodeLib) (ch : Char) : Prop :=
  u.IsLetter ch = true ∧ mapGet (u.ToLower ch) neighborKeys ≠ []

instance (u : UnicodeLib) (ch : Char) : Decidable (hasNeighbours u ch) := by
  unfold hasNeighbours
  infer_instance

/-- The character `typo` is a key next to the key of `ch` in `neighborKeys`, in lower or in
upper case. -/
def nextTo (u : UnicodeLib) (ch typo : Char) : Prop :=
  ∃ key ∈ mapGet (u.ToLower ch) neighborKeys, typo = key ∨ typo = upperByte key

/-- The requests the claim names for a letter typed with a typo: the typo, Backspace, the
letter. -/
def typoTriple (pair : Char × Char) : List Action :=
  [Action.insertText [pair.2], Action.press Key.Backspace, Action.insertText [pair.1]]

/-- The tables of package `unicode` for the code points below 256 (ASCII and Latin-1); every
other code point is taken as a character that is no letter. -/
def latin1 : UnicodeLib :=
  { IsLetter := fun ch =>
      (65 ≤ ch.toNat && ch.toNat ≤ 90) || (97 ≤ ch.toNat && ch.toNat ≤ 122) ||
        ch.toNat = 0xAA || ch.toNat = 0xB5 || ch.toNat = 0xBA ||
        (0xC0 ≤ ch.toNat && ch.toNat ≤ 0xFF && ch.toNat != 0xD7 && ch.toNat != 0xF7)
    IsUpper := fun ch =>
      (65 ≤ ch.toNat && ch.toNat ≤ 90) ||
        (0xC0 ≤ ch.toNat && ch.toNat ≤ 0xDE && ch.toNat != 0xD7)
    ToLower := fun ch =>
      if (65 ≤ ch.toNat ∧ ch.toNat ≤ 90) ∨ (0xC0 ≤ ch.toNat ∧ ch.toNat ≤ 0xDE ∧ ch.toNat ≠ 0xD7)
      then Char.ofNat (ch.toNat + 32) else ch }

/-- The default controller with a typo chance of 0. -/
def carefulController : Controller :=
  ⟨{ defaultStealth with TypoChance := 0 }, countingRng⟩

/-- The default controller with a typo chance of 100. -/
def clumsyController : Controller :=
  ⟨{ defaultStealth with TypoChance := 100 }, countingRng⟩

end Stealth

namespace Stealth

/-- The two bounds of the typing delay are `int` values whose span `max - min + 1` is one
too. -/
def typingDelayFits (cfg : StealthConfig) : Prop :=
  -9223372036854775808 ≤ cfg.TypingDelayMinMs ∧ cfg.TypingDelayMaxMs < 9223372036854775808 ∧
    cfg.TypingDelayMaxMs - cfg.TypingDelayMinMs < 9223372036854775807

instance (cfg : StealthConfig) : Decidable (typingDelayFits cfg) := by
  unfold typingDelayFits
  infer_instance

end Stealth

namespace Stealth

open GoTime

/-- The method `Controller.ScrollStep`. -/
def ScrollStep (c : Controller) : Option (Int × Controller) :=
  randomInt c c.cfg.ScrollStepMin c.cfg.ScrollStepMax

/-- The method `Controller.ShouldScrollBack`. -/
def ShouldScrollBack (c : Controller) : Option (Bool × Controller) :=
  rollPercent c c.cfg.ScrollBackChance

/-- Lines 18-26 of `ScrollHuman`: the value of `step` for the primary scroll, from the value
`ScrollStep` drew and the distance that remains. -/
def primaryStep (drawn remaining : Int) : Int :=
  let step := if drawn ≤ 0 then 220 else drawn
  let step :=
    if |float64OfInt step| > |float64OfInt remaining| then truncInt |float64OfInt remaining|
    else step
  if remaining < 0 then wrapInt64 (-step) else step

/-- One iteration of the loop of `ScrollHuman` that got as far as its primary scroll: the
distance that remained at its head, the delta of the primary scroll, and the delta of the
corrective scroll if one was requested. -/
structure ScrollTurn where
  remaining : Int
  step : Int
  back : Option Int

/-- How a run of `ScrollHuman` ends: it returns nil or an error, it panics, or the bound on
the number of iterations of the model is used up. -/
inductive Ending where
  | returned (err : Option Retry.GoErr) : Ending
  | panicked : Ending
  | cutShort : Ending
  deriving DecidableEq

/-- A run of `ScrollHuman`: how it ends, its iterations, what it did, and the controller after
it. -/
structure ScrollRun where
  ending : Ending
  turns : List ScrollTurn
  trace : List Action
  c : Controller

/-- The body of the loop of `ScrollHuman`, lines 14-43: the run, when the body leaves the
function, or the distance that remains, the controller, the iterations and the trace for the
next iteration. -/
def scrollBody (env : Env) (remaining : Int) (c : Controller) (turns : List ScrollTurn)
    (trace : List Action) : ScrollRun ⊕ (Int × Controller × List ScrollTurn × List Action) :=
  match env.ctxErr trace with
  | some err => Sum.inl ⟨Ending.returned (some err), turns, trace, c⟩
  | none =>
    match ScrollStep c with
    | none => Sum.inl ⟨Ending.panicked, turns, trace, c⟩
    | some (drawn, c1) =>
      let step := primaryStep drawn remaining
      match randomInt c1 3 10 with
      | none => Sum.inl ⟨Ending.panicked, turns, trace, c1⟩
      | some (steps, c2) =>
        let request := Action.scroll 0 (float64OfInt step) steps
        let turn : ScrollTurn := ⟨remaining, step, none⟩
        match env.answer trace request with
        | some err =>
          Sum.inl ⟨Ending.returned (some err), turns ++ [turn], trace ++ [request], c2⟩
        | none =>
          let left := wrapInt64 (remaining - step)
          match randomDuration c2 60 220 with
          | none => Sum.inl ⟨Ending.panicked, turns ++ [turn], trace ++ [request], c2⟩
          | some (d, c3) =>
            let trace1 := trace ++ [request, Action.sleep d]
            match ShouldScrollBack c3 with
            | none => Sum.inl ⟨Ending.panicked, turns ++ [turn], trace1, c3⟩
            | some (false, c4) => Sum.inr (left, c4, turns ++ [turn], trace1)
            | some (true, c4) =>
              match randomInt c4 40 120 with
              | none => Sum.inl ⟨Ending.panicked, turns ++ [turn], trace1, c4⟩
              | some (drawnBack, c5) =>
                let back := if step < 0 then wrapInt64 (-drawnBack) else drawnBack
                match randomInt c5 2 6 with
                | none => Sum.inl ⟨Ending.panicked, turns ++ [turn], trace1, c5⟩
                | some (backSteps, c6) =>
                  let request2 := Action.scroll 0 (float64OfInt (wrapInt64 (-back))) backSteps
                  let turn2 : ScrollTurn := ⟨remaining, step, some (wrapInt64 (-back))⟩
                  match env.answer trace1 request2 with
                  | some err =>
                    Sum.inl
                      ⟨Ending.returned (some err), turns ++ [turn2], trace1 ++ [request2], c6⟩
                  | none =>
                    match randomDuration c6 80 240 with
                    | none =>
                      Sum.inl ⟨Ending.panicked, turns ++ [turn2], trace1 ++ [request2], c6⟩
                    | some (d2, c7) =>
                      Sum.inr (left, c7, turns ++ [turn2],
                        trace1 ++ [request2, Action.sleep d2])

/-- The loop of `ScrollHuman`, lines 13-44.  The first argument bounds the number of
iterations still to run. -/
def scrollLoop (env : Env) :
    Nat → Int → Controller → List ScrollTurn → List Action → ScrollRun
  | 0, remaining, c, turns, trace =>
    if |float64OfInt remaining| > 0 then ⟨Ending.cutShort, turns, trace, c⟩
    else ⟨Ending.returned none, turns, trace, c⟩
  | fuel + 1, remaining, c, turns, trace =>
    if |float64OfInt remaining| > 0 then
      match scrollBody env remaining c turns trace with
      | Sum.inl run => run
      | Sum.inr (left, c1, turns1, trace1) => scrollLoop env fuel left c1 turns1 trace1
    else ⟨Ending.returned none, turns, trace, c⟩

/-- The method `Controller.ScrollHuman`.  The loop is given `|totalPx|` iterations; a run that
would need more ends as `cutShort`.  When the comparison of line 21 is between exact values
every iteration shortens the distance that remains by at least 1 and the bound is not what
ends the run. -/
def ScrollHuman (env : Env) (c : Controller) (totalPx : Int) : ScrollRun :=
  scrollLoop env totalPx.natAbs totalPx c [] []

/-- The vertical deltas of the scroll requests of a trace, in order. -/
def scrollDeltas : List Action → List ℚ
  | [] => []
  | Action.scroll _ dy _ :: rest => dy :: scrollDeltas rest
  | _ :: rest => scrollDeltas rest

/-- The vertical deltas an iteration requested: the primary one, then the corrective one if
any. -/
def turnDeltas (turn : ScrollTurn) : List ℚ :=
  match turn.back with
  | none => [float64OfInt turn.step]
  | some back => [float64OfInt turn.step, float64OfInt back]

/-- What claim C25 says of an iteration: the primary delta is not zero, has the sign of the
distance that remained and at most its magnitude, and the corrective delta, if any, has the
opposite sign. -/
def goodTurn (turn : ScrollTurn) : Prop :=
  turn.step ≠ 0 ∧
    (0 < turn.remaining → 0 < turn.step ∧ turn.step ≤ turn.remaining) ∧
    (turn.remaining < 0 → turn.remaining ≤ turn.step ∧ turn.step < 0) ∧
    ∀ back, turn.back = some back → (0 < turn.step → back < 0) ∧ (turn.step < 0 → 0 < back)

/-- The two bounds of the scroll step are `int` values. -/
def scrollStepInts (cfg : StealthConfig) : Prop :=
  (-9223372036854775808 ≤ cfg.ScrollStepMin ∧ cfg.ScrollStepMin < 9223372036854775808) ∧
    (-9223372036854775808 ≤ cfg.ScrollStepMax ∧ cfg.ScrollStepMax < 9223372036854775808)

instance (cfg : StealthConfig) : Decidable (scrollStepInts cfg) := by
  unfold scrollStepInts
  infer_instance

/-- The default controller with a scroll step from 0 to `2^63 - 1`. -/
def wideStepController : Controller :=
  ⟨{ defaultStealth with ScrollStepMin := 0, ScrollStepMax := 9223372036854775807 },
    countingRng⟩

/-- The default controller with a scroll step from -5 to 0 and a scroll-back chance of 100. -/
def backwardsStepController : Controller :=
  ⟨{ defaultStealth with ScrollStepMin := -5, ScrollStepMax := 0, ScrollBackChance := 100 },
    countingRng⟩

end Stealth

namespace Stealth

/-- The default controller with a scroll step of exactly `2^53 + 1` and no scroll back. -/
def overshootController : Controller :=
  ⟨{ defaultStealth with
      ScrollStepMin := 9007199254740993, ScrollStepMax := 9007199254740993,
      ScrollBackChance := 0 },
    countingRng⟩

/-- The default controller with a scroll step of exactly `2^53 + 4` and no scroll back. -/
def longStepController : Controller :=
  ⟨{ defaultStealth with
      ScrollStepMin := 9007199254740996, ScrollStepMax := 9007199254740996,
      ScrollBackChance := 0 },
    countingRng⟩

/-- The comparison of line 21 is between exact values: the distance is below `2^53` in
magnitude, or neither bound of the scroll step is above `2^53`. -/
def scrollExact (cfg : StealthConfig) (remaining : Int) : Prop :=
  |remaining| < 9007199254740992 ∨
    (cfg.ScrollStepMin ≤ 9007199254740992 ∧ cfg.ScrollStepMax ≤ 9007199254740992)

instance (cfg : StealthConfig) (remaining : Int) : Decidable (scrollExact cfg remaining) := by
  unfold scrollExact
  infer_instance

/-- The span `max - min + 1` of the scroll step is an `int` value. -/
def scrollStepFits (cfg : StealthConfig) : Prop :=
  cfg.ScrollStepMax - cfg.ScrollStepMin < 9223372036854775807

instance (cfg : StealthConfig) : Decidable (scrollStepFits cfg) := by
  unfold scrollStepFits
  infer_instance

/-- The vertical deltas of the primary scroll requests of a run, in order. -/
def primaryDeltas (run : ScrollRun) : List ℚ :=
  run.turns.map (fun turn => GoTime.float64OfInt turn.step)

end Stealth

namespace Stealth

open GoTime

/-- The distance that remained at the head of each iteration is what the iterations before it
left of `total`: the first one starts from `total`, and each primary delta is taken off
(line 31). -/
def chained (total : Int) : List ScrollTurn → Prop
  | [] => True
  | turn :: rest => turn.remaining = total ∧ chained (wrapInt64 (total - turn.step)) rest

/-- What is left of `total` after the primary deltas of the iterations. -/
def leftAfter (total : Int) : List ScrollTurn → Int
  | [] => total
  | turn :: rest => leftAfter (wrapInt64 (total - turn.step)) rest

end Stealth

/-! ## Theorems -/

namespace GoTime

theorem droppedBits_gen (m : Nat) : ∀ (left e : Nat),
    e ≤ droppedBits m left e ∧ droppedBits m left e ≤ e + left ∧
      (droppedBits m left e < e + left → m < 2 ^ (53 + droppedBits m left e)) ∧
      (droppedBits m left e = e ∨ 2 ^ (52 + droppedBits m left e) ≤ m) := by
  intro left
  induction left with
  | zero =>
    intro e
    simp [droppedBits]
  | succ left ih =>
    intro e
    rw [droppedBits]
    split
    · rename_i h
      exact ⟨le_refl _, by omega, fun _ => h, Or.inl rfl⟩
    · rename_i h
      obtain ⟨h1, h2, h3, h4⟩ := ih (e + 1)
      refine ⟨by omega, by omega, fun hlt => h3 (by omega), ?_⟩
      rcases h4 with h4 | h4
      · right
        rw [h4]
        have : 52 + (e + 1) = 53 + e := by omega
        rw [this]
        exact not_lt.mp h
      · exact Or.inr h4

/-- The number of bits that `float64(n)` drops, for `m < 2^64`: none below `2^53`, and
otherwise as many as leave 53. -/
theorem droppedBits_spec (m : Nat) (h : m < 18446744073709551616) :
    droppedBits m 11 0 ≤ 11 ∧ m < 2 ^ (53 + droppedBits m 11 0) ∧
      (droppedBits m 11 0 = 0 ∨ 2 ^ (52 + droppedBits m 11 0) ≤ m) := by
  obtain ⟨_, h2, h3, h4⟩ := droppedBits_gen m 11 0
  refine ⟨by omega, ?_, h4⟩
  by_cases hlt : droppedBits m 11 0 < 0 + 11
  · exact h3 hlt
  · have : droppedBits m 11 0 = 11 := by omega
    rw [this]
    exact h

/-- Rounding to a multiple of `2^e` moves a value by at most half of `2^e`. -/
theorem roundAt_near (m e : Nat) :
    2 * roundAt m e ≤ 2 * m + 2 ^ e ∧ 2 * m ≤ 2 * roundAt m e + 2 ^ e ∧
      ∃ q, roundAt m e = q * 2 ^ e := by
  have hpos : 0 < 2 ^ e := Nat.pos_of_ne_zero (by positivity)
  have hdm := Nat.div_add_mod m (2 ^ e)
  have hlt := Nat.mod_lt m hpos
  unfold roundAt
  generalize m / 2 ^ e = q at *
  generalize m % 2 ^ e = r at *
  generalize 2 ^ e = p at *
  have hqp : p * q = q * p := Nat.mul_comm _ _
  have h1 : (q + 1) * p = q * p + p := by ring
  split_ifs <;> refine ⟨?_, ?_, ⟨_, rfl⟩⟩ <;> omega

/-- What `nearestFloat` gives for `m < 2^64`: `m` itself below `2^53`, and otherwise a value
not below `2^53` within a relative distance of `2^-53` of `m`. -/
theorem nearestFloat_spec (m : Nat) (h : m < 18446744073709551616) :
    (m ≤ 9007199254740992 → nearestFloat m = m) ∧
      (9007199254740992 ≤ m → 9007199254740992 ≤ nearestFloat m) ∧
      9007199254740992 * nearestFloat m ≤ 9007199254740993 * m ∧
      9007199254740991 * m ≤ 9007199254740992 * nearestFloat m := by
  obtain ⟨_, h2, h3⟩ := droppedBits_spec m h
  obtain ⟨h4, h5, q, h6⟩ := roundAt_near m (droppedBits m 11 0)
  unfold nearestFloat
  generalize droppedBits m 11 0 = e at *
  generalize roundAt m e = R at *
  have hp52 : 2 ^ (52 + e) = 4503599627370496 * 2 ^ e := by rw [pow_add]; norm_num
  have hp53 : 2 ^ (53 + e) = 9007199254740992 * 2 ^ e := by rw [pow_add]; norm_num
  rw [hp52] at h3
  rw [hp53] at h2
  rcases Nat.eq_zero_or_pos e with he | he
  · subst he
    simp only [pow_zero] at *
    have : R = m := by omega
    subst this
    refine ⟨fun _ => rfl, fun h => h, by omega, by omega⟩
  · have hp2 : 2 ≤ 2 ^ e := by
      calc 2 = 2 ^ 1 := by norm_num
        _ ≤ 2 ^ e := Nat.pow_le_pow_right (by norm_num) he
    have h3 : 4503599627370496 * 2 ^ e ≤ m := by
      rcases h3 with h3 | h3
      · omega
      · exact h3
    generalize 2 ^ e = p at *
    have hq : 4503599627370496 ≤ q := by
      by_contra hlt
      have hq1 : q + 1 ≤ 4503599627370496 := by omega
      have := Nat.mul_le_mul_right p hq1
      have h1 : (q + 1) * p = q * p + p := by ring
      omega
    have hR : 4503599627370496 * p ≤ R := by
      rw [h6]
      exact Nat.mul_le_mul_right p hq
    refine ⟨?_, fun _ => by omega, by omega, by omega⟩
    intro hle
    have hm : m = 9007199254740992 := by omega
    have hpe : p = 2 := by omega
    subst hpe
    omega

end GoTime
namespace GoTime

theorem float64OfInt_abs (n : Int) : |float64OfInt n| = ((nearestFloat n.natAbs : Nat) : ℚ) := by
  unfold float64OfInt
  split
  · rw [abs_neg, abs_of_nonneg (Nat.cast_nonneg _)]
  · rw [abs_of_nonneg (Nat.cast_nonneg _)]

/-- The conversion `float64(n)` is exact up to `2^53` in magnitude. -/
theorem float64OfInt_exact (n : Int) (h : |n| ≤ 9007199254740992) :
    float64OfInt n = (n : ℚ) := by
  have habs := abs_le.mp h
  have hm : n.natAbs ≤ 9007199254740992 := by omega
  have hx := (nearestFloat_spec n.natAbs (by omega)).1 hm
  unfold float64OfInt
  rw [hx]
  split
  · rename_i hneg
    have h2 : ((n.natAbs : Nat) : ℚ) = -(n : ℚ) := by
      rw [Nat.cast_natAbs, abs_of_neg hneg, Int.cast_neg]
    rw [h2, neg_neg]
  · rename_i hpos
    rw [Nat.cast_natAbs, abs_of_nonneg (not_lt.mp hpos)]

/-- The conversion `float64(n)` of an `int` that is not negative is not negative and within a
relative distance of `2^-53` of `n`. -/
theorem float64OfInt_near (n : Int) (h0 : 0 ≤ n) (h : n < 9223372036854775808) :
    (n : ℚ) * (1 - 1 / 9007199254740992) ≤ float64OfInt n ∧
      float64OfInt n ≤ (n : ℚ) * (1 + 1 / 9007199254740992) := by
  obtain ⟨_, _, h3, h4⟩ := nearestFloat_spec n.natAbs (by omega)
  have hn : (n : ℚ) = ((n.natAbs : Nat) : ℚ) := by
    rw [Nat.cast_natAbs, abs_of_nonneg h0]
  have h3q : (9007199254740992 : ℚ) * (nearestFloat n.natAbs : ℚ) ≤
      9007199254740993 * (n.natAbs : ℚ) := by exact_mod_cast h3
  have h4q : (9007199254740991 : ℚ) * (n.natAbs : ℚ) ≤
      9007199254740992 * (nearestFloat n.natAbs : ℚ) := by exact_mod_cast h4
  unfold float64OfInt
  rw [if_neg (by omega), hn]
  constructor <;> linarith

theorem bitsAux_spec : ∀ (left m : Nat), m ≤ left →
    m < 2 ^ bitsAux left m ∧ (m ≠ 0 → 2 ^ bitsAux left m ≤ 2 * m) := by
  intro left
  induction left with
  | zero =>
    intro m hm
    have : m = 0 := by omega
    subst this
    simp [bitsAux]
  | succ left ih =>
    intro m hm
    rw [bitsAux]
    split
    · rename_i h0
      subst h0
      simp
    · rename_i h0
      obtain ⟨h1, h2⟩ := ih (m / 2) (by omega)
      rw [pow_succ]
      refine ⟨by omega, fun _ => ?_⟩
      by_cases hz : m / 2 = 0
      · have hb : bitsAux left (m / 2) = 0 := by
          rw [hz]
          cases left <;> simp [bitsAux]
        rw [hb]
        omega
      · have := h2 hz
        omega

/-- The number of binary digits: `2^(bitLength m - 1) <= m < 2^(bitLength m)` for `m > 0`. -/
theorem bitLength_spec (m : Nat) :
    m < 2 ^ bitLength m ∧ (m ≠ 0 → 2 ^ bitLength m ≤ 2 * m) :=
  bitsAux_spec m m (le_refl _)

/-- Rounding to the nearest whole number moves a value by at most one half. -/
theorem roundHalfEven_near (x : ℚ) : |(roundHalfEven x : ℚ) - x| ≤ 1 / 2 := by
  have h1 := Int.floor_le x
  have h2 := Int.lt_floor_add_one x
  unfold roundHalfEven
  rw [abs_le]
  split_ifs <;> push_cast <;> constructor <;> linarith

/-- The exponent of `float64Exponent` leaves 53 significant bits before the point. -/
theorem float64Exponent_spec (x : ℚ) (hx : x ≠ 0) :
    (4503599627370496 : ℚ) ≤ |x| / (2 : ℚ) ^ float64Exponent x ∧
      |x| / (2 : ℚ) ^ float64Exponent x < 9007199254740992 := by
  obtain ⟨ha1, ha2⟩ := bitLength_spec x.num.natAbs
  obtain ⟨hb1, hb2⟩ := bitLength_spec x.den
  have hn0 : x.num.natAbs ≠ 0 := by
    intro h
    exact hx (Rat.zero_of_num_zero (Int.natAbs_eq_zero.mp h))
  have ha2 := ha2 hn0
  have hb2 := hb2 x.den_nz
  have habs : |x| = (x.num.natAbs : ℚ) / (x.den : ℚ) := by
    conv_lhs => rw [← Rat.num_div_den x]
    rw [abs_div, Nat.cast_natAbs, Int.cast_abs, abs_of_pos (by exact_mod_cast x.den_pos : (0 : ℚ) < x.den)]
  have hd : (0 : ℚ) < (x.den : ℚ) := by exact_mod_cast x.den_pos
  have hnq : (0 : ℚ) < (x.num.natAbs : ℚ) := by exact_mod_cast Nat.pos_of_ne_zero hn0
  have ha1q : (x.num.natAbs : ℚ) < (2 : ℚ) ^ bitLength x.num.natAbs := by exact_mod_cast ha1
  have ha2q : (2 : ℚ) ^ bitLength x.num.natAbs ≤ 2 * (x.num.natAbs : ℚ) := by exact_mod_cast ha2
  have hb1q : (x.den : ℚ) < (2 : ℚ) ^ bitLength x.den := by exact_mod_cast hb1
  have hb2q : (2 : ℚ) ^ bitLength x.den ≤ 2 * (x.den : ℚ) := by exact_mod_cast hb2
  have h2 : (2 : ℚ) ≠ 0 := by norm_num
  have he : (2 : ℚ) ^ ((bitLength x.num.natAbs : Int) - (bitLength x.den : Int) - 53) =
      (2 : ℚ) ^ bitLength x.num.natAbs / (2 : ℚ) ^ bitLength x.den / 9007199254740992 := by
    rw [zpow_sub₀ h2, zpow_sub₀ h2, zpow_natCast, zpow_natCast]
    norm_num
  have hA : (0 : ℚ) < (2 : ℚ) ^ bitLength x.num.natAbs := by positivity
  have hB : (0 : ℚ) < (2 : ℚ) ^ bitLength x.den := by positivity
  have hAd : (2 : ℚ) ^ bitLength x.num.natAbs * (x.den : ℚ) <
      2 * (x.num.natAbs : ℚ) * (2 : ℚ) ^ bitLength x.den := by
    calc (2 : ℚ) ^ bitLength x.num.natAbs * (x.den : ℚ)
        ≤ 2 * (x.num.natAbs : ℚ) * (x.den : ℚ) := mul_le_mul_of_nonneg_right ha2q hd.le
      _ < 2 * (x.num.natAbs : ℚ) * (2 : ℚ) ^ bitLength x.den :=
        mul_lt_mul_of_pos_left hb1q (by positivity)
  have hnB : (x.num.natAbs : ℚ) * (2 : ℚ) ^ bitLength x.den <
      (2 : ℚ) ^ bitLength x.num.natAbs * (2 * (x.den : ℚ)) := by
    calc (x.num.natAbs : ℚ) * (2 : ℚ) ^ bitLength x.den
        ≤ (x.num.natAbs : ℚ) * (2 * (x.den : ℚ)) := mul_le_mul_of_nonneg_left hb2q hnq.le
      _ < (2 : ℚ) ^ bitLength x.num.natAbs * (2 * (x.den : ℚ)) :=
        mul_lt_mul_of_pos_right ha1q (by positivity)
  have hquot : |x| / (2 : ℚ) ^ ((bitLength x.num.natAbs : Int) - (bitLength x.den : Int) - 53) =
      (x.num.natAbs : ℚ) * (2 : ℚ) ^ bitLength x.den * 9007199254740992 /
        ((x.den : ℚ) * (2 : ℚ) ^ bitLength x.num.natAbs) := by
    rw [he, habs]
    field_simp
    ring
  have hlow : (4503599627370496 : ℚ) <
      |x| / (2 : ℚ) ^ ((bitLength x.num.natAbs : Int) - (bitLength x.den : Int) - 53) := by
    rw [hquot, lt_div_iff₀ (by positivity)]
    linarith
  have hhigh : |x| / (2 : ℚ) ^ ((bitLength x.num.natAbs : Int) - (bitLength x.den : Int) - 53) <
      18014398509481984 := by
    rw [hquot, div_lt_iff₀ (by positivity)]
    linarith
  unfold float64Exponent
  simp only
  split
  · rename_i hlt
    exact ⟨hlow.le, hlt⟩
  · rename_i hge
    have hge := not_lt.mp hge
    rw [zpow_add₀ h2, zpow_one, ← div_div]
    constructor <;> linarith

/-- A `float64` operation gives its exact result up to a relative error of `2^-53`. -/
theorem roundFloat64_near (x : ℚ) : |roundFloat64 x - x| ≤ |x| / 9007199254740992 := by
  unfold roundFloat64
  split
  · rename_i h0
    simp [h0]
  · rename_i hx
    obtain ⟨h1, _⟩ := float64Exponent_spec x hx
    have hr := roundHalfEven_near (x / (2 : ℚ) ^ float64Exponent x)
    have hp : (0 : ℚ) < (2 : ℚ) ^ float64Exponent x := by positivity
    generalize (2 : ℚ) ^ float64Exponent x = p at *
    generalize (roundHalfEven (x / p) : ℚ) = R at *
    have hRx : R * p - x = (R - x / p) * p := by field_simp
    rw [hRx, abs_mul, abs_of_pos hp]
    rw [le_div_iff₀ hp] at h1
    have : |R - x / p| * p ≤ 1 / 2 * p := mul_le_mul_of_nonneg_right hr hp.le
    linarith

/-- A `float64` operation whose exact result is not negative gives a result that is not
negative. -/
theorem roundFloat64_nonneg (x : ℚ) (h : 0 ≤ x) : 0 ≤ roundFloat64 x := by
  have h1 := roundFloat64_near x
  rw [abs_of_nonneg h] at h1
  have := (abs_le.mp h1).1
  have : x / 9007199254740992 ≤ x := by
    rw [div_le_iff₀ (by norm_num)]
    nlinarith
  linarith

end GoTime

namespace Retry

theorem body_cases (env : Env) (p : Policy) (a : Int) (t : List Event) :
    (∃ e, env.ctxErr t = some e ∧
      body env p a t = Step.ret (some e) (t ++ [Event.ctxErr (some e)])) ∨
    (env.ctxErr t = none ∧ env.fn (t ++ [Event.ctxErr none]) a = none ∧
      body env p a t = Step.ret none (t ++ [Event.ctxErr none, Event.call a none])) ∨
    (∃ err, env.ctxErr t = none ∧ env.fn (t ++ [Event.ctxErr none]) a = some err ∧
      (isCancellation err = true ∨ a = p.Attempts ∨ rejects p err = true) ∧
      body env p a t = Step.ret (some err) (t ++ [Event.ctxErr none, Event.call a (some err)])) ∨
    (∃ err d e, env.ctxErr t = none ∧ env.fn (t ++ [Event.ctxErr none]) a = some err ∧
      isCancellation err = false ∧ a ≠ p.Attempts ∧ rejects p err = false ∧ 0 < d ∧
      env.ctxDone (t ++ (Event.ctxErr none :: Event.call a (some err) :: observe p a d err)) d
        = some e ∧
      body env p a t = Step.ret (some e)
        (t ++ (Event.ctxErr none :: Event.call a (some err) ::
          (observe p a d err ++ [Event.sleep d (some e)])))) ∨
    (∃ err d, env.ctxErr t = none ∧ env.fn (t ++ [Event.ctxErr none]) a = some err ∧
      isCancellation err = false ∧ a ≠ p.Attempts ∧ rejects p err = false ∧
      (0 < d → env.ctxDone
        (t ++ (Event.ctxErr none :: Event.call a (some err) :: observe p a d err)) d = none) ∧
      body env p a t = Step.next
        (t ++ (Event.ctxErr none :: Event.call a (some err) :: (observe p a d err ++ slept d)))) := by
  unfold body
  cases hc : env.ctxErr t with
  | some e => left; exact ⟨e, rfl, rfl⟩
  | none =>
    right
    cases hf : env.fn (t ++ [Event.ctxErr none]) a with
    | none => left; simp [hf]
    | some err =>
      right
      simp only [hf, List.append_assoc, List.singleton_append, true_and]
      by_cases h1 : isCancellation err = true
      · left; exact ⟨err, by simp, Or.inl h1, by simp [h1]⟩
      by_cases h2 : a = p.Attempts
      · left; exact ⟨err, by simp, Or.inr (Or.inl h2), by simp [h1, h2]⟩
      by_cases h3 : rejects p err = true
      · left; exact ⟨err, by simp, Or.inr (Or.inr h3), by simp [h1, h2, h3]⟩
      right
      simp only [Bool.not_eq_true] at h1 h3
      simp only [h1, h2, h3, Bool.false_eq_true, if_false]
      generalize hdel : backoffDelay env.arith p a
          (env.float64 (t ++ [Event.ctxErr none, Event.call a (some err)])) = d
      by_cases hd : d ≤ 0
      · right
        refine ⟨err, d, rfl, h1, h2, h3, ?_, ?_⟩
        · intro hpos; omega
        · simp [sleep, hd, slept, not_lt.mpr hd]
      · cases hs : env.ctxDone (t ++ (Event.ctxErr none :: Event.call a (some err) ::
            observe p a d err)) d with
        | none =>
          right
          refine ⟨err, d, rfl, h1, h2, h3, ?_, ?_⟩
          · intro _; exact hs
          · simp [sleep, hd, slept, not_le.mp hd, hs]
        | some e =>
          left
          refine ⟨err, d, e, rfl, h1, h2, h3, not_le.mp hd, ?_, ?_⟩
          · exact hs
          · simp [sleep, hd, hs]

theorem calls_append (xs ys : List Event) : calls (xs ++ ys) = calls xs ++ calls ys := by
  induction xs with
  | nil => rfl
  | cons x xs ih => cases x <;> simp [calls, ih]

theorem okFrom_append (env : Env) (xs ys b : List Event) :
    okFrom env b (xs ++ ys) ↔ okFrom env b xs ∧ okFrom env (b ++ xs) ys := by
  induction xs generalizing b with
  | nil => simp [okFrom]
  | cons x xs ih => simp [okFrom, ih, and_assoc]

theorem okFrom_at (env : Env) (b start : List Event) (ev : Event) (rest : List Event)
    (h : okFrom env b (start ++ ev :: rest)) : okEvent env (b ++ start) ev := by
  rw [okFrom_append] at h
  exact h.2.1

theorem shape_append (p : Policy) (r : Option GoErr) (xs ys : List Event)
    (h : ∀ ev ∈ xs, verdict p ev = none) : shape p r (xs ++ ys) ↔ shape p r ys := by
  induction xs with
  | nil => simp
  | cons x xs ih =>
    have hx : verdict p x = none := h x (List.mem_cons_self _ _)
    have hxs : ∀ ev ∈ xs, verdict p ev = none := fun ev hev => h ev (List.mem_cons_of_mem _ hev)
    simp [shape, hx, ih hxs]

theorem shape_last (p : Policy) (r r1 : Option GoErr) (start : List Event) (ev : Event)
    (rest : List Event) (h : shape p r (start ++ ev :: rest)) (hv : verdict p ev = some r1) :
    rest = [] ∧ r = r1 := by
  induction start with
  | nil => simpa [shape, hv] using h
  | cons x xs ih =>
    cases hx : verdict p x with
    | none =>
      apply ih
      simpa [shape, hx] using h
    | some r2 =>
      simp [shape, hx] at h

theorem verdict_observe (p : Policy) (a d : Int) (err : GoErr) :
    ∀ ev ∈ observe p a d err, verdict p ev = none := by
  intro ev hev
  unfold observe at hev
  split at hev
  · simp at hev; subst hev; rfl
  · simp at hev

theorem verdict_slept (p : Policy) (d : Int) : ∀ ev ∈ slept d, verdict p ev = none := by
  intro ev hev
  unfold slept at hev
  split at hev
  · simp at hev; subst hev; rfl
  · simp at hev

theorem calls_observe (p : Policy) (a d : Int) (err : GoErr) : calls (observe p a d err) = [] := by
  unfold observe; split <;> rfl

theorem calls_slept (d : Int) : calls (slept d) = [] := by
  unfold slept; split <;> rfl

theorem okFrom_observe (env : Env) (b : List Event) (p : Policy) (a d : Int) (err : GoErr) :
    okFrom env b (observe p a d err) := by
  unfold observe; split <;> simp [okFrom, okEvent]

theorem okFrom_slept (env : Env) (b : List Event) (d : Int)
    (h : 0 < d → env.ctxDone b d = none) (hb : calls b ≠ []) : okFrom env b (slept d) := by
  unfold slept
  split
  · rename_i hd; simp [okFrom, okEvent, hd, h hd, hb]
  · simp [okFrom]

/-- The invariant of the loop: what it appends to the trace is consistent with the environment,
has the shape of a run, and calls the attempt function with consecutive attempt numbers. -/
theorem doLoop_inv (env : Env) (p : Policy) (fuel : Nat) :
    ∀ (a : Int) (t : List Event), ∃ suf, (doLoop env p fuel a t).2 = t ++ suf ∧
      okFrom env t suf ∧ shape p (doLoop env p fuel a t).1 suf ∧
      ∃ j, calls suf = attemptsFrom a j := by
  induction fuel with
  | zero =>
    intro a t
    exact ⟨[], by simp [doLoop], by simp [okFrom], by simp [doLoop, shape], 0, rfl⟩
  | succ fuel ih =>
    intro a t
    by_cases ha : a ≤ p.Attempts
    swap
    · exact ⟨[], by simp [doLoop, ha], by simp [okFrom], by simp [doLoop, shape, ha], 0, rfl⟩
    simp only [doLoop, ha, if_true]
    rcases body_cases env p a t with ⟨e, hc, hb⟩ | ⟨hc, hf, hb⟩ | ⟨err, hc, hf, hw, hb⟩ |
      ⟨err, d, e, hc, hf, h1, h2, h3, hd, hs, hb⟩ | ⟨err, d, hc, hf, h1, h2, h3, hs, hb⟩
    · rw [hb]
      exact ⟨_, rfl, by simp [okFrom, okEvent, hc], by simp [shape, verdict], 0, rfl⟩
    · rw [hb]
      exact ⟨_, rfl, by simp [okFrom, okEvent, hc, hf], by simp [shape, verdict], 1, rfl⟩
    · rw [hb]
      refine ⟨_, rfl, by simp [okFrom, okEvent, hc, hf], ?_, 1, rfl⟩
      have : (isCancellation err || decide (a = p.Attempts) || rejects p err) = true := by
        rcases hw with h | h | h <;> simp [h]
      simp [shape, verdict, this]
    · rw [hb]
      have hv : verdict p (Event.call a (some err)) = none := by simp [verdict, h1, h2, h3]
      have hnews : ∀ ev ∈ Event.ctxErr none :: Event.call a (some err) :: observe p a d err,
          verdict p ev = none := by
        intro ev hev
        rcases List.mem_cons.mp hev with h | hev
        · subst h; rfl
        rcases List.mem_cons.mp hev with h | hev
        · subst h; exact hv
        · exact verdict_observe p a d err ev hev
      refine ⟨Event.ctxErr none :: Event.call a (some err) :: observe p a d err ++
        [Event.sleep d (some e)], by simp, ?_, ?_, 1, ?_⟩
      · rw [okFrom_append]
        refine ⟨?_, by simp [okFrom, okEvent, hd, hs, calls, calls_append]⟩
        simp only [okFrom, okEvent, hc, hf, true_and]
        exact ⟨⟨t, rfl⟩, okFrom_observe _ _ _ _ _ _⟩
      · rw [shape_append _ _ _ _ hnews]
        simp [shape, verdict]
      · simp [calls, calls_append, calls_observe, attemptsFrom]
    · rw [hb]
      have hv : verdict p (Event.call a (some err)) = none := by simp [verdict, h1, h2, h3]
      have hnews : ∀ ev ∈ Event.ctxErr none :: Event.call a (some err) ::
          (observe p a d err ++ slept d), verdict p ev = none := by
        intro ev hev
        rcases List.mem_cons.mp hev with h | hev
        · subst h; rfl
        rcases List.mem_cons.mp hev with h | hev
        · subst h; exact hv
        rcases List.mem_append.mp hev with hev | hev
        · exact verdict_observe p a d err ev hev
        · exact verdict_slept p d ev hev
      obtain ⟨suf, h1s, h2s, h3s, j, h4s⟩ := ih (a + 1)
        (t ++ (Event.ctxErr none :: Event.call a (some err) :: (observe p a d err ++ slept d)))
      refine ⟨Event.ctxErr none :: Event.call a (some err) :: (observe p a d err ++ slept d) ++ suf,
        by simp [h1s], ?_, ?_, j + 1, ?_⟩
      · rw [okFrom_append]
        refine ⟨?_, h2s⟩
        simp only [okFrom, okEvent, hc, hf, true_and]
        refine ⟨⟨t, rfl⟩, ?_⟩
        rw [okFrom_append]
        refine ⟨okFrom_observe _ _ _ _ _ _, okFrom_slept _ _ _ ?_ ?_⟩
        · simpa using hs
        · simp [calls, calls_append]
      · rw [shape_append _ _ _ _ hnews]
        exact h3s
      · simp [calls, calls_append, calls_observe, calls_slept, attemptsFrom, h4s]

theorem normalize_attempts_pos (policy : Policy) : 1 ≤ (normalize policy).Attempts := by
  simp only [normalize]
  split <;> omega

/-- The trace of `Do` is consistent with the environment, has the shape of a run and calls the
attempt function with the attempt numbers 1, 2, ... in order. -/
theorem Do_inv (env : Env) (policy : Policy) :
    okFrom env [] (Do env policy).2 ∧ shape (normalize policy) (Do env policy).1 (Do env policy).2 ∧
      ∃ j, calls (Do env policy).2 = attemptsFrom 1 j := by
  obtain ⟨suf, h1, h2, h3, h4⟩ :=
    doLoop_inv env (normalize policy) (normalize policy).Attempts.toNat 1 []
  simp only [List.nil_append] at h1
  simp only [Do]
  rw [h1]
  exact ⟨h2, h3, h4⟩

/-- The bound on the iterations is only a bound: once it covers the attempts that are left,
a larger one gives the same run. -/
theorem doLoop_fuel_irrelevant (env : Env) (p : Policy) (fuel : Nat) :
    ∀ (a : Int) (t : List Event), p.Attempts - a + 1 ≤ fuel →
      doLoop env p (fuel + 1) a t = doLoop env p fuel a t := by
  induction fuel with
  | zero =>
    intro a t h
    have ha : ¬ a ≤ p.Attempts := by omega
    simp [doLoop, ha]
  | succ fuel ih =>
    intro a t h
    by_cases ha : a ≤ p.Attempts
    · rw [doLoop, doLoop]
      simp only [ha, if_true]
      cases body env p a t with
      | ret r t1 => rfl
      | next t1 => exact ih (a + 1) t1 (by omega)
    · rw [doLoop, doLoop]
      simp only [ha, if_false]

/-- The bound `Do` passes is enough: any larger bound gives the run of `Do`. -/
theorem Do_fuel_enough (env : Env) (policy : Policy) (extra : Nat) :
    doLoop env (normalize policy) ((normalize policy).Attempts.toNat + extra) 1 [] =
      Do env policy := by
  induction extra with
  | zero => rfl
  | succ extra ih =>
    rw [← ih, ← Nat.add_assoc]
    apply doLoop_fuel_irrelevant
    have := Int.toNat_of_nonneg (show 0 ≤ (normalize policy).Attempts by
      have := normalize_attempts_pos policy; omega)
    omega

theorem attemptsFrom_length (a : Int) (n : Nat) : (attemptsFrom a n).length = n := by
  induction n generalizing a with
  | zero => rfl
  | succ n ih => simp [attemptsFrom, ih]

theorem attemptsFrom_succ (a : Int) (n : Nat) :
    attemptsFrom a (n + 1) = a :: attemptsFrom (a + 1) n := rfl

/-- With a context that stays alive, `k - c` more failures that are retried and then a success,
the loop returns nil after calling the attempt function `k - c + 1` more times. -/
theorem doLoop_success (env : Env) (p : Policy) (k : Nat)
    (hctx : ∀ t, env.ctxErr t = none) (hdone : ∀ t d, env.ctxDone t d = none)
    (hfail : ∀ t a, (calls t).length < k →
      ∃ e, env.fn t a = some e ∧ isCancellation e = false ∧ rejects p e = false)
    (hok : ∀ t a, (calls t).length = k → env.fn t a = none) (m : Nat) :
    ∀ (fuel : Nat) (a : Int) (t : List Event), (calls t).length + m = k → m < fuel →
      a + m ≤ p.Attempts →
      (doLoop env p fuel a t).1 = none ∧
        calls (doLoop env p fuel a t).2 = calls t ++ attemptsFrom a (m + 1) := by
  induction m with
  | zero =>
    intro fuel a t hk hfuel ha
    obtain ⟨fuel, rfl⟩ : ∃ f, fuel = f + 1 := ⟨fuel - 1, by omega⟩
    have ha1 : a ≤ p.Attempts := by omega
    have hf : env.fn (t ++ [Event.ctxErr none]) a = none :=
      hok _ _ (by simpa [calls_append, calls] using hk)
    simp only [doLoop, ha1, if_true]
    rcases body_cases env p a t with ⟨e, hc, _⟩ | ⟨_, _, hb⟩ | ⟨err, _, hf1, _⟩ |
      ⟨err, d, e, _, hf1, _⟩ | ⟨err, d, _, hf1, _⟩
    · rw [hctx] at hc; cases hc
    · rw [hb]; simp [calls_append, calls, attemptsFrom]
    · rw [hf] at hf1; cases hf1
    · rw [hf] at hf1; cases hf1
    · rw [hf] at hf1; cases hf1
  | succ m ih =>
    intro fuel a t hk hfuel ha
    obtain ⟨fuel, rfl⟩ : ∃ f, fuel = f + 1 := ⟨fuel - 1, by omega⟩
    have ha1 : a ≤ p.Attempts := by omega
    obtain ⟨e0, hf, hc0, hr0⟩ := hfail (t ++ [Event.ctxErr none]) a
      (by simp [calls_append, calls]; omega)
    simp only [doLoop, ha1, if_true]
    rcases body_cases env p a t with ⟨e, hc, _⟩ | ⟨_, hf1, _⟩ | ⟨err, _, hf1, hw, _⟩ |
      ⟨err, d, e, _, _, _, _, _, _, hs, _⟩ | ⟨err, d, _, hf1, _, _, _, _, hb⟩
    · rw [hctx] at hc; cases hc
    · rw [hf] at hf1; cases hf1
    · rw [hf] at hf1; cases hf1
      rcases hw with h | h | h
      · rw [hc0] at h; cases h
      · omega
      · rw [hr0] at h; cases h
    · rw [hdone] at hs; cases hs
    · rw [hb]
      have hcalls : calls (t ++ Event.ctxErr none :: Event.call a (some err) ::
          (observe p a d err ++ slept d)) = calls t ++ [a] := by
        simp [calls_append, calls, calls_observe, calls_slept]
      obtain ⟨h1, h2⟩ := ih fuel (a + 1) _ (by rw [hcalls]; simp; omega) (by omega) (by omega)
      refine ⟨h1, ?_⟩
      rw [h2, hcalls, attemptsFrom_succ a (m + 1)]
      simp

/-- With a context that stays alive and an attempt function that always fails with an error
that is retried, the loop runs to the last attempt and returns its error. -/
theorem doLoop_exhaust (env : Env) (p : Policy)
    (hctx : ∀ t, env.ctxErr t = none) (hdone : ∀ t d, env.ctxDone t d = none)
    (hfail : ∀ t a, ∃ e, env.fn t a = some e ∧ isCancellation e = false ∧ rejects p e = false)
    (m : Nat) :
    ∀ (fuel : Nat) (a : Int) (t : List Event), m < fuel → a + m = p.Attempts →
      calls (doLoop env p fuel a t).2 = calls t ++ attemptsFrom a (m + 1) ∧
      ∃ e start, (doLoop env p fuel a t).2 = start ++ [Event.call p.Attempts (some e)] ∧
        env.fn start p.Attempts = some e ∧ (doLoop env p fuel a t).1 = some e := by
  induction m with
  | zero =>
    intro fuel a t hfuel ha
    obtain ⟨fuel, rfl⟩ : ∃ f, fuel = f + 1 := ⟨fuel - 1, by omega⟩
    have ha1 : a = p.Attempts := by omega
    obtain ⟨e0, hf, hc0, hr0⟩ := hfail (t ++ [Event.ctxErr none]) a
    simp only [doLoop, ha1, le_refl, if_true]
    rw [ha1] at hf
    rcases body_cases env p p.Attempts t with ⟨e, hc, _⟩ | ⟨_, hf1, _⟩ | ⟨err, _, hf1, hw, hb⟩ |
      ⟨err, d, e, _, _, _, h2, _⟩ | ⟨err, d, _, _, _, h2, _⟩
    · rw [hctx] at hc; cases hc
    · rw [hf] at hf1; cases hf1
    · rw [hf] at hf1; cases hf1
      rw [hb]
      refine ⟨by simp [calls_append, calls, attemptsFrom], e0, t ++ [Event.ctxErr none], by simp, hf, rfl⟩
    · exact absurd rfl h2
    · exact absurd rfl h2
  | succ m ih =>
    intro fuel a t hfuel ha
    obtain ⟨fuel, rfl⟩ : ∃ f, fuel = f + 1 := ⟨fuel - 1, by omega⟩
    have ha1 : a ≤ p.Attempts := by omega
    obtain ⟨e0, hf, hc0, hr0⟩ := hfail (t ++ [Event.ctxErr none]) a
    simp only [doLoop, ha1, if_true]
    rcases body_cases env p a t with ⟨e, hc, _⟩ | ⟨_, hf1, _⟩ | ⟨err, _, hf1, hw, _⟩ |
      ⟨err, d, e, _, _, _, _, _, _, hs, _⟩ | ⟨err, d, _, hf1, _, _, _, _, hb⟩
    · rw [hctx] at hc; cases hc
    · rw [hf] at hf1; cases hf1
    · rw [hf] at hf1; cases hf1
      rcases hw with h | h | h
      · rw [hc0] at h; cases h
      · omega
      · rw [hr0] at h; cases h
    · rw [hdone] at hs; cases hs
    · rw [hb]
      have hcalls : calls (t ++ Event.ctxErr none :: Event.call a (some err) ::
          (observe p a d err ++ slept d)) = calls t ++ [a] := by
        simp [calls_append, calls, calls_observe, calls_slept]
      obtain ⟨h1, h2⟩ := ih fuel (a + 1) (t ++ Event.ctxErr none :: Event.call a (some err) ::
          (observe p a d err ++ slept d)) (by omega) (by omega)
      refine ⟨?_, h2⟩
      rw [h1, hcalls, attemptsFrom_succ a (m + 1)]
      simp

theorem normalize_attempts_of_pos (policy : Policy) (h : 0 < policy.Attempts) :
    (normalize policy).Attempts = policy.Attempts := by
  simp only [normalize]
  rw [if_neg (by omega)]

/-- C1: with a context that stays alive and `Attempts = n`, if the attempt function fails with
an error that is retried on its first `k < n` invocations and succeeds on the next one, `Do`
returns nil and the attempt function is called exactly `k + 1` times, with the attempt numbers
`1, ..., k + 1` in that order. -/
theorem Do_succeeds_after_failures (env : Env) (policy : Policy) (n k : Nat)
    (hn : policy.Attempts = n) (hk : k < n)
    (hctx : ∀ t, env.ctxErr t = none) (hdone : ∀ t d, env.ctxDone t d = none)
    (hfail : ∀ t a, (calls t).length < k →
      ∃ e, env.fn t a = some e ∧ isCancellation e = false ∧ rejects policy e = false)
    (hok : ∀ t a, (calls t).length = k → env.fn t a = none) :
    (Do env policy).1 = none ∧ calls (Do env policy).2 = attemptsFrom 1 (k + 1) ∧
      (calls (Do env policy).2).length = k + 1 := by
  have hp : (normalize policy).Attempts = n := by
    rw [normalize_attempts_of_pos policy (by omega), hn]
  have h := doLoop_success env (normalize policy) k hctx hdone hfail hok k
    (normalize policy).Attempts.toNat 1 [] (by simp [calls]) (by omega) (by omega)
  simp only [calls, List.nil_append] at h
  refine ⟨h.1, h.2, ?_⟩
  simp only [Do]
  rw [h.2, attemptsFrom_length]

theorem Do_succeeds_after_failures_witness :
    (Do envFailTwice DefaultPolicy).1 = none ∧
      calls (Do envFailTwice DefaultPolicy).2 = [1, 2, 3] ∧
      (calls (Do envFailTwice DefaultPolicy).2).length = 3 :=
  Do_succeeds_after_failures envFailTwice DefaultPolicy 3 2 rfl (by decide)
    (fun _ => rfl) (fun _ _ => rfl)
    (fun t _ h => ⟨GoErr.plain 7, by simp [envFailTwice, h], by decide, rfl⟩)
    (fun t _ h => by simp [envFailTwice, h])

/-- C2: with a context that stays alive, `Attempts = n >= 1` and an attempt function that always
fails with an error that is retried, the attempt function is called exactly `n` times, with
the attempt numbers `1, ..., n`, and `Do` returns the error of the last invocation. -/
theorem Do_exhausted_returns_last_error (env : Env) (policy : Policy) (n : Nat)
    (hn : policy.Attempts = n) (h1 : 1 ≤ n)
    (hctx : ∀ t, env.ctxErr t = none) (hdone : ∀ t d, env.ctxDone t d = none)
    (hfail : ∀ t a,
      ∃ e, env.fn t a = some e ∧ isCancellation e = false ∧ rejects policy e = false) :
    calls (Do env policy).2 = attemptsFrom 1 n ∧ (calls (Do env policy).2).length = n ∧
      ∃ e start, (Do env policy).2 = start ++ [Event.call n (some e)] ∧
        env.fn start n = some e ∧ (Do env policy).1 = some e := by
  have hp : (normalize policy).Attempts = n := by
    rw [normalize_attempts_of_pos policy (by omega), hn]
  obtain ⟨m, rfl⟩ : ∃ m, n = m + 1 := ⟨n - 1, by omega⟩
  have h := doLoop_exhaust env (normalize policy) hctx hdone hfail m
    (normalize policy).Attempts.toNat 1 [] (by omega) (by rw [hp]; push_cast; ring)
  simp only [calls, List.nil_append] at h
  rw [hp] at h
  have hDo : Do env policy = doLoop env (normalize policy) (Int.toNat ((m + 1 : Nat) : Int)) 1 [] := by
    simp only [Do, hp]
  rw [hDo]
  refine ⟨h.1, ?_, h.2⟩
  rw [h.1, attemptsFrom_length]

theorem Do_exhausted_returns_last_error_witness :
    calls (Do envAlwaysFail DefaultPolicy).2 = [1, 2, 3] ∧
      (calls (Do envAlwaysFail DefaultPolicy).2).length = 3 ∧
      ∃ e start, (Do envAlwaysFail DefaultPolicy).2 = start ++ [Event.call 3 (some e)] ∧
        envAlwaysFail.fn start 3 = some e ∧ (Do envAlwaysFail DefaultPolicy).1 = some e :=
  Do_exhausted_returns_last_error envAlwaysFail DefaultPolicy 3 rfl (by decide)
    (fun _ => rfl) (fun _ _ => rfl) (fun _ _ => ⟨GoErr.plain 7, rfl, by decide, rfl⟩)

theorem normalize_facts (policy : Policy) :
    0 ≤ (normalize policy).BaseDelay ∧ 0 < (normalize policy).Factor ∧
      0 ≤ (normalize policy).MaxDelay ∧
      ((normalize policy).MaxDelay = 0 → (normalize policy).BaseDelay = 0) ∧
      0 ≤ (normalize policy).Jitter := by
  simp only [normalize]
  refine ⟨?_, ?_, ?_, ?_, ?_⟩
  · split <;> omega
  · split
    · norm_num
    · rename_i h; exact not_le.mp h
  · split <;> (try split) <;> omega
  · split <;> (try split) <;> omega
  · split
    · exact le_refl _
    · rename_i h; exact not_lt.mp h

theorem near_of_nonneg (e c x : ℚ) (hx : 0 ≤ x) (h : near e c x) :
    x * (1 - e) ≤ c ∧ c ≤ x * (1 + e) := by
  unfold near at h
  rw [abs_of_nonneg hx] at h
  have := abs_le.mp h
  constructor <;> linarith

theorem near_abs (e c x : ℚ) (h : near e c x) : x - e * |x| ≤ c ∧ c ≤ x + e * |x| := by
  unfold near at h
  have := abs_le.mp h
  constructor <;> linarith

/-- The delay after the cap of lines 89-91, computed with operations of relative error `e`, is
the capped delay `D` up to the factors `1 - 3e` and `1 + 7e`. -/
theorem capped_band (B P M e B' P' M' d0 d1 : ℚ) (hB : 0 ≤ B) (hP : 0 < P) (hM : 0 ≤ M)
    (hMB : M = 0 → B = 0) (he0 : 0 ≤ e) (he1 : e ≤ 1 / 1000)
    (hB' : B * (1 - e) ≤ B' ∧ B' ≤ B * (1 + e)) (hP' : near e P' P)
    (hM' : M * (1 - e) ≤ M' ∧ M' ≤ M * (1 + e)) (hd0 : near e d0 (B' * P'))
    (hd1 : d1 = if M > 0 ∧ d0 > M' then M' else d0) :
    min M (B * P) * (1 - 3 * e) ≤ d1 ∧ d1 ≤ min M (B * P) * (1 + 7 * e) := by
  obtain ⟨hP1, hP2⟩ := near_of_nonneg e P' P hP.le hP'
  have hX : 0 ≤ B * P := mul_nonneg hB hP.le
  have h1e : 0 ≤ 1 - e := by linarith
  have hB'0 : 0 ≤ B' := le_trans (mul_nonneg hB h1e) hB'.1
  have hP'0 : 0 ≤ P' := le_trans (mul_nonneg hP.le h1e) hP1
  have hBP0 : 0 ≤ B' * P' := mul_nonneg hB'0 hP'0
  obtain ⟨hd01, hd02⟩ := near_of_nonneg e d0 (B' * P') hBP0 hd0
  have hBPhi : B' * P' ≤ B * P * ((1 + e) * (1 + e)) := by
    have := mul_le_mul hB'.2 hP2 hP'0 (mul_nonneg hB (by linarith))
    calc B' * P' ≤ B * (1 + e) * (P * (1 + e)) := this
      _ = B * P * ((1 + e) * (1 + e)) := by ring
  have hBPlo : B * P * ((1 - e) * (1 - e)) ≤ B' * P' := by
    have := mul_le_mul hB'.1 hP1 (mul_nonneg hP.le h1e) hB'0
    calc B * P * ((1 - e) * (1 - e)) = B * (1 - e) * (P * (1 - e)) := by ring
      _ ≤ B' * P' := this
  have hd0hi : d0 ≤ B * P * (1 + 4 * e) := by
    have h1 : B' * P' * (1 + e) ≤ B * P * ((1 + e) * (1 + e)) * (1 + e) :=
      mul_le_mul_of_nonneg_right hBPhi (by linarith)
    have h2 : (1 + e) * (1 + e) * (1 + e) ≤ 1 + 4 * e := by nlinarith [mul_nonneg he0 he0]
    have h3 := mul_le_mul_of_nonneg_left h2 hX
    calc d0 ≤ B' * P' * (1 + e) := hd02
      _ ≤ B * P * ((1 + e) * (1 + e)) * (1 + e) := h1
      _ = B * P * ((1 + e) * (1 + e) * (1 + e)) := by ring
      _ ≤ B * P * (1 + 4 * e) := h3
  have hd0lo : B * P * (1 - 3 * e) ≤ d0 := by
    have h1 : B * P * ((1 - e) * (1 - e)) * (1 - e) ≤ B' * P' * (1 - e) :=
      mul_le_mul_of_nonneg_right hBPlo h1e
    have h2 : 1 - 3 * e ≤ (1 - e) * (1 - e) * (1 - e) := by
      nlinarith [mul_nonneg he0 he0, mul_nonneg (mul_nonneg he0 he0) h1e]
    have h3 := mul_le_mul_of_nonneg_left h2 hX
    calc B * P * (1 - 3 * e) ≤ B * P * ((1 - e) * (1 - e) * (1 - e)) := h3
      _ = B * P * ((1 - e) * (1 - e)) * (1 - e) := by ring
      _ ≤ B' * P' * (1 - e) := h1
      _ ≤ d0 := hd01
  have hD0 : 0 ≤ min M (B * P) := le_min hM hX
  have hDM : min M (B * P) ≤ M := min_le_left _ _
  have hDX : min M (B * P) ≤ B * P := min_le_right _ _
  have h13 : 0 ≤ 1 - 3 * e := by linarith
  by_cases hcap : M > 0 ∧ d0 > M'
  · rw [if_pos hcap] at hd1
    subst hd1
    constructor
    · calc min M (B * P) * (1 - 3 * e) ≤ M * (1 - 3 * e) := mul_le_mul_of_nonneg_right hDM h13
        _ ≤ M * (1 - e) := mul_le_mul_of_nonneg_left (by linarith) hM
        _ ≤ d1 := hM'.1
    · rcases min_choice M (B * P) with hmin | hmin
      · rw [hmin]
        calc d1 ≤ M * (1 + e) := hM'.2
          _ ≤ M * (1 + 7 * e) := mul_le_mul_of_nonneg_left (by linarith) hM
      · rw [hmin]
        have hMX : M * (1 - e) < B * P * (1 + 4 * e) := by linarith [hcap.2]
        have h4 : (1 + 4 * e) * (1 + e) ≤ (1 + 7 * e) * (1 - e) := by
          nlinarith [mul_nonneg he0 he0]
        have h5 : M * (1 + e) * (1 - e) ≤ B * P * (1 + 7 * e) * (1 - e) := by
          calc M * (1 + e) * (1 - e) = M * (1 - e) * (1 + e) := by ring
            _ ≤ B * P * (1 + 4 * e) * (1 + e) :=
              mul_le_mul_of_nonneg_right hMX.le (by linarith)
            _ = B * P * ((1 + 4 * e) * (1 + e)) := by ring
            _ ≤ B * P * ((1 + 7 * e) * (1 - e)) := mul_le_mul_of_nonneg_left h4 hX
            _ = B * P * (1 + 7 * e) * (1 - e) := by ring
        have h6 : M * (1 + e) ≤ B * P * (1 + 7 * e) :=
          le_of_mul_le_mul_right h5 (by linarith)
        linarith [hM'.2]
  · rw [if_neg hcap] at hd1
    subst hd1
    constructor
    · calc min M (B * P) * (1 - 3 * e) ≤ B * P * (1 - 3 * e) :=
          mul_le_mul_of_nonneg_right hDX h13
        _ ≤ d1 := hd0lo
    · by_cases hM0 : M > 0
      · have hle : d1 ≤ M' := not_lt.mp (fun h => hcap ⟨hM0, h⟩)
        rcases min_choice M (B * P) with hmin | hmin
        · rw [hmin]
          calc d1 ≤ M' := hle
            _ ≤ M * (1 + e) := hM'.2
            _ ≤ M * (1 + 7 * e) := mul_le_mul_of_nonneg_left (by linarith) hM
        · rw [hmin]
          calc d1 ≤ B * P * (1 + 4 * e) := hd0hi
            _ ≤ B * P * (1 + 7 * e) := mul_le_mul_of_nonneg_left (by linarith) hX
      · have hM00 : M = 0 := le_antisymm (not_lt.mp hM0) hM
        have hB0 := hMB hM00
        subst hB0
        subst hM00
        simp only [zero_mul, min_self] at *
        linarith


/-- The delay after the jitter of lines 92-98, computed with operations of relative error `e`
from a delay within `D * [1 - 3e, 1 + 7e]`, is within `D * [1 - J, 1 + J]` up to
`20 * e * D * (1 + J)`. -/
theorem jitter_band (D J draw e d1 j t1 t2 t3 w : ℚ) (hD : 0 ≤ D) (hJ : 0 < J) (hd1 : 0 < d1)
    (hlo : D * (1 - 3 * e) ≤ d1) (hhi : d1 ≤ D * (1 + 7 * e)) (h0 : 0 ≤ draw) (h1 : draw < 1)
    (he0 : 0 ≤ e) (he1 : e ≤ 1 / 1000)
    (hj : near e j (d1 * J)) (ht1 : near e t1 (draw * 2)) (ht2 : near e t2 (t1 * j))
    (ht3 : near e t3 (t2 - j)) (hw : near e w (d1 + t3)) :
    D * (1 - J) - 20 * e * (D * (1 + J)) ≤ (if w < 0 then 0 else w) ∧
      (if w < 0 then 0 else w) ≤ D * (1 + J) * (1 + 20 * e) ∧
      0 ≤ (if w < 0 then 0 else w) := by
  have h1e : 0 ≤ 1 - e := by linarith
  have hee : 0 ≤ e * e := mul_nonneg he0 he0
  have hee1 : e * e ≤ e * (1 / 1000) := mul_le_mul_of_nonneg_left he1 he0
  have hdJ : 0 ≤ d1 * J := mul_nonneg hd1.le hJ.le
  obtain ⟨hj1, hj2⟩ := near_of_nonneg e j (d1 * J) hdJ hj
  have hj0 : 0 ≤ j := le_trans (mul_nonneg hdJ h1e) hj1
  obtain ⟨ht11, ht12⟩ := near_of_nonneg e t1 (draw * 2) (by linarith) ht1
  have ht10 : 0 ≤ t1 := le_trans (mul_nonneg (by linarith) h1e) ht11
  have ht1hi : t1 ≤ 2 * (1 + e) := by
    have := mul_le_mul_of_nonneg_right h1.le (by linarith : (0 : ℚ) ≤ 2 * (1 + e))
    linarith
  obtain ⟨ht21, ht22⟩ := near_of_nonneg e t2 (t1 * j) (mul_nonneg ht10 hj0) ht2
  have ht20 : 0 ≤ t2 := le_trans (mul_nonneg (mul_nonneg ht10 hj0) h1e) ht21
  have hje : 0 ≤ j * e := mul_nonneg hj0 he0
  have hjee : 0 ≤ j * (e * e) := mul_nonneg hj0 hee
  have hjee1 : j * (e * e) ≤ j * (e * (1 / 1000)) := mul_le_mul_of_nonneg_left hee1 hj0
  have ht2hi : t2 ≤ j * (2 + 5 * e) := by
    have ha : t1 * j ≤ 2 * (1 + e) * j := mul_le_mul_of_nonneg_right ht1hi hj0
    have hb : t1 * j * (1 + e) ≤ 2 * (1 + e) * j * (1 + e) :=
      mul_le_mul_of_nonneg_right ha (by linarith)
    linarith
  obtain ⟨ht31, ht32⟩ := near_abs e t3 (t2 - j) ht3
  have habs3 : |t2 - j| ≤ j * (1 + 5 * e) := by
    rw [abs_le]
    constructor <;> linarith
  have hej : e * |t2 - j| ≤ e * (j * (1 + 5 * e)) := mul_le_mul_of_nonneg_left habs3 he0
  have ht3hi : t3 ≤ j * (1 + 7 * e) := by linarith
  have ht3lo : -(j * (1 + 2 * e)) ≤ t3 := by linarith
  obtain ⟨hw1, hw2⟩ := near_abs e w (d1 + t3) hw
  have habsS : |d1 + t3| ≤ d1 + j * (1 + 7 * e) := by
    rw [abs_le]
    constructor <;> linarith
  have heS : e * |d1 + t3| ≤ e * (d1 + j * (1 + 7 * e)) := mul_le_mul_of_nonneg_left habsS he0
  have hdJe : 0 ≤ d1 * J * e := mul_nonneg hdJ he0
  have hdJee : d1 * J * (e * e) ≤ d1 * J * (e * (1 / 1000)) :=
    mul_le_mul_of_nonneg_left hee1 hdJ
  have hdJee0 : 0 ≤ d1 * J * (e * e) := mul_nonneg hdJ hee
  have hjhi : j * (1 + 7 * e) ≤ d1 * J * (1 + 9 * e) := by
    have ha : j * (1 + 7 * e) ≤ d1 * J * (1 + e) * (1 + 7 * e) :=
      mul_le_mul_of_nonneg_right hj2 (by linarith)
    linarith
  have hjlo : j * (1 + 4 * e) ≤ d1 * J * (1 + 6 * e) := by
    have ha : j * (1 + 4 * e) ≤ d1 * J * (1 + e) * (1 + 4 * e) :=
      mul_le_mul_of_nonneg_right hj2 (by linarith)
    linarith
  have hde : 0 ≤ d1 * e := mul_nonneg hd1.le he0
  have hY : 0 ≤ D * (1 + J) := mul_nonneg hD (by linarith)
  have hwhi : w ≤ D * (1 + J) * (1 + 20 * e) := by
    have ha : w ≤ (d1 + d1 * J * (1 + 9 * e)) * (1 + e) := by linarith
    have hb : (d1 + d1 * J * (1 + 9 * e)) * (1 + e) ≤ d1 * ((1 + J) * (1 + 11 * e)) := by
      linarith
    have hc : d1 * ((1 + J) * (1 + 11 * e)) ≤ D * (1 + 7 * e) * ((1 + J) * (1 + 11 * e)) :=
      mul_le_mul_of_nonneg_right hhi (mul_nonneg (by linarith) (by linarith))
    have hd : (1 + 7 * e) * (1 + 11 * e) ≤ 1 + 20 * e := by linarith
    have he := mul_le_mul_of_nonneg_left hd hY
    linarith
  have hY20 : 0 ≤ D * (1 + J) * (1 + 20 * e) := mul_nonneg hY (by linarith)
  have hwlo : 1 ≤ J ∨ D * (1 - J) - 20 * e * (D * (1 + J)) ≤ w := by
    rcases le_or_lt 1 J with hJ1 | hJ1
    · exact Or.inl hJ1
    · right
      have ha : d1 * (1 - e) - d1 * J * (1 + 6 * e) ≤ w := by linarith
      have hb : D * (1 - 3 * e) * (1 - J) ≤ d1 * (1 - J) :=
        mul_le_mul_of_nonneg_right hlo (by linarith)
      have hc : d1 * (e * (1 + 6 * J)) ≤ D * (1 + 7 * e) * (e * (1 + 6 * J)) :=
        mul_le_mul_of_nonneg_right hhi (mul_nonneg he0 (by linarith))
      have hJe : J * e ≤ J * (1 / 1000) := mul_le_mul_of_nonneg_left he1 hJ.le
      have hbr : 0 ≤ 16 + 17 * J - 7 * e - 42 * (J * e) := by linarith
      have hfin : 0 ≤ e * D * (16 + 17 * J - 7 * e - 42 * (J * e)) :=
        mul_nonneg (mul_nonneg he0 hD) hbr
      linarith
  refine ⟨?_, ?_, ?_⟩
  · split
    · rename_i hneg
      rcases hwlo with hJ1 | hwlo
      · have h1 : D * (1 - J) ≤ 0 := mul_nonpos_of_nonneg_of_nonpos hD (by linarith)
        have h2 : 0 ≤ 20 * e * (D * (1 + J)) := mul_nonneg (by linarith) hY
        linarith
      · linarith
    · rename_i hpos
      rcases hwlo with hJ1 | hwlo
      · have h1 : D * (1 - J) ≤ 0 := mul_nonpos_of_nonneg_of_nonpos hD (by linarith)
        have h2 : 0 ≤ 20 * e * (D * (1 + J)) := mul_nonneg (by linarith) hY
        linarith
      · exact hwlo
  · split
    · exact hY20
    · exact hwhi
  · split
    · exact le_refl _
    · rename_i hpos
      exact not_lt.mp hpos


/-- The delay of `backoffDelay` as a float, computed with operations of relative error `e`:
it is not negative and lies within `D * [1 - jitter, 1 + jitter]` up to
`20 * e * D * (1 + jitter)`, where `D` is the capped delay. -/
theorem backoffDelayFloat_band (ops : FloatOps) (p : Policy) (k : Int) (draw e : ℚ)
    (hk : 1 ≤ k) (hB : 0 ≤ p.BaseDelay) (hB2 : p.BaseDelay < 9223372036854775808)
    (hF : 0 < p.Factor) (hM : 0 ≤ p.MaxDelay) (hM2 : p.MaxDelay < 9223372036854775808)
    (hMB : p.MaxDelay = 0 → p.BaseDelay = 0) (hJ : 0 ≤ p.Jitter)
    (h0 : 0 ≤ draw) (h1 : draw < 1) (he0 : 1 / 9007199254740992 ≤ e) (he1 : e ≤ 1 / 1000)
    (hpow : near e (ops.Pow p.Factor (GoTime.float64OfInt (k - 1)))
      (p.Factor ^ (k - 1).toNat))
    (hmul : ∀ x y, near e (ops.mul x y) (x * y))
    (hadd : ∀ x y, near e (ops.add x y) (x + y))
    (hsub : ∀ x y, near e (ops.sub x y) (x - y)) :
    0 ≤ backoffDelayFloat ops p k draw ∧
      cappedDelay p k * (1 - p.Jitter) - 20 * e * (cappedDelay p k * (1 + p.Jitter)) ≤
        backoffDelayFloat ops p k draw ∧
      backoffDelayFloat ops p k draw ≤ cappedDelay p k * (1 + p.Jitter) * (1 + 20 * e) ∧
      0 ≤ cappedDelay p k ∧ cappedDelay p k ≤ (p.MaxDelay : ℚ) := by
  have hk0 : ¬ k ≤ 0 := by omega
  have he00 : (0 : ℚ) ≤ e := le_trans (by norm_num) he0
  have hBq : (0 : ℚ) ≤ (p.BaseDelay : ℚ) := by exact_mod_cast hB
  have hMq : (0 : ℚ) ≤ (p.MaxDelay : ℚ) := by exact_mod_cast hM
  have hP : (0 : ℚ) < p.Factor ^ (k - 1).toNat := pow_pos hF _
  have hconv : ∀ n : Int, 0 ≤ n → n < 9223372036854775808 →
      (n : ℚ) * (1 - e) ≤ GoTime.float64OfInt n ∧ GoTime.float64OfInt n ≤ (n : ℚ) * (1 + e) := by
    intro n hn0 hn1
    obtain ⟨ha, hb⟩ := GoTime.float64OfInt_near n hn0 hn1
    have hnq : (0 : ℚ) ≤ (n : ℚ) := by exact_mod_cast hn0
    have hc : (n : ℚ) * (1 / 9007199254740992) ≤ (n : ℚ) * e :=
      mul_le_mul_of_nonneg_left he0 hnq
    constructor <;> linarith
  have hMBq : (p.MaxDelay : ℚ) = 0 → (p.BaseDelay : ℚ) = 0 := by
    intro h
    have h2 : p.MaxDelay = 0 := by exact_mod_cast h
    exact_mod_cast hMB h2
  have hcapcond : (p.MaxDelay > 0) = ((p.MaxDelay : ℚ) > 0) := by
    apply propext
    constructor
    · intro h; exact_mod_cast h
    · intro h; exact_mod_cast h
  have hband := capped_band (p.BaseDelay : ℚ) (p.Factor ^ (k - 1).toNat) (p.MaxDelay : ℚ) e
    (GoTime.float64OfInt p.BaseDelay) (ops.Pow p.Factor (GoTime.float64OfInt (k - 1)))
    (GoTime.float64OfInt p.MaxDelay)
    (ops.mul (GoTime.float64OfInt p.BaseDelay) (ops.Pow p.Factor (GoTime.float64OfInt (k - 1))))
    _ hBq hP hMq hMBq he00 he1 (hconv _ hB hB2) hpow (hconv _ hM hM2) (hmul _ _) rfl
  have hD0 : 0 ≤ cappedDelay p k := le_min hMq (mul_nonneg hBq hP.le)
  have hDM : cappedDelay p k ≤ (p.MaxDelay : ℚ) := min_le_left _ _
  simp only [backoffDelayFloat, hk0, if_false]
  simp only [hcapcond]
  change _ ∧ _ ∧ _ ∧ 0 ≤ cappedDelay p k ∧ _
  unfold cappedDelay at hD0 hDM ⊢
  generalize (if (p.MaxDelay : ℚ) > 0 ∧
      ops.mul (GoTime.float64OfInt p.BaseDelay)
        (ops.Pow p.Factor (GoTime.float64OfInt (k - 1))) > GoTime.float64OfInt p.MaxDelay
      then GoTime.float64OfInt p.MaxDelay
      else ops.mul (GoTime.float64OfInt p.BaseDelay)
        (ops.Pow p.Factor (GoTime.float64OfInt (k - 1)))) = d1 at hband ⊢
  generalize min (p.MaxDelay : ℚ) ((p.BaseDelay : ℚ) * p.Factor ^ (k - 1).toNat) = D at *
  obtain ⟨hlo, hhi⟩ := hband
  have hY : 0 ≤ D * (1 + p.Jitter) := mul_nonneg hD0 (by linarith)
  have hDe : 0 ≤ D * e := mul_nonneg hD0 he00
  have hYe : 0 ≤ D * (1 + p.Jitter) * e := mul_nonneg hY he00
  have hDJ : 0 ≤ D * p.Jitter := mul_nonneg hD0 hJ
  have hDJe : 0 ≤ D * p.Jitter * e := mul_nonneg hDJ he00
  have hd10 : 0 ≤ d1 := le_trans (mul_nonneg hD0 (by linarith)) hlo
  by_cases hjit : p.Jitter > 0 ∧ d1 > 0
  · rw [if_pos hjit]
    obtain ⟨ha, hb, hc⟩ := jitter_band D p.Jitter draw e d1 _ _ _ _ _ hD0 hjit.1 hjit.2 hlo hhi
      h0 h1 he00 he1 (hmul d1 p.Jitter) (hmul draw 2) (hmul _ _) (hsub _ _) (hadd _ _)
    exact ⟨hc, ha, hb, hD0, hDM⟩
  · rw [if_neg hjit]
    refine ⟨hd10, ?_, ?_, hD0, hDM⟩
    · by_cases hJ0 : p.Jitter > 0
      · have hd1z : d1 = 0 := le_antisymm (not_lt.mp (fun h => hjit ⟨hJ0, h⟩)) hd10
        have hDz : D = 0 := by
          rw [hd1z] at hlo
          have h3 : 0 < 1 - 3 * e := by linarith
          have := nonpos_of_mul_nonpos_left hlo h3
          linarith
        rw [hd1z, hDz]
        simp
      · have hJz : p.Jitter = 0 := le_antisymm (not_lt.mp hJ0) hJ
        rw [hJz]
        linarith
    · linarith


/-- Each operation of `ieeeOps` other than the power gives its exact result up to a relative
error of `2^-53`. -/
theorem ieee_near (e x : ℚ) (he : 1 / 9007199254740992 ≤ e) :
    near e (GoTime.roundFloat64 x) x := by
  unfold near
  have h1 := GoTime.roundFloat64_near x
  have h2 : 1 / 9007199254740992 * |x| ≤ e * |x| := mul_le_mul_of_nonneg_right he (abs_nonneg x)
  linarith

/-- The conversion of a float that is not negative and below `2^63` is its floor. -/
theorem truncToDuration_of_fits (x : ℚ) (h0 : 0 ≤ x) (h1 : x < 9223372036854775808) :
    truncToDuration x = ⌊x⌋ := by
  have hf0 : 0 ≤ ⌊x⌋ := Int.floor_nonneg.mpr h0
  have hf1 : ⌊x⌋ < 9223372036854775808 := by
    have : ((⌊x⌋ : Int) : ℚ) < ((9223372036854775808 : Int) : ℚ) := by
      have := Int.floor_le x
      push_cast
      linarith
    exact_mod_cast this
  unfold truncToDuration GoTime.int64OfFloat
  simp only [h0, if_true]
  rw [if_pos ⟨by omega, hf1⟩]

/-- C3, the claim as worded fails, in three ways.  The conversion to whole nanoseconds takes
the delay below the band: with a base delay of 333333333 ns, a jitter of one half and a draw
of 0 the delay after attempt 1 is 166666666 ns, below `D * (1 - jitter)`, which is 166666666.5.
The rounding of the operations takes it above the band: with a base delay of 10 ns, the
jitter `0.3` and the draw `1 - 2^-53` it is 13 ns, above `D * (1 + jitter)`.  A delay that the
conversion to `float64` rounds up to `2^63` comes back negative: with a base delay and a
maximum of `2^63 - 1` ns and no jitter it is `-2^63` ns. -/
theorem backoffDelay_outside_band :
    (backoffDelay (ieeeOps nearestPow) (normalize oddPolicy) 1 0 = 166666666 ∧
      cappedDelay (normalize oddPolicy) 1 * (1 - (normalize oddPolicy).Jitter) =
        333333333 / 2 ∧
      ¬ (cappedDelay (normalize oddPolicy) 1 * (1 - (normalize oddPolicy).Jitter) ≤
          ((backoffDelay (ieeeOps nearestPow) (normalize oddPolicy) 1 0 : Int) : ℚ))) ∧
    (backoffDelay (ieeeOps nearestPow) (normalize roundingPolicy) 1 lastDraw = 13 ∧
      0 ≤ lastDraw ∧ lastDraw < 1 ∧
      cappedDelay (normalize roundingPolicy) 1 * (1 + (normalize roundingPolicy).Jitter) <
        13) ∧
    (backoffDelayFloat (ieeeOps nearestPow) (normalize hugePolicy) 1 (1 / 2) =
        9223372036854775808 ∧
      backoffDelay (ieeeOps nearestPow) (normalize hugePolicy) 1 (1 / 2) =
        -9223372036854775808 ∧
      cappedDelay (normalize hugePolicy) 1 = 9223372036854775807) := by
  refine ⟨⟨by decide!, by decide!, by decide!⟩, ⟨by decide!, by decide!, by decide!, by decide!⟩,
    ⟨by decide!, by decide!, by decide!⟩⟩

/-- C3, amended: for every normalised policy whose delays are `time.Duration` values, every
attempt `k >= 1` and every draw in `[0, 1)`, when each `float64` operation gives the value
nearest to its exact result, `math.Pow` gives the power up to a relative error `eps` between
`2^-53` and `1/1000`, and `D * (1 + jitter) * (1 + 20 * eps)` is below `2^63`, where
`D = min(maxDelay, baseDelay * multiplier^(k-1))`: the delay as a float is not negative and
lies within `D * [1 - jitter, 1 + jitter]` up to `20 * eps * D * (1 + jitter)` on either side;
the delay returned is that float cut down to whole nanoseconds, so it is not negative, is above
`D * (1 - jitter) - 20 * eps * D * (1 + jitter) - 1`, and is at most
`D * (1 + jitter) * (1 + 20 * eps)`, hence at most `maxDelay * (1 + jitter) * (1 + 20 * eps)`. -/
theorem backoffDelay_band_up_to_rounding (pow : ℚ → ℚ → ℚ) (policy : Policy) (k : Int)
    (draw eps : ℚ) (hk : 1 ≤ k) (h0 : 0 ≤ draw) (h1 : draw < 1)
    (heps : 1 / 9007199254740992 ≤ eps ∧ eps ≤ 1 / 1000)
    (hpow : near eps (pow (normalize policy).Factor (GoTime.float64OfInt (k - 1)))
      ((normalize policy).Factor ^ (k - 1).toNat))
    (hint : policy.BaseDelay < 9223372036854775808 ∧ policy.MaxDelay < 9223372036854775808)
    (hfit : cappedDelay (normalize policy) k * (1 + (normalize policy).Jitter) *
      (1 + 20 * eps) < 9223372036854775808) :
    (cappedDelay (normalize policy) k * (1 - (normalize policy).Jitter) -
          20 * eps * (cappedDelay (normalize policy) k * (1 + (normalize policy).Jitter)) ≤
        backoffDelayFloat (ieeeOps pow) (normalize policy) k draw ∧
      backoffDelayFloat (ieeeOps pow) (normalize policy) k draw ≤
        cappedDelay (normalize policy) k * (1 + (normalize policy).Jitter) * (1 + 20 * eps) ∧
      0 ≤ backoffDelayFloat (ieeeOps pow) (normalize policy) k draw) ∧
    backoffDelay (ieeeOps pow) (normalize policy) k draw =
      ⌊backoffDelayFloat (ieeeOps pow) (normalize policy) k draw⌋ ∧
    cappedDelay (normalize policy) k * (1 - (normalize policy).Jitter) -
        20 * eps * (cappedDelay (normalize policy) k * (1 + (normalize policy).Jitter)) - 1 <
      ((backoffDelay (ieeeOps pow) (normalize policy) k draw : Int) : ℚ) ∧
    ((backoffDelay (ieeeOps pow) (normalize policy) k draw : Int) : ℚ) ≤
      cappedDelay (normalize policy) k * (1 + (normalize policy).Jitter) * (1 + 20 * eps) ∧
    ((backoffDelay (ieeeOps pow) (normalize policy) k draw : Int) : ℚ) ≤
      ((normalize policy).MaxDelay : ℚ) * (1 + (normalize policy).Jitter) * (1 + 20 * eps) ∧
    0 ≤ backoffDelay (ieeeOps pow) (normalize policy) k draw := by
  obtain ⟨hB, hF, hM, hMB, hJ⟩ := normalize_facts policy
  have hB2 : (normalize policy).BaseDelay < 9223372036854775808 := by
    simp only [normalize]
    split <;> omega
  have hM2 : (normalize policy).MaxDelay < 9223372036854775808 := by
    simp only [normalize]
    split <;> (try split) <;> omega
  obtain ⟨hf0, hlo, hhi, hD0, hDM⟩ :=
    backoffDelayFloat_band (ieeeOps pow) (normalize policy) k draw eps hk hB hB2 hF hM hM2 hMB hJ
      h0 h1 heps.1 heps.2 hpow (fun x y => ieee_near eps _ heps.1)
      (fun x y => ieee_near eps _ heps.1) (fun x y => ieee_near eps _ heps.1)
  have htr := truncToDuration_of_fits _ hf0 (lt_of_le_of_lt hhi hfit)
  have hfl : ((⌊backoffDelayFloat (ieeeOps pow) (normalize policy) k draw⌋ : Int) : ℚ) ≤
      backoffDelayFloat (ieeeOps pow) (normalize policy) k draw := Int.floor_le _
  have hfl2 : backoffDelayFloat (ieeeOps pow) (normalize policy) k draw <
      ((⌊backoffDelayFloat (ieeeOps pow) (normalize policy) k draw⌋ : Int) : ℚ) + 1 :=
    Int.lt_floor_add_one _
  have hcap : cappedDelay (normalize policy) k * (1 + (normalize policy).Jitter) *
        (1 + 20 * eps) ≤
      ((normalize policy).MaxDelay : ℚ) * (1 + (normalize policy).Jitter) * (1 + 20 * eps) :=
    mul_le_mul_of_nonneg_right (mul_le_mul_of_nonneg_right hDM (by linarith))
      (by linarith [heps.1])
  unfold backoffDelay
  rw [htr]
  refine ⟨⟨hlo, hhi, hf0⟩, rfl, by linarith, by linarith, by linarith, Int.floor_nonneg.mpr hf0⟩

theorem backoffDelay_band_up_to_rounding_witness :
    (cappedDelay (normalize DefaultPolicy) 2 * (1 - (normalize DefaultPolicy).Jitter) -
          20 * (1 / 9007199254740992) *
            (cappedDelay (normalize DefaultPolicy) 2 * (1 + (normalize DefaultPolicy).Jitter)) ≤
        backoffDelayFloat (ieeeOps nearestPow) (normalize DefaultPolicy) 2 (1 / 2) ∧
      backoffDelayFloat (ieeeOps nearestPow) (normalize DefaultPolicy) 2 (1 / 2) ≤
        cappedDelay (normalize DefaultPolicy) 2 * (1 + (normalize DefaultPolicy).Jitter) *
          (1 + 20 * (1 / 9007199254740992)) ∧
      0 ≤ backoffDelayFloat (ieeeOps nearestPow) (normalize DefaultPolicy) 2 (1 / 2)) ∧
    backoffDelay (ieeeOps nearestPow) (normalize DefaultPolicy) 2 (1 / 2) =
      ⌊backoffDelayFloat (ieeeOps nearestPow) (normalize DefaultPolicy) 2 (1 / 2)⌋ ∧
    cappedDelay (normalize DefaultPolicy) 2 * (1 - (normalize DefaultPolicy).Jitter) -
        20 * (1 / 9007199254740992) *
          (cappedDelay (normalize DefaultPolicy) 2 * (1 + (normalize DefaultPolicy).Jitter)) - 1 <
      ((backoffDelay (ieeeOps nearestPow) (normalize DefaultPolicy) 2 (1 / 2) : Int) : ℚ) ∧
    ((backoffDelay (ieeeOps nearestPow) (normalize DefaultPolicy) 2 (1 / 2) : Int) : ℚ) ≤
      cappedDelay (normalize DefaultPolicy) 2 * (1 + (normalize DefaultPolicy).Jitter) *
        (1 + 20 * (1 / 9007199254740992)) ∧
    ((backoffDelay (ieeeOps nearestPow) (normalize DefaultPolicy) 2 (1 / 2) : Int) : ℚ) ≤
      ((normalize DefaultPolicy).MaxDelay : ℚ) * (1 + (normalize DefaultPolicy).Jitter) *
        (1 + 20 * (1 / 9007199254740992)) ∧
    0 ≤ backoffDelay (ieeeOps nearestPow) (normalize DefaultPolicy) 2 (1 / 2) :=
  backoffDelay_band_up_to_rounding nearestPow DefaultPolicy 2 (1 / 2) (1 / 9007199254740992)
    (by decide) (by norm_num) (by norm_num) ⟨le_refl _, by norm_num⟩ (by decide!) (by decide)
    (by decide!)

theorem Do_entry_cancelled (env : Env) (policy : Policy) (e : GoErr)
    (h : env.ctxErr [] = some e) : Do env policy = (some e, [Event.ctxErr (some e)]) := by
  have hpos := normalize_attempts_pos policy
  obtain ⟨f, hf⟩ : ∃ f, (normalize policy).Attempts.toNat = f + 1 :=
    ⟨(normalize policy).Attempts.toNat - 1, by omega⟩
  simp only [Do, hf, doLoop, hpos, if_true, body, h, List.nil_append]

/-- C4: `Do` checks the context at the head of every iteration.  If the context is cancelled
at entry, `Do` returns its error and the attempt function is never called.  Whenever a check
finds the context cancelled, `Do` returns the context's error and nothing more happens, so the
attempt function is not called for that attempt.  Every call of the attempt function comes
right after a check that found the context alive. -/
theorem Do_checks_context_before_attempt (env : Env) (policy : Policy) :
    (∀ e, env.ctxErr [] = some e →
      Do env policy = (some e, [Event.ctxErr (some e)]) ∧ calls (Do env policy).2 = []) ∧
    (∀ start r rest, (Do env policy).2 = start ++ Event.ctxErr r :: rest →
      env.ctxErr start = r ∧
        ∀ e, r = some e → rest = [] ∧ (Do env policy).1 = some e ∧
          calls (Do env policy).2 = calls start) ∧
    (∀ start a r rest, (Do env policy).2 = start ++ Event.call a r :: rest →
      ∃ before, start = before ++ [Event.ctxErr none] ∧ env.ctxErr before = none) := by
  obtain ⟨hok, hshape, _⟩ := Do_inv env policy
  refine ⟨?_, ?_, ?_⟩
  · intro e he
    rw [Do_entry_cancelled env policy e he]
    exact ⟨rfl, rfl⟩
  · intro start r rest h
    rw [h] at hok hshape
    have h1 := okFrom_at env [] start _ rest hok
    simp only [okEvent, List.nil_append] at h1
    refine ⟨h1, ?_⟩
    intro e he
    subst he
    obtain ⟨h2, h3⟩ := shape_last _ _ (some e) start _ rest hshape rfl
    refine ⟨h2, h3, ?_⟩
    rw [h, h2, calls_append]
    simp [calls]
  · intro start a r rest h
    rw [h] at hok
    have h1 := okFrom_at env [] start _ rest hok
    simp only [okEvent, List.nil_append] at h1
    obtain ⟨_, before, hb⟩ := h1
    refine ⟨before, hb, ?_⟩
    rw [hb, List.append_assoc] at hok
    have h2 := okFrom_at env [] before _ _ hok
    simpa [okEvent] using h2

theorem Do_checks_context_before_attempt_witness :
    Do envCancelledAtEntry DefaultPolicy =
        (some GoErr.canceled, [Event.ctxErr (some GoErr.canceled)]) ∧
      calls (Do envCancelledAtEntry DefaultPolicy).2 = [] :=
  (Do_checks_context_before_attempt envCancelledAtEntry DefaultPolicy).1 GoErr.canceled rfl

/-- C5: for every policy, when an invocation of the attempt function returns an error that is
or wraps `context.Canceled` or `context.DeadlineExceeded`, that invocation is the last thing
`Do` does (no further attempt, no observer call, no sleep) and `Do` returns that same error. -/
theorem Do_cancellation_error_not_retried (env : Env) (policy : Policy)
    (start rest : List Event) (a : Int) (err : GoErr)
    (h : (Do env policy).2 = start ++ Event.call a (some err) :: rest)
    (hc : isCancellation err = true) :
    env.fn start a = some err ∧ rest = [] ∧ (Do env policy).1 = some err := by
  obtain ⟨hok, hshape, _⟩ := Do_inv env policy
  rw [h] at hok hshape
  have h1 := okFrom_at env [] start _ rest hok
  simp only [okEvent, List.nil_append] at h1
  have hv : verdict (normalize policy) (Event.call a (some err)) = some (some err) := by
    simp [verdict, hc]
  exact ⟨h1.1, shape_last _ _ _ start _ rest hshape hv⟩

theorem Do_cancellation_error_not_retried_witness :
    envDeadlineInside.fn
        [Event.ctxErr none, Event.call 1 (some (GoErr.plain 7)), Event.sleep 500000000 none,
          Event.ctxErr none] 2 = some (GoErr.wrap 1 GoErr.deadlineExceeded) ∧
      ([] : List Event) = [] ∧
      (Do envDeadlineInside DefaultPolicy).1 = some (GoErr.wrap 1 GoErr.deadlineExceeded) :=
  Do_cancellation_error_not_retried envDeadlineInside DefaultPolicy
    [Event.ctxErr none, Event.call 1 (some (GoErr.plain 7)), Event.sleep 500000000 none,
      Event.ctxErr none] [] 2 (GoErr.wrap 1 GoErr.deadlineExceeded) (by decide!) (by decide)

/-- C6: when a `Retryable` predicate is configured and an invocation of the attempt function
returns an error the predicate rejects, that invocation is the last thing `Do` does (no
further attempt, no observer call, no sleep) and `Do` returns that error, whatever `Attempts`
is. -/
theorem Do_rejected_error_not_retried (env : Env) (policy : Policy) (f : GoErr → Bool)
    (start rest : List Event) (a : Int) (err : GoErr)
    (hf : policy.Retryable = some f) (hrej : f err = false)
    (h : (Do env policy).2 = start ++ Event.call a (some err) :: rest) :
    env.fn start a = some err ∧ rest = [] ∧ (Do env policy).1 = some err := by
  obtain ⟨hok, hshape, _⟩ := Do_inv env policy
  rw [h] at hok hshape
  have h1 := okFrom_at env [] start _ rest hok
  simp only [okEvent, List.nil_append] at h1
  have hr : rejects (normalize policy) err = true := by
    simp [rejects, normalize, hf, hrej]
  have hv : verdict (normalize policy) (Event.call a (some err)) = some (some err) := by
    simp [verdict, hr]
  exact ⟨h1.1, shape_last _ _ _ start _ rest hshape hv⟩

theorem Do_rejected_error_not_retried_witness :
    envRejected.fn [Event.ctxErr none] 1 = some (GoErr.plain 401) ∧
      ([] : List Event) = [] ∧ (Do envRejected navigatePolicy).1 = some (GoErr.plain 401) :=
  Do_rejected_error_not_retried envRejected navigatePolicy
    (fun err => !decide (err = GoErr.plain 401)) [Event.ctxErr none] [] 1 (GoErr.plain 401)
    rfl (by decide) (by decide!)

/-- C7: when the context is done during a backoff sleep, the sleep is for a positive delay and
comes after a failed attempt `k >= 1`, it is the last thing `Do` does, `Do` returns the
context's error, and the attempt function has been called exactly `k` times, with the attempt
numbers `1, ..., k`. -/
theorem Do_sleep_interrupted (env : Env) (policy : Policy) (start rest : List Event)
    (d : Int) (e : GoErr)
    (h : (Do env policy).2 = start ++ Event.sleep d (some e) :: rest) :
    0 < d ∧ env.ctxDone start d = some e ∧ rest = [] ∧ (Do env policy).1 = some e ∧
      ∃ k : Nat, 1 ≤ k ∧ calls start = attemptsFrom 1 k ∧
        calls (Do env policy).2 = attemptsFrom 1 k ∧ (calls (Do env policy).2).length = k := by
  obtain ⟨hok, hshape, j, hj⟩ := Do_inv env policy
  rw [h] at hok hshape
  have h1 := okFrom_at env [] start _ rest hok
  simp only [okEvent, List.nil_append] at h1
  obtain ⟨h2, h3⟩ := shape_last _ _ (some e) start _ rest hshape rfl
  have hcalls : calls (Do env policy).2 = calls start := by
    rw [h, h2, calls_append]
    simp [calls]
  refine ⟨h1.1, h1.2.1, h2, h3, j, ?_, ?_, hj, ?_⟩
  · cases j with
    | zero => rw [hcalls] at hj; exact absurd hj h1.2.2
    | succ j => omega
  · rw [← hcalls, hj]
  · rw [hj, attemptsFrom_length]

theorem Do_sleep_interrupted_witness :
    (0 : Int) < 1000000000 ∧
      envCancelledAsleep.ctxDone
        [Event.ctxErr none, Event.call 1 (some (GoErr.plain 7)), Event.sleep 500000000 none,
          Event.ctxErr none, Event.call 2 (some (GoErr.plain 7))] 1000000000
        = some GoErr.canceled ∧
      ([] : List Event) = [] ∧ (Do envCancelledAsleep DefaultPolicy).1 = some GoErr.canceled ∧
      ∃ k : Nat, 1 ≤ k ∧
        calls [Event.ctxErr none, Event.call 1 (some (GoErr.plain 7)),
          Event.sleep 500000000 none, Event.ctxErr none, Event.call 2 (some (GoErr.plain 7))]
          = attemptsFrom 1 k ∧
        calls (Do envCancelledAsleep DefaultPolicy).2 = attemptsFrom 1 k ∧
        (calls (Do envCancelledAsleep DefaultPolicy).2).length = k :=
  Do_sleep_interrupted envCancelledAsleep DefaultPolicy
    [Event.ctxErr none, Event.call 1 (some (GoErr.plain 7)), Event.sleep 500000000 none,
      Event.ctxErr none, Event.call 2 (some (GoErr.plain 7))] [] 1000000000 GoErr.canceled
    (by decide!)

end Retry

namespace Limits

open GoTime Store

/-- C8: each check fails exactly when the 24-hour count has reached the daily limit, or the
hourly cap is positive and the 1-hour count has reached it; a cap of zero or less switches the
hourly check off; and the storage is the same after the check as before. -/
theorem check_limits_fail_iff (cfg : Config) (store : Storage) (now : Time) :
    (((CheckConnectionLimits cfg store now).1 ≠ none ↔
        dayRequests store now ≥ cfg.Connect.DailyLimit ∨
          (cfg.Limits.ConnectionPerHour > 0 ∧
            hourRequests store now ≥ cfg.Limits.ConnectionPerHour)) ∧
      (cfg.Limits.ConnectionPerHour ≤ 0 →
        ((CheckConnectionLimits cfg store now).1 ≠ none ↔
          dayRequests store now ≥ cfg.Connect.DailyLimit)) ∧
      (CheckConnectionLimits cfg store now).2 = store) ∧
    (((CheckMessageLimits cfg store now).1 ≠ none ↔
        dayMessages store now ≥ cfg.Messaging.DailyLimit ∨
          (cfg.Limits.MessagePerHour > 0 ∧
            hourMessages store now ≥ cfg.Limits.MessagePerHour)) ∧
      (cfg.Limits.MessagePerHour ≤ 0 →
        ((CheckMessageLimits cfg store now).1 ≠ none ↔
          dayMessages store now ≥ cfg.Messaging.DailyLimit)) ∧
      (CheckMessageLimits cfg store now).2 = store) := by
  refine ⟨⟨?_, ?_, ?_⟩, ⟨?_, ?_, ?_⟩⟩
  · simp only [CheckConnectionLimits, CountRequestsSince, dayRequests, hourRequests]
    generalize countRequests (now.Add (-24 * GoTime.Hour)) store.state.SentRequests = day
    generalize countRequests (now.Add (-1 * GoTime.Hour)) store.state.SentRequests = hour
    split_ifs with h1 h2
    · simp [h1]
    · simp [h2]
    · simp only [ne_eq, not_true_eq_false, false_iff]
      tauto
  · intro h0
    simp only [CheckConnectionLimits, CountRequestsSince, dayRequests, hourRequests]
    generalize countRequests (now.Add (-24 * GoTime.Hour)) store.state.SentRequests = day
    generalize countRequests (now.Add (-1 * GoTime.Hour)) store.state.SentRequests = hour
    split_ifs with h1 h2
    · simp [h1]
    · omega
    · simp [h1]
  · simp only [CheckConnectionLimits, CountRequestsSince]
    split_ifs <;> rfl
  · simp only [CheckMessageLimits, CountMessagesSince, dayMessages, hourMessages]
    generalize countMessages (now.Add (-24 * GoTime.Hour)) store.state.Messages = day
    generalize countMessages (now.Add (-1 * GoTime.Hour)) store.state.Messages = hour
    split_ifs with h1 h2
    · simp [h1]
    · simp [h2]
    · simp only [ne_eq, not_true_eq_false, false_iff]
      tauto
  · intro h0
    simp only [CheckMessageLimits, CountMessagesSince, dayMessages, hourMessages]
    generalize countMessages (now.Add (-24 * GoTime.Hour)) store.state.Messages = day
    generalize countMessages (now.Add (-1 * GoTime.Hour)) store.state.Messages = hour
    split_ifs with h1 h2
    · simp [h1]
    · omega
    · simp [h1]
  · simp only [CheckMessageLimits, CountMessagesSince]
    split_ifs <;> rfl

/-- C9: whenever the 24-hour count of connection requests has reached the daily limit,
`CheckConnectionLimits` fails with the daily error, whatever the hourly count and cap are. -/
theorem check_connection_daily_first (cfg : Config) (store : Storage) (now : Time)
    (h : dayRequests store now ≥ cfg.Connect.DailyLimit) :
    (CheckConnectionLimits cfg store now).1 = some "daily connection limit reached" := by
  simp only [dayRequests, CountRequestsSince] at h
  simp only [CheckConnectionLimits, CountRequestsSince]
  rw [if_pos h]

theorem check_connection_daily_first_witness :
    dayRequests twoRequests wednesdayEleven = 2 ∧ hourRequests twoRequests wednesdayEleven = 0 ∧
      limitTwo.Connect.DailyLimit = 2 ∧
      (CheckConnectionLimits limitTwo twoRequests wednesdayEleven).1 =
        some "daily connection limit reached" :=
  ⟨by decide, by decide, rfl,
    check_connection_daily_first limitTwo twoRequests wednesdayEleven (by decide)⟩

end Limits

namespace Stealth

open GoTime

theorem containsInt_iff (values : List Int) (target : Int) :
    containsInt values target = true ↔ target ∈ values := by
  induction values with
  | nil => simp [containsInt]
  | cons v rest ih =>
    simp only [containsInt, List.mem_cons]
    split
    · rename_i h; simp [h]
    · rename_i h
      rw [ih]
      constructor
      · exact Or.inr
      · rintro (h1 | h1)
        · exact absurd h1.symm h
        · exact h1

theorem outsideBreaks_iff (tod : Int) (breaks : List timeRange) :
    outsideBreaks tod breaks = true ↔ ∀ br ∈ breaks, ¬ (br.Start ≤ tod ∧ tod ≤ br.End) := by
  induction breaks with
  | nil => simp [outsideBreaks]
  | cons br rest ih =>
    simp only [outsideBreaks, List.mem_cons, forall_eq_or_imp]
    split
    · rename_i h
      constructor
      · intro hf; exact absurd hf (by simp)
      · intro h1; exact absurd ⟨h.1, h.2⟩ h1.1
    · rename_i h
      rw [ih]
      constructor
      · intro h1; exact ⟨h, h1⟩
      · intro h1; exact h1.2

theorem wrapInt64_of_small (x : Int) (h1 : -9223372036854775808 ≤ x)
    (h2 : x < 9223372036854775808) : wrapInt64 x = x := by
  unfold wrapInt64
  omega

/-- The function `timeOfDay` gives the exact time of day cut down to whole minutes. -/
theorem timeOfDay_eq_minuteOfDay (t : Time) : timeOfDay t = minuteOfDay t := by
  have hn := t.nsec.isLt
  simp only [timeOfDay, minuteOfDay, exactTimeOfDay, Time.Hour, Time.Minute, GoTime.Hour,
    GoTime.Minute, GoTime.Second]
  omega

/-- C10, the claim as worded fails: on Wednesday at 17:00:30 the window of `officeHours` has
closed half a minute ago, and `IsWithinWindow` still answers true. -/
theorem IsWithinWindow_after_end :
    IsWithinWindow officeHours (wednesdayAfterFive.In officeHours.loc) = true ∧
      ¬ windowOpen officeHours (wednesdayAfterFive.In officeHours.loc).Weekday
          (exactTimeOfDay (wednesdayAfterFive.In officeHours.loc)) := by
  refine ⟨by decide, ?_⟩
  unfold windowOpen
  decide

/-- C10, amended: for every instant and every scheduler whose hours do not overflow a
duration, `IsWithinWindow` is true exactly when the weekday of the instant in the configured
timezone is allowed and its time of day there, cut down to whole minutes, lies in
`[startHour:00, endHour:00]` and in no break, all bounds included. -/
theorem IsWithinWindow_iff_minute (s : Scheduler) (now : Time)
    (hs : -2562047 ≤ s.cfg.StartHour ∧ s.cfg.StartHour ≤ 2562047)
    (he : -2562047 ≤ s.cfg.EndHour ∧ s.cfg.EndHour ≤ 2562047) :
    IsWithinWindow s (now.In s.loc) = true ↔
      windowOpen s (now.In s.loc).Weekday (minuteOfDay (now.In s.loc)) := by
  have h1 : wrapInt64 (s.cfg.StartHour * GoTime.Hour) = s.cfg.StartHour * GoTime.Hour := by
    apply wrapInt64_of_small <;> simp only [GoTime.Hour, GoTime.Minute, GoTime.Second] <;> omega
  have h2 : wrapInt64 (s.cfg.EndHour * GoTime.Hour) = s.cfg.EndHour * GoTime.Hour := by
    apply wrapInt64_of_small <;> simp only [GoTime.Hour, GoTime.Minute, GoTime.Second] <;> omega
  simp only [IsWithinWindow, windowOpen, h1, h2, timeOfDay_eq_minuteOfDay]
  by_cases hd : containsInt s.cfg.BusinessDays (now.In s.loc).Weekday = true
  · have hmem := (containsInt_iff _ _).mp hd
    simp only [hd, Bool.not_true, Bool.false_eq_true, if_false, hmem, true_and]
    by_cases hw : minuteOfDay (now.In s.loc) < s.cfg.StartHour * GoTime.Hour ∨
        minuteOfDay (now.In s.loc) > s.cfg.EndHour * GoTime.Hour
    · simp only [hw, if_true, Bool.false_eq_true, false_iff]
      intro h
      rcases hw with hw | hw
      · exact absurd h.1.1 (not_le.mpr hw)
      · exact absurd h.1.2 (not_le.mpr hw)
    · simp only [hw, if_false, outsideBreaks_iff]
      have hw1 := not_or.mp hw
      exact ⟨fun h => ⟨⟨not_lt.mp hw1.1, not_lt.mp hw1.2⟩, h⟩, fun h => h.2⟩
  · have hmem : ¬ (now.In s.loc).Weekday ∈ s.cfg.BusinessDays :=
      fun h => hd ((containsInt_iff _ _).mpr h)
    simp only [Bool.not_eq_true] at hd
    simp [hd, hmem]

theorem IsWithinWindow_iff_minute_witness :
    IsWithinWindow officeHours (wednesdayElevenEast.In officeHours.loc) = true ∧
      windowOpen officeHours (wednesdayElevenEast.In officeHours.loc).Weekday
        (minuteOfDay (wednesdayElevenEast.In officeHours.loc)) :=
  ⟨by decide,
    (IsWithinWindow_iff_minute officeHours wednesdayElevenEast (by decide) (by decide)).mp
      (by decide)⟩

end Stealth

namespace Stealth

open GoTime

theorem time_eq (t u : Time) (h1 : t.sec = u.sec) (h2 : t.nsec.val = u.nsec.val)
    (h3 : t.loc = u.loc) : t = u := by
  cases t with | mk s n l => cases u with | mk s1 n1 l1 =>
  simp only at h1 h2 h3
  subst h1 h3
  have : n = n1 := Fin.ext h2
  subst this
  rfl

theorem Date_of_fixed (loc : Location) (c : Int) (h : ∀ t, loc.offsetAt t = c) (day hour : Int) :
    Date day hour loc = ⟨day * 86400 + hour * 3600 - c, 0, loc⟩ := by
  simp [Date, h]

theorem add_day (x : Int) (loc : Location) :
    (⟨x, 0, loc⟩ : Time).Add (24 * GoTime.Hour) = ⟨x + 86400, 0, loc⟩ := by
  apply time_eq
  · simp only [Time.Add, GoTime.Hour, GoTime.Minute, GoTime.Second, Fin.val_zero]
    omega
  · simp only [Time.Add, GoTime.Hour, GoTime.Minute, GoTime.Second, Fin.val_zero]
    omega
  · rfl

/-- Adding a duration that is not negative does not give an earlier instant. -/
theorem not_after_add (t : Time) (d : Int) (hd : 0 ≤ d) : t.After (t.Add d) = false := by
  have hn := t.nsec.isLt
  simp only [Time.After, Time.Add, Bool.or_eq_false_iff, Bool.and_eq_false_iff,
    decide_eq_false_iff_not, Fin.lt_def]
  constructor
  · omega
  · by_cases h : t.sec = (t.sec * 1000000000 + (t.nsec.val : Int) + d) / 1000000000
    · right
      omega
    · left; exact h

theorem parseClock_range (value : List Char) (hour minute : Int)
    (h : parseClock value = some (hour, minute)) :
    0 ≤ hour ∧ hour < 24 ∧ 0 ≤ minute ∧ minute < 60 := by
  unfold parseClock at h
  split at h
  · cases h
  · rename_i hr rest _
    split at h
    · cases h
    · rename_i hh
      split at h
      · split at h
        · cases h
        · rename_i mn rest2 _
          split at h
          · cases h
          · rename_i hm
            split at h
            · simp only [Option.some.injEq, Prod.mk.injEq] at h
              obtain ⟨rfl, rfl⟩ := h
              omega
            · cases h
      · cases h

/-- The function `parseTimeOfDay` gives a whole number of minutes from 00:00 to 23:59. -/
theorem parseTimeOfDay_range (raw : List Char) :
    0 ≤ parseTimeOfDay raw ∧ parseTimeOfDay raw < 24 * GoTime.Hour ∧
      parseTimeOfDay raw % GoTime.Minute = 0 := by
  unfold parseTimeOfDay
  split
  · split
    · simp [GoTime.Hour, GoTime.Minute, GoTime.Second]
    · rename_i hour minute hp
      have := parseClock_range _ _ _ hp
      simp only [GoTime.Hour, GoTime.Minute, GoTime.Second]
      omega
  · simp [GoTime.Hour, GoTime.Minute, GoTime.Second]

/-- Every break `parseBreaks` yields has ends that are whole minutes of the day. -/
theorem parseBreaks_range (entries : List String) :
    ∀ br ∈ parseBreaks entries,
      (0 ≤ br.Start ∧ br.Start < 24 * GoTime.Hour ∧ br.Start % GoTime.Minute = 0) ∧
      (0 ≤ br.End ∧ br.End < 24 * GoTime.Hour ∧ br.End % GoTime.Minute = 0) := by
  induction entries with
  | nil => intro br h; simp [parseBreaks] at h
  | cons entry entries ih =>
    intro br h
    unfold parseBreaks at h
    split at h
    · simp only at h
      split at h
      · exact ih br h
      · rcases List.mem_cons.mp h with h1 | h1
        · subst h1
          exact ⟨parseTimeOfDay_range _, parseTimeOfDay_range _⟩
        · exact ih br h1
    · exact ih br h

theorem NewScheduler_fields (load : String → Option Location) (cfg : ScheduleConfig)
    (s : Scheduler) (h : NewScheduler load cfg = some s) :
    s.cfg = cfg ∧ load cfg.Timezone = some s.loc ∧ s.breaks = parseBreaks cfg.Breaks := by
  unfold NewScheduler at h
  split at h
  · cases h
  · rename_i loc hl
    simp only [Option.some.injEq] at h
    subst h
    exact ⟨rfl, hl, rfl⟩

theorem Date_dayNumber (loc : Location) (c : Int) (h : ∀ t, loc.offsetAt t = c) (day hour : Int)
    (h0 : 0 ≤ hour) (h1 : hour ≤ 23) : (Date day hour loc).dayNumber = day := by
  simp only [Date_of_fixed loc c h, Time.dayNumber, Time.localSec, h]
  omega

theorem Date_Weekday (loc : Location) (c : Int) (h : ∀ t, loc.offsetAt t = c) (day hour : Int)
    (h0 : 0 ≤ hour) (h1 : hour ≤ 23) : (Date day hour loc).Weekday = (day + 4) % 7 := by
  have := Date_dayNumber loc c h day hour h0 h1
  simp only [Time.dayNumber] at this
  simp only [Time.Weekday, this]

theorem Date_add_day (loc : Location) (c : Int) (h : ∀ t, loc.offsetAt t = c) (day hour : Int) :
    (Date day hour loc).Add (24 * GoTime.Hour) = Date (day + 1) hour loc := by
  rw [Date_of_fixed loc c h, Date_of_fixed loc c h, add_day]
  apply time_eq
  · simp only; omega
  · rfl
  · rfl

theorem breakEnd_none_at_start (t : Time) (breaks : List timeRange)
    (h : ∀ br ∈ breaks, 0 ≤ br.Start) : breakEnd t t breaks = none := by
  induction breaks with
  | nil => rfl
  | cons br rest ih =>
    have h0 : 0 ≤ br.Start := h br (List.mem_cons_self _ _)
    simp only [breakEnd, not_after_add t br.Start h0, Bool.false_and, Bool.false_eq_true,
      if_false]
    exact ih (fun b hb => h b (List.mem_cons_of_mem _ hb))

theorem not_before_self (t : Time) : t.Before t = false := by
  simp [Time.Before]

/-- In a zone of constant offset, the scan from `startHour:00` of day `day` stops at
`startHour:00` of the first allowed day from `day` on. -/
theorem nextWindowLoop_scan (s : Scheduler) (c : Int) (hloc : ∀ t, s.loc.offsetAt t = c)
    (hh : 0 ≤ s.cfg.StartHour ∧ s.cfg.StartHour ≤ s.cfg.EndHour ∧ s.cfg.EndHour ≤ 23)
    (hbr : ∀ br ∈ s.breaks, 0 ≤ br.Start) (now0 : Time) (m : Nat) :
    ∀ (fuel : Nat) (day : Int), m < fuel →
      (∀ i : Nat, i < m → (day + i + 4) % 7 ∉ s.cfg.BusinessDays) →
      (day + m + 4) % 7 ∈ s.cfg.BusinessDays →
      nextWindowLoop s now0 fuel (Date day s.cfg.StartHour s.loc) =
        Date (day + m) s.cfg.StartHour s.loc := by
  have hs0 := hh.1
  have hs1 : s.cfg.StartHour ≤ 23 := by omega
  induction m with
  | zero =>
    intro fuel day hfuel _ hopen
    obtain ⟨fuel, rfl⟩ : ∃ f, fuel = f + 1 := ⟨fuel - 1, by omega⟩
    have hw : containsInt s.cfg.BusinessDays (Date day s.cfg.StartHour s.loc).Weekday = true := by
      rw [containsInt_iff, Date_Weekday s.loc c hloc day _ hs0 hs1]
      simpa using hopen
    have hstop : (Date day s.cfg.StartHour s.loc).After (Date day s.cfg.EndHour s.loc) = false := by
      simp only [Date_of_fixed s.loc c hloc, Time.After, Bool.or_eq_false_iff,
        Bool.and_eq_false_iff, decide_eq_false_iff_not, Fin.lt_def]
      constructor
      · omega
      · right; simp
    simp only [nextWindowLoop, hw, if_true, Date_dayNumber s.loc c hloc day _ hs0 hs1,
      not_before_self, Bool.false_eq_true, if_false, hstop,
      breakEnd_none_at_start _ _ hbr]
    simp
  | succ m ih =>
    intro fuel day hfuel hclosed hopen
    obtain ⟨fuel, rfl⟩ : ∃ f, fuel = f + 1 := ⟨fuel - 1, by omega⟩
    have hw : containsInt s.cfg.BusinessDays (Date day s.cfg.StartHour s.loc).Weekday = false := by
      rw [← Bool.not_eq_true, containsInt_iff, Date_Weekday s.loc c hloc day _ hs0 hs1]
      simpa using hclosed 0 (by omega)
    simp only [nextWindowLoop, hw, Bool.false_eq_true, if_false,
      Date_dayNumber s.loc c hloc day _ hs0 hs1, Date_add_day s.loc c hloc]
    rw [ih fuel (day + 1) (by omega)]
    · congr 1; push_cast; ring
    · intro i hi
      have := hclosed (i + 1) (by omega)
      push_cast at this
      rw [show day + 1 + (i : Int) + 4 = day + ((i : Int) + 1) + 4 by ring]
      exact this
    · rw [show day + 1 + (m : Int) + 4 = day + ((m + 1 : Nat) : Int) + 4 by push_cast; ring]
      exact hopen

theorem After_iff_nanos (t u : Time) : t.After u = true ↔ u.nanos < t.nanos := by
  have h1 := t.nsec.isLt
  have h2 := u.nsec.isLt
  simp only [Time.After, Time.nanos, Bool.or_eq_true, Bool.and_eq_true, decide_eq_true_eq,
    Fin.lt_def]
  omega

theorem Before_iff_nanos (t u : Time) : t.Before u = true ↔ t.nanos < u.nanos := by
  have h1 := t.nsec.isLt
  have h2 := u.nsec.isLt
  simp only [Time.Before, Time.nanos, Bool.or_eq_true, Bool.and_eq_true, decide_eq_true_eq,
    Fin.lt_def]
  omega

theorem Add_nanos (t : Time) (d : Int) : (t.Add d).nanos = t.nanos + d := by
  have h1 := t.nsec.isLt
  simp only [Time.Add, Time.nanos]
  omega

theorem IsWithinWindow_true (s : Scheduler) (t : Time) (h : IsWithinWindow s t = true) :
    t.Weekday ∈ s.cfg.BusinessDays ∧
      wrapInt64 (s.cfg.StartHour * GoTime.Hour) ≤ timeOfDay t ∧
      timeOfDay t ≤ wrapInt64 (s.cfg.EndHour * GoTime.Hour) ∧
      ∀ br ∈ s.breaks, ¬ (br.Start ≤ timeOfDay t ∧ timeOfDay t ≤ br.End) := by
  unfold IsWithinWindow at h
  split at h
  · cases h
  · rename_i hd
    simp only [Bool.not_eq_true, Bool.not_eq_eq_eq_not, Bool.not_false] at hd
    simp only at h
    split at h
    · cases h
    · rename_i hw
      refine ⟨(containsInt_iff _ _).mp ?_, by omega, by omega, (outsideBreaks_iff _ _).mp h⟩
      simpa using hd

/-- C11: with business days 1 to 5, hours 9 to 17 and the breaks `["12:00-12:45"]`, the
scheduler `NewScheduler` builds answers true at Wednesday 11:00, false at Wednesday 12:20 and
false at Saturday 10:00, the three readings being taken in the configured timezone. -/
theorem IsWithinWindow_office_examples (load : String → Option Location)
    (cfg : ScheduleConfig) (s : Scheduler) (t1 t2 t3 : Time)
    (hs : NewScheduler load cfg = some s)
    (hdays : cfg.BusinessDays = [1, 2, 3, 4, 5]) (hstart : cfg.StartHour = 9)
    (hend : cfg.EndHour = 17) (hbreaks : cfg.Breaks = ["12:00-12:45"])
    (h1 : (t1.In s.loc).Weekday = 3 ∧ (t1.In s.loc).Hour = 11 ∧ (t1.In s.loc).Minute = 0)
    (h2 : (t2.In s.loc).Weekday = 3 ∧ (t2.In s.loc).Hour = 12 ∧ (t2.In s.loc).Minute = 20)
    (h3 : (t3.In s.loc).Weekday = 6 ∧ (t3.In s.loc).Hour = 10 ∧ (t3.In s.loc).Minute = 0) :
    IsWithinWindow s (t1.In s.loc) = true ∧ IsWithinWindow s (t2.In s.loc) = false ∧
      IsWithinWindow s (t3.In s.loc) = false := by
  obtain ⟨hcfg, _, hbr⟩ := NewScheduler_fields load cfg s hs
  have hb : s.breaks = [⟨12 * GoTime.Hour, 12 * GoTime.Hour + 45 * GoTime.Minute⟩] := by
    rw [hbr, hbreaks]; rfl
  refine ⟨?_, ?_, ?_⟩
  · simp only [IsWithinWindow, hcfg, hdays, hstart, hend, hb, timeOfDay, h1.1, h1.2.1, h1.2.2]
    decide
  · simp only [IsWithinWindow, hcfg, hdays, hstart, hend, hb, timeOfDay, h2.1, h2.2.1, h2.2.2]
    decide
  · simp only [IsWithinWindow, hcfg, hdays, hstart, hend, hb, timeOfDay, h3.1, h3.2.1, h3.2.2]
    decide

theorem IsWithinWindow_office_examples_witness :
    IsWithinWindow officeHours (wednesdayEleven.In officeHours.loc) = true ∧
      IsWithinWindow officeHours (wednesdayTwelveTwenty.In officeHours.loc) = false ∧
      IsWithinWindow officeHours (saturdayTen.In officeHours.loc) = false :=
  IsWithinWindow_office_examples loadUTC officeConfig officeHours wednesdayEleven
    wednesdayTwelveTwenty saturdayTen rfl rfl rfl rfl rfl (by decide) (by decide) (by decide)

/-- C12, what the code does: on Wednesday at 12:20, inside the break from 12:00 to 12:45 of
the scheduler built from `officeConfig`, `NextWindow` looks for the break between 21:00 and
21:45, the break's ends being added to the 09:00 start of the window, and returns 12:20 itself,
not 12:45. -/
theorem NextWindow_inside_break_returns_now :
    NewScheduler loadUTC officeConfig = some officeHours ∧
      IsWithinWindow officeHours wednesdayTwelveTwenty = false ∧
      (NextWindow officeHours wednesdayTwelveTwenty).nanos = wednesdayTwelveTwenty.nanos ∧
      (NextWindow officeHours wednesdayTwelveTwenty).nanos ≠ wednesdayTwelveFortyFive.nanos ∧
      ((Date wednesdayTwelveTwenty.dayNumber 9 UTC).Add (12 * GoTime.Hour)).Hour = 21 := by
  refine ⟨rfl, by decide, by decide, by decide, by decide⟩

/-- C14, what the code does: the instant `NextWindow` returns for Wednesday 12:20 with the
scheduler built from `officeConfig` is 12:20 itself, where `IsWithinWindow` is false. -/
theorem NextWindow_result_not_within :
    NewScheduler loadUTC officeConfig = some officeHours ∧
      (NextWindow officeHours wednesdayTwelveTwenty).nanos = wednesdayTwelveTwenty.nanos ∧
      IsWithinWindow officeHours (NextWindow officeHours wednesdayTwelveTwenty) = false := by
  refine ⟨rfl, by decide, by decide⟩

theorem nextWindowLoop_closed (s : Scheduler) (now current : Time) (left : Nat)
    (h : containsInt s.cfg.BusinessDays current.Weekday = false) :
    nextWindowLoop s now (left + 1) current =
      nextWindowLoop s now left
        ((Date current.dayNumber s.cfg.StartHour s.loc).Add (24 * GoTime.Hour)) := by
  rw [nextWindowLoop]
  simp only [h, Bool.false_eq_true, if_false]

theorem nextWindowLoop_open (s : Scheduler) (now current : Time) (left : Nat)
    (h : containsInt s.cfg.BusinessDays current.Weekday = true)
    (h1 : current.Before (Date current.dayNumber s.cfg.StartHour s.loc) = false)
    (h2 : current.After (Date current.dayNumber s.cfg.EndHour s.loc) = false)
    (h3 : breakEnd (Date current.dayNumber s.cfg.StartHour s.loc) current s.breaks = none) :
    nextWindowLoop s now (left + 1) current = current := by
  rw [nextWindowLoop]
  simp only [h, if_true, h1, h2, h3, Bool.false_eq_true, if_false]

/-- C13, what the code does: in a zone that moves its clocks forward on Sunday, with Sunday
allowed, `NextWindow` from the Saturday before at 10:00 returns Sunday 10:00, an hour after the
09:00 start of the first following allowed day.  Line 111 steps to the next day by adding 24
hours to Saturday 09:00; the clocks go forward in between, so that is Sunday 10:00. -/
theorem NextWindow_across_clock_change :
    NewScheduler loadSpring sundayConfig = some sundayScheduler ∧
      (saturdayBeforeSpring.In sundayScheduler.loc).Weekday = 6 ∧
      (NextWindow sundayScheduler (saturdayBeforeSpring.In sundayScheduler.loc)).Weekday = 0 ∧
      (NextWindow sundayScheduler (saturdayBeforeSpring.In sundayScheduler.loc)).Hour = 10 ∧
      (NextWindow sundayScheduler (saturdayBeforeSpring.In sundayScheduler.loc)).nanos ≠
        (Date ((saturdayBeforeSpring.In sundayScheduler.loc).dayNumber + 1) 9
          sundayScheduler.loc).nanos := by
  refine ⟨rfl, by decide, by decide, by decide, by decide⟩

/-- In a timezone of constant offset, with hours `0 <= start <= end <= 23`, for
every instant on a weekday that is not allowed, `NextWindow` returns `startHour:00` of the first
following allowed weekday, `j` days later. -/
theorem NextWindow_from_closed_day (load : String → Option Location) (cfg : ScheduleConfig)
    (s : Scheduler) (c : Int) (now : Time) (j : Nat)
    (hs : NewScheduler load cfg = some s) (hloc : ∀ t, s.loc.offsetAt t = c)
    (hh : 0 ≤ cfg.StartHour ∧ cfg.StartHour ≤ cfg.EndHour ∧ cfg.EndHour ≤ 23)
    (hj : 1 ≤ j)
    (hclosed : ∀ i : Nat, i < j → ((now.In s.loc).Weekday + i) % 7 ∉ cfg.BusinessDays)
    (hopen : ((now.In s.loc).Weekday + j) % 7 ∈ cfg.BusinessDays) :
    NextWindow s (now.In s.loc) = Date ((now.In s.loc).dayNumber + j) cfg.StartHour s.loc ∧
      (NextWindow s (now.In s.loc)).Weekday = ((now.In s.loc).Weekday + j) % 7 ∧
      exactTimeOfDay (NextWindow s (now.In s.loc)) = cfg.StartHour * GoTime.Hour := by
  obtain ⟨hcfg, _, hbr⟩ := NewScheduler_fields load cfg s hs
  have hbr0 : ∀ br ∈ s.breaks, 0 ≤ br.Start := by
    intro br hb
    rw [hbr] at hb
    exact (parseBreaks_range _ br hb).1.1
  have hw : (now.In s.loc).Weekday = ((now.In s.loc).dayNumber + 4) % 7 := rfl
  have hj7 : j ≤ 7 := by
    by_contra hlt
    have := hclosed (j - 7) (by omega)
    apply this
    have e : ((now.In s.loc).Weekday + ((j - 7 : Nat) : Int)) % 7 =
        ((now.In s.loc).Weekday + (j : Int)) % 7 := by omega
    rw [e]; exact hopen
  have h0 : containsInt s.cfg.BusinessDays (now.In s.loc).Weekday = false := by
    rw [← Bool.not_eq_true, containsInt_iff, hcfg]
    have := hclosed 0 (by omega)
    have e : ((now.In s.loc).Weekday + ((0 : Nat) : Int)) % 7 = (now.In s.loc).Weekday := by
      rw [hw]; omega
    rwa [e] at this
  have hrun : NextWindow s (now.In s.loc) =
      Date ((now.In s.loc).dayNumber + j) cfg.StartHour s.loc := by
    rw [NextWindow, nextWindowLoop_closed s _ _ 7 h0, Date_add_day s.loc c hloc, hcfg]
    have hscan := nextWindowLoop_scan s c hloc (by rw [hcfg]; exact hh) hbr0 (now.In s.loc)
      (j - 1) 7 ((now.In s.loc).dayNumber + 1) (by omega)
      (by
        intro i hi
        rw [hcfg]
        have := hclosed (i + 1) (by omega)
        have e : ((now.In s.loc).dayNumber + 1 + (i : Int) + 4) % 7 =
            ((now.In s.loc).Weekday + ((i + 1 : Nat) : Int)) % 7 := by
          rw [hw]; push_cast; omega
        rw [e]; exact this)
      (by
        rw [hcfg]
        have e : ((now.In s.loc).dayNumber + 1 + ((j - 1 : Nat) : Int) + 4) % 7 =
            ((now.In s.loc).Weekday + (j : Int)) % 7 := by
          rw [hw]; omega
        rw [e]; exact hopen)
    rw [hcfg] at hscan
    rw [hscan]
    congr 1
    omega
  have hs1 : cfg.StartHour ≤ 23 := by omega
  refine ⟨hrun, ?_, ?_⟩
  · rw [hrun, Date_Weekday s.loc c hloc _ _ hh.1 hs1, hw]
    omega
  · rw [hrun]
    simp only [Date_of_fixed s.loc c hloc, exactTimeOfDay, Time.localSec, hloc, GoTime.Hour,
      GoTime.Minute, GoTime.Second, Fin.val_zero]
    omega

theorem NextWindow_from_closed_day_witness :
    NextWindow officeHours (saturdayTen.In officeHours.loc) =
        Date ((saturdayTen.In officeHours.loc).dayNumber + (2 : Nat)) officeConfig.StartHour
          officeHours.loc ∧
      (NextWindow officeHours (saturdayTen.In officeHours.loc)).Weekday =
        ((saturdayTen.In officeHours.loc).Weekday + (2 : Nat)) % 7 ∧
      exactTimeOfDay (NextWindow officeHours (saturdayTen.In officeHours.loc)) =
        officeConfig.StartHour * GoTime.Hour :=
  NextWindow_from_closed_day loadUTC officeConfig officeHours 0 saturdayTen 2 rfl (fun _ => rfl)
    (by decide) (by decide) (by decide) (by decide)

/-- The instant of the witness above is Monday 8 January 2024, 09:00. -/
theorem NextWindow_saturday_is_monday :
    (NextWindow officeHours (saturdayTen.In officeHours.loc)).nanos = mondayNine.nanos ∧
      mondayNine.Weekday = 1 ∧ mondayNine.Hour = 9 ∧ mondayNine.Minute = 0 := by
  decide

theorem breakEnd_none (start t : Time) (breaks : List timeRange)
    (h : ∀ br ∈ breaks, ¬ (start.nanos + br.Start < t.nanos ∧ t.nanos < start.nanos + br.End)) :
    breakEnd start t breaks = none := by
  induction breaks with
  | nil => rfl
  | cons br rest ih =>
    have hbr := h br (List.mem_cons_self _ _)
    have hcond : (t.After (start.Add br.Start) && t.Before (start.Add br.End)) = false := by
      rw [← Bool.not_eq_true, Bool.and_eq_true, After_iff_nanos, Before_iff_nanos, Add_nanos,
        Add_nanos]
      exact hbr
    simp only [breakEnd, hcond, Bool.false_eq_true, if_false]
    exact ih (fun b hb => h b (List.mem_cons_of_mem _ hb))

/-- In a timezone of constant offset, with hours from 0 to 23, for every instant
where `IsWithinWindow` is true and whose time of day is not past `endHour:00:00`, `NextWindow`
returns the instant itself, when the window starts at hour 0 or there is no break. -/
theorem NextWindow_of_within (load : String → Option Location) (cfg : ScheduleConfig)
    (s : Scheduler) (c : Int) (now : Time)
    (hs : NewScheduler load cfg = some s) (hloc : ∀ t, s.loc.offsetAt t = c)
    (hh : (0 ≤ cfg.StartHour ∧ cfg.StartHour ≤ 23) ∧ (0 ≤ cfg.EndHour ∧ cfg.EndHour ≤ 23))
    (hw : IsWithinWindow s (now.In s.loc) = true)
    (hend : exactTimeOfDay (now.In s.loc) ≤ cfg.EndHour * GoTime.Hour)
    (hbreaks : cfg.StartHour = 0 ∨ s.breaks = []) :
    NextWindow s (now.In s.loc) = now.In s.loc := by
  obtain ⟨hcfg, _, hbr⟩ := NewScheduler_fields load cfg s hs
  obtain ⟨hday, hstart, _, hout⟩ := IsWithinWindow_true s _ hw
  have hn := (now.In s.loc).nsec.isLt
  rw [hcfg] at hday hstart
  rw [wrapInt64_of_small _ (by simp only [GoTime.Hour, GoTime.Minute, GoTime.Second]; omega)
    (by simp only [GoTime.Hour, GoTime.Minute, GoTime.Second]; omega)] at hstart
  have hloc1 : (now.In s.loc).localSec = (now.In s.loc).sec + c := by
    simp only [Time.localSec]
    rw [show (now.In s.loc).loc = s.loc from rfl, hloc]
  simp only [timeOfDay, Time.Hour, Time.Minute, GoTime.Hour, GoTime.Minute, GoTime.Second]
    at hstart hout
  simp only [exactTimeOfDay, GoTime.Hour, GoTime.Minute, GoTime.Second] at hend
  rw [NextWindow]
  apply nextWindowLoop_open
  · rw [containsInt_iff, hcfg]; exact hday
  · rw [← Bool.not_eq_true, Before_iff_nanos, hcfg, Date_of_fixed s.loc c hloc]
    simp only [Time.nanos, Time.dayNumber, Fin.val_zero]
    omega
  · rw [← Bool.not_eq_true, After_iff_nanos, hcfg, Date_of_fixed s.loc c hloc]
    simp only [Time.nanos, Time.dayNumber, Fin.val_zero]
    omega
  · rcases hbreaks with h0 | h0
    · apply breakEnd_none
      intro br hb
      have hal := parseBreaks_range cfg.Breaks br (by rw [← hbr]; exact hb)
      have hno := hout br hb
      rw [hcfg, h0, Date_of_fixed s.loc c hloc]
      simp only [Time.nanos, Time.dayNumber, Fin.val_zero]
      simp only [GoTime.Hour, GoTime.Minute, GoTime.Second] at hal
      omega
    · rw [h0]; rfl

theorem NextWindow_of_within_witness :
    NextWindow allDay (wednesdayEleven.In allDay.loc) = wednesdayEleven.In allDay.loc :=
  NextWindow_of_within loadUTC allDayConfig allDay 0 wednesdayEleven rfl (fun _ => rfl)
    (by decide) (by decide) (by decide) (Or.inl rfl)

/-- C16: `Enforce` returns an error exactly when scheduling is enabled, the strict mode is on
and `IsWithinWindow` is false at the current instant in the configured timezone; the error
carries `NextWindow` of that instant; in every other case it returns nil. -/
theorem Enforce_error_iff (s : Scheduler) (clock : Time) (hasLog : Bool) :
    ((Enforce s clock hasLog).1 ≠ none ↔
        s.cfg.Enabled = true ∧ s.cfg.Enforce = true ∧
          IsWithinWindow s (clock.In s.loc) = false) ∧
      (s.cfg.Enabled = true ∧ s.cfg.Enforce = true ∧
          IsWithinWindow s (clock.In s.loc) = false →
        (Enforce s clock hasLog).1 = some ⟨NextWindow s (clock.In s.loc)⟩) ∧
      (¬ (s.cfg.Enabled = true ∧ s.cfg.Enforce = true ∧
          IsWithinWindow s (clock.In s.loc) = false) →
        (Enforce s clock hasLog).1 = none) := by
  unfold Enforce
  cases he : s.cfg.Enabled <;> cases hf : s.cfg.Enforce <;>
    cases hw : IsWithinWindow s (clock.In s.loc) <;> cases hasLog <;> simp [hw]

theorem Enforce_error_iff_witness :
    (Enforce sundayScheduler saturdayBeforeSpring true).1 =
      some ⟨NextWindow sundayScheduler (saturdayBeforeSpring.In sundayScheduler.loc)⟩ :=
  (Enforce_error_iff sundayScheduler saturdayBeforeSpring true).2.1 ⟨rfl, rfl, by decide⟩

end Stealth

namespace Stealth

open GoTime

theorem Intn_some (rng : Rng) (n : Int) (h : 0 < n) :
    ∃ r rng1, rng.Intn n = some (r, rng1) ∧ 0 ≤ r ∧ r < n ∧ r = (rng.raw 0 : Int) % n := by
  refine ⟨(rng.raw 0 : Int) % n, ⟨fun i => rng.raw (i + 1)⟩, ?_, ?_, ?_, rfl⟩
  · simp [Rng.Intn, not_le.mpr h]
  · exact Int.emod_nonneg _ (by omega)
  · exact Int.emod_lt_of_pos _ h

/-- What `randomInt` gives for `int` arguments whose span fits an `int`. -/
theorem randomInt_spec (c : Controller) (min max : Int)
    (hmin : -9223372036854775808 ≤ min) (hmax : max < 9223372036854775808)
    (hfit : max - min < 9223372036854775807) :
    ∃ r c1, randomInt c min max = some (r, c1) ∧ c1.cfg = c.cfg ∧
      (min ≤ max → min ≤ r ∧ r ≤ max) ∧ (max ≤ min → r = min ∧ c1 = c) := by
  by_cases h : max ≤ min
  · refine ⟨min, c, by simp [randomInt, h], rfl, ?_, fun _ => ⟨rfl, rfl⟩⟩
    intro h1
    omega
  · have hn : wrapInt64 (wrapInt64 (max - min) + 1) = max - min + 1 := by
      rw [wrapInt64_of_small (max - min) (by omega) (by omega),
        wrapInt64_of_small _ (by omega) (by omega)]
    obtain ⟨r, rng1, hr, h0, h1, _⟩ := Intn_some c.rng (max - min + 1) (by omega)
    refine ⟨min + r, { c with rng := rng1 }, ?_, rfl, ?_, ?_⟩
    · simp only [randomInt, h, if_false, hn, hr]
      rw [wrapInt64_of_small _ (by omega) (by omega)]
    · intro _; omega
    · intro h2; exact absurd h2 h

theorem offsetPoint_spec (c : Controller) (base : Point) (lo hi : Int)
    (hlo : -9223372036854775808 ≤ lo) (hhi : hi < 9223372036854775808)
    (hfit : hi - lo < 9223372036854775807) (hle : lo ≤ hi) :
    ∃ (dx dy : Int) (c1 : Controller), offsetPoint c base lo hi = some (⟨base.X + (dx : ℚ), base.Y + (dy : ℚ)⟩, c1) ∧
      c1.cfg = c.cfg ∧ (lo ≤ dx ∧ dx ≤ hi) ∧ (lo ≤ dy ∧ dy ≤ hi) := by
  obtain ⟨dx, c1, h1, hc1, hx, _⟩ := randomInt_spec c lo hi hlo hhi hfit
  obtain ⟨dy, c2, h2, hc2, hy, _⟩ := randomInt_spec c1 lo hi hlo hhi hfit
  refine ⟨dx, dy, c2, ?_, by rw [hc2, hc1], hx hle, hy hle⟩
  simp only [offsetPoint, h1, h2]

theorem curveSteps_spec (math : MathLib) (p0 p1 p2 p3 : Point) (steps : Int) (left : Nat) :
    ∀ (i : Int) (c : Controller), ∃ l c1,
      curveSteps math p0 p1 p2 p3 steps left i c = some (l, c1) ∧ l.length = left ∧
        c1.cfg = c.cfg := by
  induction left with
  | zero => intro i c; exact ⟨[], c, rfl, rfl, rfl⟩
  | succ left ih =>
    intro i c
    obtain ⟨r, c1, h1, hc1, _, _⟩ := randomInt_spec c 0 6 (by omega) (by omega) (by omega)
    obtain ⟨l, c2, h2, hl, hc2⟩ := ih (i + 1) c1
    simp only [curveSteps, h1, h2]
    exact ⟨_, _, rfl, by simp [hl], by rw [hc2, hc1]⟩

theorem settleSteps_spec (target : Point) (left : Nat) :
    ∀ (c : Controller), ∃ l c1, settleSteps target left c = some (l, c1) ∧ l.length = left ∧
      c1.cfg = c.cfg ∧ ∀ s ∈ l, nearTarget target s ∧ s.Delay = 12 * Millisecond := by
  induction left with
  | zero => intro c; exact ⟨[], c, rfl, rfl, rfl, by simp⟩
  | succ left ih =>
    intro c
    obtain ⟨dx, dy, c1, h1, hc1, hx, hy⟩ :=
      offsetPoint_spec c target (-2) 2 (by omega) (by omega) (by omega) (by omega)
    obtain ⟨l, c2, h2, hl, hc2, hnear⟩ := ih c1
    simp only [settleSteps, h1, h2]
    refine ⟨_, _, rfl, by simp [hl], by rw [hc2, hc1], ?_⟩
    · intro s hs
      rcases List.mem_cons.mp hs with h | h
      · subst h
        refine ⟨⟨?_, ?_⟩, rfl⟩
        · simp only [add_sub_cancel_left]
          rw [abs_le]
          constructor
          · have : ((-2 : Int) : ℚ) ≤ (dx : ℚ) := by exact_mod_cast hx.1
            simpa using this
          · have : (dx : ℚ) ≤ ((2 : Int) : ℚ) := by exact_mod_cast hx.2
            simpa using this
        · simp only [add_sub_cancel_left]
          rw [abs_le]
          constructor
          · have : ((-2 : Int) : ℚ) ≤ (dy : ℚ) := by exact_mod_cast hy.1
            simpa using this
          · have : (dy : ℚ) ≤ ((2 : Int) : ℚ) := by exact_mod_cast hy.2
            simpa using this
      · exact hnear s h

theorem pathSteps_range (math : MathLib) (source target : Point) :
    18 ≤ pathSteps math source target ∧ pathSteps math source target ≤ 64 := by
  unfold pathSteps clampInt
  split
  · omega
  · split <;> omega

/-- Whenever `buildPath` returns, its path is the curve, then the overshoot step, then what
the settle loop produced. -/
theorem buildPath_shape (math : MathLib) (c : Controller) (source target : Point)
    (path : List mouseStep) (c5 : Controller)
    (h : buildPath math c source target = some (path, c5)) :
    ∃ curve o settle p1 p2 c2 c3 c4,
      curveSteps math source p1 p2 target (pathSteps math source target)
        (pathSteps math source target + 1).toNat 0 c2 = some (curve, c3) ∧
      settleSteps target 3 c4 = some (settle, c5) ∧ o.Delay = 14 * Millisecond ∧
      path = curve ++ o :: settle := by
  unfold buildPath at h
  simp only at h
  split at h
  · cases h
  · rename_i p1 c1 _
    split at h
    · cases h
    · rename_i p2 c2 _
      split at h
      · cases h
      · rename_i curve c3 hcurve
        split at h
        · cases h
        · rename_i o c4 _
          split at h
          · cases h
          · rename_i settle c5a hsettle
            simp only [Option.some.injEq, Prod.mk.injEq] at h
            obtain ⟨rfl, rfl⟩ := h
            exact ⟨curve, ⟨o.X, o.Y, 14 * Millisecond⟩, settle, p1, p2, c2, c3, c4, hcurve,
              hsettle, rfl, rfl⟩

/-- With a mouse jitter that leaves the span of the control draws within an `int`,
`buildPath` returns a path. -/
theorem buildPath_some (math : MathLib) (c : Controller) (source target : Point)
    (hj : c.cfg.MouseMoveJitter ≤ 4611686018427387863) :
    ∃ path c5, buildPath math c source target = some (path, c5) := by
  have hlohi : ∀ j : Int, 0 ≤ j → j ≤ 4611686018427387863 →
      wrapInt64 (-40 - j) = -40 - j ∧ wrapInt64 (40 + j) = 40 + j := by
    intro j h0 h1
    exact ⟨wrapInt64_of_small _ (by omega) (by omega), wrapInt64_of_small _ (by omega) (by omega)⟩
  obtain ⟨j, hjdef, hj0, hj1⟩ : ∃ j : Int,
      (if c.cfg.MouseMoveJitter < 0 then 0 else c.cfg.MouseMoveJitter) = j ∧ 0 ≤ j ∧
        j ≤ 4611686018427387863 := by
    refine ⟨_, rfl, ?_, ?_⟩ <;> split <;> omega
  obtain ⟨hlo, hhi⟩ := hlohi j hj0 hj1
  obtain ⟨p1, c1, h1⟩ : ∃ p1 c1, offsetPoint c
      ⟨source.X + (target.X - source.X) * (3 / 10), source.Y + (target.Y - source.Y) * (3 / 10)⟩
      (-40 - j) (40 + j) = some (p1, c1) := by
    obtain ⟨_, _, c1, h, _⟩ := offsetPoint_spec c
      ⟨source.X + (target.X - source.X) * (3 / 10), source.Y + (target.Y - source.Y) * (3 / 10)⟩
      (-40 - j) (40 + j) (by omega) (by omega) (by omega) (by omega)
    exact ⟨_, _, h⟩
  obtain ⟨p2, c2, h2⟩ : ∃ p2 c2, offsetPoint c1
      ⟨source.X + (target.X - source.X) * (7 / 10), source.Y + (target.Y - source.Y) * (7 / 10)⟩
      (-40 - j) (40 + j) = some (p2, c2) := by
    obtain ⟨_, _, c2, h, _⟩ := offsetPoint_spec c1
      ⟨source.X + (target.X - source.X) * (7 / 10), source.Y + (target.Y - source.Y) * (7 / 10)⟩
      (-40 - j) (40 + j) (by omega) (by omega) (by omega) (by omega)
    exact ⟨_, _, h⟩
  obtain ⟨curve, c3, h3, _, _⟩ := curveSteps_spec math source p1 p2 target
    (pathSteps math source target) (pathSteps math source target + 1).toNat 0 c2
  obtain ⟨o, c4, h4⟩ : ∃ o c4, offsetPoint c3 target (-12) 12 = some (o, c4) := by
    obtain ⟨_, _, c4, h, _⟩ := offsetPoint_spec c3 target (-12) 12
      (by omega) (by omega) (by omega) (by omega)
    exact ⟨_, _, h⟩
  obtain ⟨settle, c5, h5, _, _, _⟩ := settleSteps_spec target 3 c4
  refine ⟨curve ++ ⟨o.X, o.Y, 14 * Millisecond⟩ :: settle, c5, ?_⟩
  simp only [buildPath, hjdef, hlo, hhi, h1, h2, h3, h4, h5]

/-- C17, the claim as worded fails: for `low = 0` and `high = 2^63 - 1` the span
`high - low + 1` does not fit an `int`, `Intn` gets a negative argument and panics, so
`randomInt` returns nothing. -/
theorem randomInt_span_overflow :
    (0 : Int) ≤ 9223372036854775807 ∧
      wrapInt64 (wrapInt64 (9223372036854775807 - 0) + 1) = -9223372036854775808 ∧
      randomInt defaultController 0 9223372036854775807 = none := by
  refine ⟨by decide, by decide, rfl⟩

/-- C17, amended: for `int` arguments, if `low <= high` and `high - low + 1` fits an `int`, then
`randomInt(low, high)` returns an `r` with `low <= r <= high`; if `high <= low` it returns
`low` and draws nothing. -/
theorem randomInt_within (c : Controller) (min max : Int)
    (hmin : -9223372036854775808 ≤ min ∧ min < 9223372036854775808)
    (hmax : -9223372036854775808 ≤ max ∧ max < 9223372036854775808) :
    (min ≤ max → max - min < 9223372036854775807 →
      ∃ r c1, randomInt c min max = some (r, c1) ∧ min ≤ r ∧ r ≤ max ∧ c1.cfg = c.cfg) ∧
    (max ≤ min → randomInt c min max = some (min, c)) := by
  constructor
  · intro hle hfit
    obtain ⟨r, c1, h, hc, hr, _⟩ := randomInt_spec c min max hmin.1 hmax.2 hfit
    exact ⟨r, c1, h, (hr hle).1, (hr hle).2, hc⟩
  · intro h
    simp [randomInt, h]

theorem randomInt_within_witness :
    (∃ r c1, randomInt defaultController 280 820 = some (r, c1) ∧ 280 ≤ r ∧ r ≤ 820 ∧
        c1.cfg = defaultController.cfg) ∧
      randomInt defaultController 45 45 = some (45, defaultController) :=
  ⟨(randomInt_within defaultController 280 820 (by decide) (by decide)).1 (by decide)
      (by decide),
    (randomInt_within defaultController 45 45 (by decide) (by decide)).2 (by decide)⟩

/-- C18: `rollPercent(p)` is false for `p <= 0` and true for `p >= 100`, without a draw; for
`0 < p < 100` it is true exactly when the draw `d`, a value from 0 to 99, is below `p`. -/
theorem rollPercent_spec (c : Controller) (p : Int) :
    (p ≤ 0 → rollPercent c p = some (false, c)) ∧
    (100 ≤ p → rollPercent c p = some (true, c)) ∧
    (0 < p → p < 100 →
      ∃ d rng1, c.rng.Intn 100 = some (d, rng1) ∧ 0 ≤ d ∧ d < 100 ∧
        rollPercent c p = some (decide (d < p), { c with rng := rng1 })) := by
  refine ⟨?_, ?_, ?_⟩
  · intro h
    simp [rollPercent, h]
  · intro h
    have h1 : ¬ p ≤ 0 := by omega
    simp [rollPercent, h, h1]
  · intro h0 h1
    obtain ⟨d, rng1, hd, hd0, hd1, _⟩ := Intn_some c.rng 100 (by omega)
    refine ⟨d, rng1, hd, hd0, hd1, ?_⟩
    have h2 : ¬ p ≤ 0 := by omega
    have h3 : ¬ p ≥ 100 := by omega
    simp only [rollPercent, h2, h3, if_false, hd]

theorem rollPercent_spec_witness :
    rollPercent defaultController 0 = some (false, defaultController) ∧
      rollPercent defaultController 100 = some (true, defaultController) ∧
      ∃ d rng1, defaultController.rng.Intn 100 = some (d, rng1) ∧ 0 ≤ d ∧ d < 100 ∧
        rollPercent defaultController 15 =
          some (decide (d < 15), { defaultController with rng := rng1 }) :=
  ⟨(rollPercent_spec defaultController 0).1 (by decide),
    (rollPercent_spec defaultController 100).2.1 (by decide),
    (rollPercent_spec defaultController 15).2.2 (by decide) (by decide)⟩

/-- C19, the claim as worded fails: with a mouse jitter of `2^62` the span of the first
control draw does not fit an `int`, `Intn` panics and `buildPath` builds no path. -/
theorem buildPath_wide_jitter_panics :
    wideJitterController.cfg.MouseMoveJitter = 4611686018427387904 ∧
      randomInt wideJitterController (wrapInt64 (-40 - 4611686018427387904))
        (wrapInt64 (40 + 4611686018427387904)) = none ∧
      buildPath approxMath wideJitterController ⟨0, 0⟩ ⟨300, 400⟩ = none := by
  refine ⟨rfl, rfl, rfl⟩

/-- C19, amended: for any two points, any state of the random source and any mouse jitter up
to `2^62 - 41`, `buildPath` returns a path made of `steps + 1` curve samples, one overshoot
step of 14 ms and three settle steps of 12 ms, where `steps` is the count of line 51, between
18 and 64; so the path has `steps + 5` steps, between 23 and 69. -/
theorem buildPath_length (math : MathLib) (c : Controller) (source target : Point)
    (hj : c.cfg.MouseMoveJitter ≤ 4611686018427387863) :
    ∃ curve o s1 s2 s3 c5,
      buildPath math c source target = some (curve ++ [o, s1, s2, s3], c5) ∧
      (curve.length : Int) = pathSteps math source target + 1 ∧
      (18 ≤ pathSteps math source target ∧ pathSteps math source target ≤ 64) ∧
      o.Delay = 14 * Millisecond ∧
      (s1.Delay = 12 * Millisecond ∧ s2.Delay = 12 * Millisecond ∧
        s3.Delay = 12 * Millisecond) ∧
      ((curve ++ [o, s1, s2, s3]).length : Int) = pathSteps math source target + 5 ∧
      23 ≤ (curve ++ [o, s1, s2, s3]).length ∧ (curve ++ [o, s1, s2, s3]).length ≤ 69 := by
  obtain ⟨path, c5, h⟩ := buildPath_some math c source target hj
  obtain ⟨curve, o, settle, p1, p2, c2, c3, c4, hcurve, hsettle, ho, hpath⟩ :=
    buildPath_shape math c source target path c5 h
  obtain ⟨l, c3a, hl, hlen, _⟩ := curveSteps_spec math source p1 p2 target
    (pathSteps math source target) (pathSteps math source target + 1).toNat 0 c2
  rw [hcurve] at hl
  simp only [Option.some.injEq, Prod.mk.injEq] at hl
  obtain ⟨rfl, _⟩ := hl
  obtain ⟨l2, c5a, hl2, hlen2, _, hd⟩ := settleSteps_spec target 3 c4
  rw [hsettle] at hl2
  simp only [Option.some.injEq, Prod.mk.injEq] at hl2
  obtain ⟨rfl, _⟩ := hl2
  have hr := pathSteps_range math source target
  match settle, hlen2, hd with
  | [s1, s2, s3], _, hd =>
    refine ⟨curve, o, s1, s2, s3, c5, by rw [h, hpath], ?_, hr, ho,
      ⟨(hd s1 (by simp)).2, (hd s2 (by simp)).2, (hd s3 (by simp)).2⟩, ?_, ?_, ?_⟩
    · rw [hlen]; omega
    · simp only [List.length_append, List.length_cons, List.length_nil, hlen]; omega
    · simp only [List.length_append, List.length_cons, List.length_nil, hlen]; omega
    · simp only [List.length_append, List.length_cons, List.length_nil, hlen]; omega

theorem buildPath_length_witness :
    ∃ curve o s1 s2 s3 c5,
      buildPath approxMath defaultController ⟨0, 0⟩ ⟨300, 400⟩ =
        some (curve ++ [o, s1, s2, s3], c5) ∧
      (curve.length : Int) = pathSteps approxMath ⟨0, 0⟩ ⟨300, 400⟩ + 1 ∧
      (18 ≤ pathSteps approxMath ⟨0, 0⟩ ⟨300, 400⟩ ∧
        pathSteps approxMath ⟨0, 0⟩ ⟨300, 400⟩ ≤ 64) ∧
      o.Delay = 14 * Millisecond ∧
      (s1.Delay = 12 * Millisecond ∧ s2.Delay = 12 * Millisecond ∧
        s3.Delay = 12 * Millisecond) ∧
      ((curve ++ [o, s1, s2, s3]).length : Int) = pathSteps approxMath ⟨0, 0⟩ ⟨300, 400⟩ + 5 ∧
      23 ≤ (curve ++ [o, s1, s2, s3]).length ∧ (curve ++ [o, s1, s2, s3]).length ≤ 69 :=
  buildPath_length approxMath defaultController ⟨0, 0⟩ ⟨300, 400⟩ (by decide)

end Stealth

namespace Retry

/-- C26: with a policy whose `Attempts` is zero or negative and a context that is alive on
entry, `Do` does what it does with `Attempts = 1`: one check of the context, one invocation of
the attempt function, with attempt number 1, whose result (nil or the error) is returned as
is; the trace holds nothing else, so no observer call and no backoff sleep. -/
theorem Do_nonpositive_attempts (env : Env) (policy : Policy)
    (hA : policy.Attempts ≤ 0) (hctx : env.ctxErr [] = none) :
    Do env policy = Do env { policy with Attempts := 1 } ∧
      Do env policy =
        (env.fn [Event.ctxErr none] 1,
          [Event.ctxErr none, Event.call 1 (env.fn [Event.ctxErr none] 1)]) ∧
      calls (Do env policy).2 = [1] := by
  have key : ∀ p : Policy, (normalize p).Attempts = 1 →
      Do env p = (env.fn [Event.ctxErr none] 1,
          [Event.ctxErr none, Event.call 1 (env.fn [Event.ctxErr none] 1)]) := by
    intro p hp
    simp only [Do, hp]
    show doLoop env (normalize p) 1 1 [] = _
    simp only [doLoop, hp, le_refl, if_true, body, hctx, List.nil_append]
    cases hfn : env.fn [Event.ctxErr none] 1 with
    | none => simp
    | some err =>
      by_cases hc : isCancellation err = true
      · simp [hc]
      · simp [hc]
  have h0 : (normalize policy).Attempts = 1 := by simp [normalize, hA]
  have h1 : (normalize { policy with Attempts := 1 }).Attempts = 1 := by simp [normalize]
  refine ⟨by rw [key _ h0, key _ h1], key _ h0, ?_⟩
  rw [key _ h0]
  simp [calls]

theorem Do_nonpositive_attempts_witness :
    Do envAlwaysFail negativeAttemptsPolicy =
        Do envAlwaysFail { negativeAttemptsPolicy with Attempts := 1 } ∧
      Do envAlwaysFail negativeAttemptsPolicy =
        (envAlwaysFail.fn [Event.ctxErr none] 1,
          [Event.ctxErr none, Event.call 1 (envAlwaysFail.fn [Event.ctxErr none] 1)]) ∧
      calls (Do envAlwaysFail negativeAttemptsPolicy).2 = [1] :=
  Do_nonpositive_attempts envAlwaysFail negativeAttemptsPolicy (by decide) rfl

end Retry

namespace Stealth

open GoTime

/-- C27: a scheduler whose start hour is greater than its end hour (hours that do not overflow
a duration, as is every hour from 0 to 23 that the validation of the configuration lets
through) is never open: `IsWithinWindow` is false at every instant, whatever the weekdays and
the breaks. -/
theorem IsWithinWindow_start_after_end (s : Scheduler) (now : Time)
    (hs : -2562047 ≤ s.cfg.StartHour ∧ s.cfg.StartHour ≤ 2562047)
    (he : -2562047 ≤ s.cfg.EndHour ∧ s.cfg.EndHour ≤ 2562047)
    (h : s.cfg.StartHour > s.cfg.EndHour) :
    IsWithinWindow s now = false := by
  have h1 : wrapInt64 (s.cfg.StartHour * GoTime.Hour) = s.cfg.StartHour * GoTime.Hour := by
    apply wrapInt64_of_small <;> simp only [GoTime.Hour, GoTime.Minute, GoTime.Second] <;> omega
  have h2 : wrapInt64 (s.cfg.EndHour * GoTime.Hour) = s.cfg.EndHour * GoTime.Hour := by
    apply wrapInt64_of_small <;> simp only [GoTime.Hour, GoTime.Minute, GoTime.Second] <;> omega
  have hw : timeOfDay now < s.cfg.StartHour * GoTime.Hour ∨
      timeOfDay now > s.cfg.EndHour * GoTime.Hour := by
    simp only [GoTime.Hour, GoTime.Minute, GoTime.Second]
    omega
  simp only [IsWithinWindow, h1, h2, hw, if_true]
  split <;> rfl

theorem IsWithinWindow_start_after_end_witness :
    IsWithinWindow backwardsHours wednesdayEleven = false :=
  IsWithinWindow_start_after_end backwardsHours wednesdayEleven (by decide) (by decide)
    (by decide)

end Stealth

namespace Stealth

open GoTime

/-- A break end that `breakEnd` returns is later than `current`. -/
theorem breakEnd_some_after (start current t : Time) (breaks : List timeRange)
    (h : breakEnd start current breaks = some t) : current.nanos < t.nanos := by
  induction breaks with
  | nil => cases h
  | cons br rest ih =>
    unfold breakEnd at h
    split at h
    · rename_i hc
      simp only [Bool.and_eq_true] at hc
      simp only [Option.some.injEq] at h
      subst h
      exact (Before_iff_nanos _ _).mp hc.2
    · exact ih h

theorem Weekday_range (t : Time) : 0 ≤ t.Weekday ∧ t.Weekday ≤ 6 := by
  simp only [Time.Weekday]
  omega

/-- With no weekday allowed, the scan skips every day and gives `now + 24h`. -/
theorem nextWindowLoop_no_day (s : Scheduler) (now : Time)
    (h : ∀ d : Int, 0 ≤ d → d ≤ 6 → d ∉ s.cfg.BusinessDays) :
    ∀ (fuel : Nat) (current : Time),
      nextWindowLoop s now fuel current = now.Add (24 * GoTime.Hour) := by
  intro fuel
  induction fuel with
  | zero => intro current; rfl
  | succ fuel ih =>
    intro current
    have hw : containsInt s.cfg.BusinessDays current.Weekday = false := by
      rw [← Bool.not_eq_true, containsInt_iff]
      exact h _ (Weekday_range current).1 (Weekday_range current).2
    rw [nextWindowLoop_closed s now current fuel hw]
    exact ih _

/-- In a zone of constant offset, with a start hour that is not negative, the scan never goes
back behind `now`. -/
theorem nextWindowLoop_not_before (s : Scheduler) (c : Int) (hloc : ∀ t, s.loc.offsetAt t = c)
    (hstart : 0 ≤ s.cfg.StartHour) (now : Time) :
    ∀ (fuel : Nat) (current : Time), current.loc = s.loc → now.nanos ≤ current.nanos →
      now.nanos ≤ (nextWindowLoop s now fuel current).nanos := by
  intro fuel
  induction fuel with
  | zero =>
    intro current _ _
    simp only [nextWindowLoop, Add_nanos, GoTime.Hour, GoTime.Minute, GoTime.Second]
    omega
  | succ fuel ih =>
    intro current hcl hge
    have hnext : now.nanos ≤
        ((Date current.dayNumber s.cfg.StartHour s.loc).Add (24 * GoTime.Hour)).nanos := by
      have hn := current.nsec.isLt
      rw [Add_nanos, Date_of_fixed s.loc c hloc]
      simp only [Time.nanos, Time.dayNumber, Time.localSec, hcl, hloc, GoTime.Hour,
        GoTime.Minute, GoTime.Second, Fin.val_zero] at hge ⊢
      omega
    have hnloc : ((Date current.dayNumber s.cfg.StartHour s.loc).Add (24 * GoTime.Hour)).loc =
        s.loc := rfl
    rw [nextWindowLoop]
    split
    · simp only
      split
      · rename_i hb
        have := (Before_iff_nanos _ _).mp hb
        omega
      · split
        · exact ih _ hnloc hnext
        · split
          · rename_i t ht
            have := breakEnd_some_after _ _ _ _ ht
            omega
          · exact hge
    · exact ih _ hnloc hnext

/-- C28, what the code does: in a zone that moves its clocks back on Sunday 3 November,
with every day allowed from 0 to 23, `NextWindow` at 23:30 that Sunday returns 23:00 of the same
Sunday, half an hour in the past: 24 hours after the midnight that started this day of 25
hours. -/
theorem NextWindow_in_the_past :
    NewScheduler loadFall roundTheClockConfig = some roundTheClock ∧
      (NextWindow roundTheClock (sundayLateFall.In roundTheClock.loc)).nanos <
        (sundayLateFall.In roundTheClock.loc).nanos ∧
      (sundayLateFall.In roundTheClock.loc).Hour = 23 ∧
      (sundayLateFall.In roundTheClock.loc).Minute = 30 ∧
      (NextWindow roundTheClock (sundayLateFall.In roundTheClock.loc)).Hour = 23 ∧
      (NextWindow roundTheClock (sundayLateFall.In roundTheClock.loc)).Minute = 0 ∧
      (NextWindow roundTheClock (sundayLateFall.In roundTheClock.loc)).dayNumber =
        (sundayLateFall.In roundTheClock.loc).dayNumber := by
  refine ⟨rfl, by decide, by decide, by decide, by decide, by decide, by decide⟩

/-- In a timezone of constant offset and with a start hour that is not negative
(as validation ensures), for every weekday set, every end hour, all breaks and every instant
`now` read in the configured timezone, `NextWindow(now)` is not before `now`; the scan runs at
most 8 iterations, and when no weekday is allowed the result is `now + 24h`, in any
timezone. -/
theorem NextWindow_not_before_now (s : Scheduler) (now : Time) :
    (∀ c : Int, (∀ t, s.loc.offsetAt t = c) → 0 ≤ s.cfg.StartHour →
      now.nanos ≤ (NextWindow s (now.In s.loc)).nanos) ∧
    ((∀ d : Int, 0 ≤ d → d ≤ 6 → d ∉ s.cfg.BusinessDays) →
      NextWindow s now = now.Add (24 * GoTime.Hour)) ∧
    NextWindow s now = nextWindowLoop s now 8 now := by
  refine ⟨?_, ?_, rfl⟩
  · intro c hloc hstart
    exact nextWindowLoop_not_before s c hloc hstart (now.In s.loc) 8 (now.In s.loc) rfl
      (le_refl _)
  · intro h
    exact nextWindowLoop_no_day s now h 8 now

theorem NextWindow_not_before_now_witness :
    wednesdayEleven.nanos ≤ (NextWindow backwardsHours (wednesdayEleven.In backwardsHours.loc)).nanos ∧
      NextWindow noDays saturdayTen = saturdayTen.Add (24 * GoTime.Hour) :=
  ⟨(NextWindow_not_before_now backwardsHours wednesdayEleven).1 0 (fun _ => rfl) (by decide),
    (NextWindow_not_before_now noDays saturdayTen).2.1 (by decide)⟩

end Stealth

namespace Stealth

open GoTime

/-- Whenever `randomInt` returns for `int` arguments, the value is `min` when `max <= min` and
lies in `[min, max]` otherwise: a span that overflows makes `Intn` panic, it never gives a
value out of range. -/
theorem randomInt_of_some (c c1 : Controller) (min max r : Int)
    (hmin : -9223372036854775808 ≤ min ∧ min < 9223372036854775808)
    (hmax : -9223372036854775808 ≤ max ∧ max < 9223372036854775808)
    (h : randomInt c min max = some (r, c1)) :
    c1.cfg = c.cfg ∧ (max ≤ min → r = min ∧ c1 = c) ∧ (min < max → min ≤ r ∧ r ≤ max) := by
  unfold randomInt at h
  split at h
  · rename_i hle
    simp only [Option.some.injEq, Prod.mk.injEq] at h
    obtain ⟨rfl, rfl⟩ := h
    exact ⟨rfl, fun _ => ⟨rfl, rfl⟩, fun hlt => absurd hle (not_le.mpr hlt)⟩
  · rename_i hle
    split at h
    · cases h
    · rename_i r1 rng1 hr
      simp only [Option.some.injEq, Prod.mk.injEq] at h
      obtain ⟨rfl, rfl⟩ := h
      unfold Rng.Intn at hr
      split at hr
      · cases hr
      · rename_i hn
        simp only [Option.some.injEq, Prod.mk.injEq] at hr
        obtain ⟨hr1, _⟩ := hr
        have hmod0 := Int.emod_nonneg (c.rng.raw 0 : Int)
          (show wrapInt64 (wrapInt64 (max - min) + 1) ≠ 0 by omega)
        have hmod1 := Int.emod_lt_of_pos (c.rng.raw 0 : Int)
          (show 0 < wrapInt64 (wrapInt64 (max - min) + 1) by omega)
        rw [hr1] at hmod0 hmod1
        refine ⟨rfl, fun h1 => absurd h1 hle, fun _ => ?_⟩
        unfold wrapInt64 at hn hmod1 ⊢
        omega

theorem offsetPoint_of_some (c c2 : Controller) (base p : Point) (lo hi : Int)
    (h : offsetPoint c base lo hi = some (p, c2)) :
    ∃ (dx dy : Int) (c1 : Controller), randomInt c lo hi = some (dx, c1) ∧
      randomInt c1 lo hi = some (dy, c2) ∧ p = ⟨base.X + (dx : ℚ), base.Y + (dy : ℚ)⟩ := by
  unfold offsetPoint at h
  split at h
  · cases h
  · rename_i dx c1 h1
    split at h
    · cases h
    · rename_i dy c2a h2
      simp only [Option.some.injEq, Prod.mk.injEq] at h
      obtain ⟨rfl, rfl⟩ := h
      exact ⟨dx, dy, c1, h1, h2, rfl⟩

/-- Every step of the first loop of `buildPath` is the point of the curve at `k / steps` for an
index `k` of the loop. -/
theorem curveSteps_mem (math : MathLib) (p0 p1 p2 p3 : Point) (steps : Int) (left : Nat) :
    ∀ (i : Int) (c : Controller) (l : List mouseStep) (c1 : Controller),
      curveSteps math p0 p1 p2 p3 steps left i c = some (l, c1) →
      ∀ s ∈ l, ∃ k : Int, i ≤ k ∧ k < i + left ∧
        s.X = (cubicBezier p0 p1 p2 p3 ((k : ℚ) / (steps : ℚ))).X ∧
        s.Y = (cubicBezier p0 p1 p2 p3 ((k : ℚ) / (steps : ℚ))).Y := by
  induction left with
  | zero =>
    intro i c l c1 h s hs
    simp only [curveSteps, Option.some.injEq, Prod.mk.injEq] at h
    obtain ⟨rfl, _⟩ := h
    cases hs
  | succ left ih =>
    intro i c l c1 h s hs
    unfold curveSteps at h
    simp only at h
    split at h
    · cases h
    · rename_i r c2 _
      split at h
      · cases h
      · rename_i rest c3 hrest
        simp only [Option.some.injEq, Prod.mk.injEq] at h
        obtain ⟨rfl, _⟩ := h
        rcases List.mem_cons.mp hs with h1 | h1
        · subst h1
          exact ⟨i, le_refl _, by push_cast; omega, rfl, rfl⟩
        · obtain ⟨k, hk0, hk1, hx, hy⟩ := ih (i + 1) c2 rest c3 hrest s h1
          exact ⟨k, by omega, by push_cast at hk1 ⊢; omega, hx, hy⟩

/-- A combination of four values with weights that are not negative and sum to 1 stays
between any bounds the four values keep. -/
theorem convex_four (w0 w1 w2 w3 a b c d L U : ℚ) (h0 : 0 ≤ w0) (h1 : 0 ≤ w1) (h2 : 0 ≤ w2)
    (h3 : 0 ≤ w3) (hsum : w0 + w1 + w2 + w3 = 1) (ha : L ≤ a ∧ a ≤ U) (hb : L ≤ b ∧ b ≤ U)
    (hc : L ≤ c ∧ c ≤ U) (hd : L ≤ d ∧ d ≤ U) :
    L ≤ w0 * a + w1 * b + w2 * c + w3 * d ∧ w0 * a + w1 * b + w2 * c + w3 * d ≤ U := by
  have e1 := mul_nonneg h0 (sub_nonneg.mpr ha.1)
  have e2 := mul_nonneg h1 (sub_nonneg.mpr hb.1)
  have e3 := mul_nonneg h2 (sub_nonneg.mpr hc.1)
  have e4 := mul_nonneg h3 (sub_nonneg.mpr hd.1)
  have f1 := mul_nonneg h0 (sub_nonneg.mpr ha.2)
  have f2 := mul_nonneg h1 (sub_nonneg.mpr hb.2)
  have f3 := mul_nonneg h2 (sub_nonneg.mpr hc.2)
  have f4 := mul_nonneg h3 (sub_nonneg.mpr hd.2)
  have hL : L * (w0 + w1 + w2 + w3) = L := by rw [hsum, mul_one]
  have hU : U * (w0 + w1 + w2 + w3) = U := by rw [hsum, mul_one]
  constructor <;> nlinarith

/-- For `0 <= t <= 1` each coordinate of the point of the curve stays between any bounds the
four control values keep. -/
theorem cubicBezier_between (p0 p1 p2 p3 : Point) (t : ℚ) (ht0 : 0 ≤ t) (ht1 : t ≤ 1)
    (LX UX LY UY : ℚ)
    (hx0 : LX ≤ p0.X ∧ p0.X ≤ UX) (hx1 : LX ≤ p1.X ∧ p1.X ≤ UX)
    (hx2 : LX ≤ p2.X ∧ p2.X ≤ UX) (hx3 : LX ≤ p3.X ∧ p3.X ≤ UX)
    (hy0 : LY ≤ p0.Y ∧ p0.Y ≤ UY) (hy1 : LY ≤ p1.Y ∧ p1.Y ≤ UY)
    (hy2 : LY ≤ p2.Y ∧ p2.Y ≤ UY) (hy3 : LY ≤ p3.Y ∧ p3.Y ≤ UY) :
    (LX ≤ (cubicBezier p0 p1 p2 p3 t).X ∧ (cubicBezier p0 p1 p2 p3 t).X ≤ UX) ∧
      (LY ≤ (cubicBezier p0 p1 p2 p3 t).Y ∧ (cubicBezier p0 p1 p2 p3 t).Y ≤ UY) := by
  have hu : 0 ≤ 1 - t := by linarith
  have w0 : 0 ≤ (1 - t) * (1 - t) * (1 - t) := mul_nonneg (mul_nonneg hu hu) hu
  have w1 : 0 ≤ 3 * ((1 - t) * (1 - t)) * t :=
    mul_nonneg (mul_nonneg (by norm_num) (mul_nonneg hu hu)) ht0
  have w2 : 0 ≤ 3 * (1 - t) * (t * t) :=
    mul_nonneg (mul_nonneg (by norm_num) hu) (mul_nonneg ht0 ht0)
  have w3 : 0 ≤ t * t * t := mul_nonneg (mul_nonneg ht0 ht0) ht0
  have hsum : (1 - t) * (1 - t) * (1 - t) + 3 * ((1 - t) * (1 - t)) * t +
      3 * (1 - t) * (t * t) + t * t * t = 1 := by ring
  exact ⟨convex_four _ _ _ _ _ _ _ _ LX UX w0 w1 w2 w3 hsum hx0 hx1 hx2 hx3,
    convex_four _ _ _ _ _ _ _ _ LY UY w0 w1 w2 w3 hsum hy0 hy1 hy2 hy3⟩

/-- The parts `buildPath` puts a returned path together from. -/
theorem buildPath_parts (math : MathLib) (c : Controller) (source target : Point)
    (path : List mouseStep) (c5 : Controller)
    (h : buildPath math c source target = some (path, c5)) :
    ∃ control1 c1 control2 c2 curve c3 overshoot c4 settle,
      offsetPoint c
        ⟨source.X + (target.X - source.X) * (3 / 10), source.Y + (target.Y - source.Y) * (3 / 10)⟩
        (wrapInt64 (-40 - (if c.cfg.MouseMoveJitter < 0 then 0 else c.cfg.MouseMoveJitter)))
        (wrapInt64 (40 + (if c.cfg.MouseMoveJitter < 0 then 0 else c.cfg.MouseMoveJitter))) =
          some (control1, c1) ∧
      offsetPoint c1
        ⟨source.X + (target.X - source.X) * (7 / 10), source.Y + (target.Y - source.Y) * (7 / 10)⟩
        (wrapInt64 (-40 - (if c.cfg.MouseMoveJitter < 0 then 0 else c.cfg.MouseMoveJitter)))
        (wrapInt64 (40 + (if c.cfg.MouseMoveJitter < 0 then 0 else c.cfg.MouseMoveJitter))) =
          some (control2, c2) ∧
      curveSteps math source control1 control2 target (pathSteps math source target)
        (pathSteps math source target + 1).toNat 0 c2 = some (curve, c3) ∧
      offsetPoint c3 target (-12) 12 = some (overshoot, c4) ∧
      settleSteps target 3 c4 = some (settle, c5) ∧
      path = curve ++ ⟨overshoot.X, overshoot.Y, 14 * Millisecond⟩ :: settle := by
  unfold buildPath at h
  simp only at h
  split at h
  · cases h
  · rename_i p1 c1 h1
    split at h
    · cases h
    · rename_i p2 c2 h2
      split at h
      · cases h
      · rename_i curve c3 hcurve
        split at h
        · cases h
        · rename_i o c4 ho
          split at h
          · cases h
          · rename_i settle c5a hsettle
            simp only [Option.some.injEq, Prod.mk.injEq] at h
            obtain ⟨rfl, rfl⟩ := h
            exact ⟨p1, c1, p2, c2, curve, c3, o, c4, settle, h1, h2, hcurve, ho, hsettle, rfl⟩

end Stealth

namespace Stealth

open GoTime

theorem wrapInt64_range (x : Int) :
    -9223372036854775808 ≤ wrapInt64 x ∧ wrapInt64 x < 9223372036854775808 := by
  unfold wrapInt64
  omega

/-- The draws for the control points stay within `40 + jitter` of zero for every jitter an
`int` can hold, also where the two bounds wrap around. -/
theorem control_offset_bound (j r : Int) (c c1 : Controller) (hj0 : 0 ≤ j)
    (hj1 : j < 9223372036854775808)
    (h : randomInt c (wrapInt64 (-40 - j)) (wrapInt64 (40 + j)) = some (r, c1)) :
    -(40 + j) ≤ r ∧ r ≤ 40 + j := by
  obtain ⟨_, h1, h2⟩ := randomInt_of_some c c1 _ _ r (wrapInt64_range _) (wrapInt64_range _) h
  by_cases hle : wrapInt64 (40 + j) ≤ wrapInt64 (-40 - j)
  · have := (h1 hle).1
    unfold wrapInt64 at this hle
    omega
  · have := h2 (not_le.mp hle)
    unfold wrapInt64 at this hle
    omega

/-- A point between `source` and `target`, moved by at most `m` along each axis, lies in their
bounding box widened by `m`. -/
theorem between_offset (a b f d m : ℚ) (hf0 : 0 ≤ f) (hf1 : f ≤ 1) (hd : -m ≤ d ∧ d ≤ m) :
    min a b - m ≤ a + (b - a) * f + d ∧ a + (b - a) * f + d ≤ max a b + m := by
  have h1 := min_le_left a b
  have h2 := min_le_right a b
  have h3 := le_max_left a b
  have h4 := le_max_right a b
  have e1 : min a b ≤ a + (b - a) * f := by nlinarith
  have e2 : a + (b - a) * f ≤ max a b := by nlinarith
  constructor <;> linarith

/-- C21: whenever `buildPath` returns a path, which it does for every mouse jitter up to
`2^62 - 41`, every step of the path lies in the bounding box of `from` and `to` widened on
every side by `40 + j`, where `j = max(0, MouseMoveJitter)`; coordinates are exact
rationals. -/
theorem buildPath_within_box (math : MathLib) (c : Controller) (source target : Point)
    (hint : -9223372036854775808 ≤ c.cfg.MouseMoveJitter ∧
      c.cfg.MouseMoveJitter < 9223372036854775808) :
    (c.cfg.MouseMoveJitter ≤ 4611686018427387863 →
      ∃ path c5, buildPath math c source target = some (path, c5)) ∧
    ∀ path c5, buildPath math c source target = some (path, c5) →
      ∀ s ∈ path, withinBox source target ((40 + max 0 c.cfg.MouseMoveJitter : Int) : ℚ) s := by
  refine ⟨buildPath_some math c source target, ?_⟩
  intro path c5 h s hs
  obtain ⟨control1, c1, control2, c2, curve, c3, overshoot, c4, settle, h1, h2, hcurve, ho,
    hsettle, hpath⟩ := buildPath_parts math c source target path c5 h
  obtain ⟨j, hjdef, hj0, hj1, hjmax⟩ : ∃ j : Int,
      (if c.cfg.MouseMoveJitter < 0 then 0 else c.cfg.MouseMoveJitter) = j ∧ 0 ≤ j ∧
        j < 9223372036854775808 ∧ max 0 c.cfg.MouseMoveJitter = j := by
    refine ⟨_, rfl, ?_, ?_, ?_⟩ <;> split <;> omega
  rw [hjdef] at h1 h2
  rw [hjmax]
  have hm40 : (40 : ℚ) ≤ ((40 + j : Int) : ℚ) := by exact_mod_cast (show (40 : Int) ≤ 40 + j by omega)
  -- the offsets of the two control points
  have hoff : ∀ (r : Int) (ca cb : Controller),
      randomInt ca (wrapInt64 (-40 - j)) (wrapInt64 (40 + j)) = some (r, cb) →
      -((40 + j : Int) : ℚ) ≤ (r : ℚ) ∧ (r : ℚ) ≤ ((40 + j : Int) : ℚ) := by
    intro r ca cb hr
    have := control_offset_bound j r ca cb hj0 hj1 hr
    constructor
    · have : (-(40 + j) : Int) ≤ r := this.1
      exact_mod_cast this
    · exact_mod_cast this.2
  obtain ⟨dx1, dy1, ca, hx1, hy1, rfl⟩ := offsetPoint_of_some _ _ _ _ _ _ h1
  obtain ⟨dx2, dy2, cb, hx2, hy2, rfl⟩ := offsetPoint_of_some _ _ _ _ _ _ h2
  have bx1 := between_offset source.X target.X (3 / 10) dx1 _ (by norm_num) (by norm_num)
    (hoff _ _ _ hx1)
  have by1 := between_offset source.Y target.Y (3 / 10) dy1 _ (by norm_num) (by norm_num)
    (hoff _ _ _ hy1)
  have bx2 := between_offset source.X target.X (7 / 10) dx2 _ (by norm_num) (by norm_num)
    (hoff _ _ _ hx2)
  have by2 := between_offset source.Y target.Y (7 / 10) dy2 _ (by norm_num) (by norm_num)
    (hoff _ _ _ hy2)
  have hsx : min source.X target.X - ((40 + j : Int) : ℚ) ≤ source.X ∧
      source.X ≤ max source.X target.X + ((40 + j : Int) : ℚ) :=
    ⟨by linarith [min_le_left source.X target.X], by linarith [le_max_left source.X target.X]⟩
  have hsy : min source.Y target.Y - ((40 + j : Int) : ℚ) ≤ source.Y ∧
      source.Y ≤ max source.Y target.Y + ((40 + j : Int) : ℚ) :=
    ⟨by linarith [min_le_left source.Y target.Y], by linarith [le_max_left source.Y target.Y]⟩
  have htx : min source.X target.X - ((40 + j : Int) : ℚ) ≤ target.X ∧
      target.X ≤ max source.X target.X + ((40 + j : Int) : ℚ) :=
    ⟨by linarith [min_le_right source.X target.X], by linarith [le_max_right source.X target.X]⟩
  have hty : min source.Y target.Y - ((40 + j : Int) : ℚ) ≤ target.Y ∧
      target.Y ≤ max source.Y target.Y + ((40 + j : Int) : ℚ) :=
    ⟨by linarith [min_le_right source.Y target.Y], by linarith [le_max_right source.Y target.Y]⟩
  -- a step at most `d <= 40` away from the target
  have hnear : ∀ (x y d : ℚ), d ≤ 40 → |x - target.X| ≤ d → |y - target.Y| ≤ d →
      withinBox source target ((40 + j : Int) : ℚ) ⟨x, y, 0⟩ := by
    intro x y d hd hx hy
    rw [abs_le] at hx hy
    refine ⟨⟨?_, ?_⟩, ⟨?_, ?_⟩⟩
    · show _ ≤ x
      linarith [min_le_right source.X target.X]
    · show x ≤ _
      linarith [le_max_right source.X target.X]
    · show _ ≤ y
      linarith [min_le_right source.Y target.Y]
    · show y ≤ _
      linarith [le_max_right source.Y target.Y]
  rw [hpath] at hs
  rcases List.mem_append.mp hs with hs | hs
  · -- a sample of the curve
    have hsteps := pathSteps_range math source target
    obtain ⟨k, hk0, hk1, hx, hy⟩ := curveSteps_mem math _ _ _ _ _ _ 0 c2 curve c3 hcurve s hs
    have hk2 : k ≤ pathSteps math source target := by
      have : ((pathSteps math source target + 1).toNat : Int) = pathSteps math source target + 1 :=
        Int.toNat_of_nonneg (by omega)
      omega
    have hpos : (0 : ℚ) < (pathSteps math source target : ℚ) := by
      exact_mod_cast (show (0 : Int) < pathSteps math source target by omega)
    have ht0 : (0 : ℚ) ≤ (k : ℚ) / (pathSteps math source target : ℚ) :=
      div_nonneg (by exact_mod_cast hk0) (le_of_lt hpos)
    have ht1 : (k : ℚ) / (pathSteps math source target : ℚ) ≤ 1 := by
      rw [div_le_one hpos]
      exact_mod_cast hk2
    have hb := cubicBezier_between source
      ⟨source.X + (target.X - source.X) * (3 / 10) + (dx1 : ℚ),
        source.Y + (target.Y - source.Y) * (3 / 10) + (dy1 : ℚ)⟩
      ⟨source.X + (target.X - source.X) * (7 / 10) + (dx2 : ℚ),
        source.Y + (target.Y - source.Y) * (7 / 10) + (dy2 : ℚ)⟩
      target _ ht0 ht1 _ _ _ _ hsx bx1 bx2 htx hsy by1 by2 hty
    unfold withinBox
    rw [hx, hy]
    exact hb
  · rcases List.mem_cons.mp hs with hs | hs
    · -- the overshoot step
      subst hs
      obtain ⟨dx, dy, cc, hdx, hdy, rfl⟩ := offsetPoint_of_some _ _ _ _ _ _ ho
      obtain ⟨_, _, hrx⟩ := randomInt_of_some _ _ _ _ _ (by omega) (by omega) hdx
      obtain ⟨_, _, hry⟩ := randomInt_of_some _ _ _ _ _ (by omega) (by omega) hdy
      have hrx := hrx (by omega)
      have hry := hry (by omega)
      refine hnear _ _ 12 (by norm_num) ?_ ?_
      · simp only [add_sub_cancel_left]
        rw [abs_le]
        constructor
        · have : ((-12 : Int) : ℚ) ≤ (dx : ℚ) := by exact_mod_cast hrx.1
          simpa using this
        · have : (dx : ℚ) ≤ ((12 : Int) : ℚ) := by exact_mod_cast hrx.2
          simpa using this
      · simp only [add_sub_cancel_left]
        rw [abs_le]
        constructor
        · have : ((-12 : Int) : ℚ) ≤ (dy : ℚ) := by exact_mod_cast hry.1
          simpa using this
        · have : (dy : ℚ) ≤ ((12 : Int) : ℚ) := by exact_mod_cast hry.2
          simpa using this
    · -- a settle step
      obtain ⟨l2, c5a, hl2, _, _, hd⟩ := settleSteps_spec target 3 c4
      rw [hsettle] at hl2
      simp only [Option.some.injEq, Prod.mk.injEq] at hl2
      obtain ⟨rfl, _⟩ := hl2
      have hn := (hd s hs).1
      exact hnear s.X s.Y 2 (by norm_num) hn.1 hn.2

theorem buildPath_within_box_witness :
    ∃ path c5, buildPath approxMath defaultController ⟨0, 0⟩ ⟨300, 400⟩ = some (path, c5) ∧
      ∀ s ∈ path, withinBox ⟨0, 0⟩ ⟨300, 400⟩ ((40 + max 0 3 : Int) : ℚ) s :=
  match (buildPath_within_box approxMath defaultController ⟨0, 0⟩ ⟨300, 400⟩
      (by decide)).1 (by decide) with
  | ⟨path, c5, h⟩ =>
    ⟨path, c5, h,
      (buildPath_within_box approxMath defaultController ⟨0, 0⟩ ⟨300, 400⟩
        (by decide)).2 path c5 h⟩

end Stealth

namespace Store

open GoTime

/-- The count over the entries of a map whose key is not in `keys`. -/
theorem countRequests_mapSet (since : Time) (key : String) (value : RequestRecord)
    (keys : List String) (m : List (String × RequestRecord))
    (hm : (m.map Prod.fst).Nodup) :
    countRequests since ((mapSet key value m).filter (fun entry => decide (entry.1 ∉ keys))) =
      (if key ∉ keys ∧ value.SentAt.After since = true then 1 else 0) +
        countRequests since (m.filter (fun entry => decide (entry.1 ∉ key :: keys))) := by
  induction m with
  | nil =>
    by_cases hk : key ∈ keys
    · simp [mapSet, hk, countRequests]
    · by_cases ha : value.SentAt.After since = true
      · simp [mapSet, hk, countRequests, ha]
      · simp [mapSet, hk, countRequests, ha]
  | cons entry rest ih =>
    simp only [List.map_cons, List.nodup_cons] at hm
    by_cases he : entry.1 = key
    · have hrest : rest.filter (fun entry => decide (entry.1 ∉ key :: keys)) =
          rest.filter (fun entry => decide (entry.1 ∉ keys)) := by
        apply List.filter_congr
        intro x hx
        have : x.1 ≠ key := by
          intro h
          apply hm.1
          rw [he, ← h]
          exact List.mem_map_of_mem _ hx
        simp [this]
      have hq : decide (entry.1 ∉ key :: keys) = false := by simp [he]
      simp only [mapSet, he, if_true]
      rw [List.filter_cons, List.filter_cons, hrest]
      simp only [hq, Bool.false_eq_true, if_false]
      by_cases hk : key ∈ keys
      · have hp : decide (key ∉ keys) = false := by simp [hk]
        simp only [hp, Bool.false_eq_true, if_false, hk, not_true_eq_false, false_and, zero_add,
          decide_False]
      · have hp : decide (key ∉ keys) = true := by simp [hk]
        simp only [hp, if_true, hk, not_false_eq_true, true_and, countRequests, decide_True]
        split <;> ring
    · simp only [mapSet, he, if_false]
      rw [List.filter_cons, List.filter_cons]
      by_cases hk : entry.1 ∈ keys
      · have hp : decide (entry.1 ∉ keys) = false := by simp [hk]
        have hq : decide (entry.1 ∉ key :: keys) = false := by simp [hk]
        simp only [hp, hq, Bool.false_eq_true, if_false]
        exact ih hm.2
      · have hp : decide (entry.1 ∉ keys) = true := by simp [hk]
        have hq : decide (entry.1 ∉ key :: keys) = true := by simp [hk, he]
        simp only [hp, hq, if_true, countRequests]
        rw [ih hm.2]
        split <;> ring

theorem mem_mapSet_keys (key : String) (value : RequestRecord) (x : String)
    (m : List (String × RequestRecord)) :
    x ∈ (mapSet key value m).map Prod.fst ↔ x = key ∨ x ∈ m.map Prod.fst := by
  induction m with
  | nil => simp [mapSet]
  | cons entry rest ih =>
    by_cases he : entry.1 = key
    · simp only [mapSet, he, if_true, List.map_cons, List.mem_cons]
      tauto
    · simp only [mapSet, he, if_false, List.map_cons, List.mem_cons, ih]
      tauto

/-- The assignment keeps one entry per key. -/
theorem mapSet_nodup (key : String) (value : RequestRecord) (m : List (String × RequestRecord))
    (hm : (m.map Prod.fst).Nodup) : ((mapSet key value m).map Prod.fst).Nodup := by
  induction m with
  | nil => simp [mapSet]
  | cons entry rest ih =>
    simp only [List.map_cons, List.nodup_cons] at hm
    by_cases he : entry.1 = key
    · simp only [mapSet, he, if_true, List.map_cons, List.nodup_cons]
      exact ⟨he ▸ hm.1, hm.2⟩
    · rw [show mapSet key value (entry :: rest) = entry :: mapSet key value rest from by
        simp only [mapSet, he, if_false]]
      rw [List.map_cons, List.nodup_cons, mem_mapSet_keys]
      refine ⟨?_, ih hm.2⟩
      rintro (h | h)
      · exact he h
      · exact hm.1 h

/-- The count after a sequence of calls: the calls that no later call for the same profile
followed, and the earlier entries of profiles that no call names. -/
theorem countRequests_markAll (since : Time) (calls : List SentCall) :
    ∀ s : Storage, (s.state.SentRequests.map Prod.fst).Nodup →
      countRequests since (markAll s calls).state.SentRequests =
        sentAfter since (lastPerProfile calls) +
          countRequests since (s.state.SentRequests.filter
            (fun entry => decide (entry.1 ∉ calls.map SentCall.ProfileURL))) := by
  induction calls with
  | nil =>
    intro s _
    simp [markAll, sentAfter, lastPerProfile]
  | cons call rest ih =>
    intro s hs
    have hs1 : ((MarkRequestSent s call.At call.ProfileURL call.Note).state.SentRequests.map
        Prod.fst).Nodup := mapSet_nodup _ _ _ hs
    rw [markAll, ih _ hs1]
    simp only [MarkRequestSent]
    rw [countRequests_mapSet since _ _ _ _ hs]
    simp only [List.map_cons]
    by_cases hk : call.ProfileURL ∈ rest.map SentCall.ProfileURL
    · simp [lastPerProfile, hk]
    · by_cases ha : call.At.After since = true
      · simp only [lastPerProfile, hk, if_false, sentAfter, List.filter_cons, ha, if_true,
          not_false_eq_true, and_self, List.length_cons]
        push_cast
        ring
      · simp only [lastPerProfile, hk, if_false, sentAfter, List.filter_cons, ha,
          not_false_eq_true, and_false, zero_add]
        simp

theorem lastPerProfile_of_nodup (calls : List SentCall)
    (h : (calls.map SentCall.ProfileURL).Nodup) : lastPerProfile calls = calls := by
  induction calls with
  | nil => rfl
  | cons call rest ih =>
    simp only [List.map_cons, List.nodup_cons] at h
    simp only [lastPerProfile, h.1, if_false, ih h.2]

/-- C29, the claim as worded fails: two requests to the same profile, both after the cutoff,
are two recorded events, and `CountRequestsSince` gives 1: the second call replaced the entry
of the first in the map keyed by the profile URL. -/
theorem CountRequestsSince_repeated_profile :
    (CountRequestsSince (markAll (New tuesdayEleven) sameProfileTwice) tuesdayEleven).1 = 1 ∧
      sentAfter tuesdayEleven sameProfileTwice = 2 := by
  refine ⟨by decide, by decide⟩

/-- C29, amended: after any sequence of `MarkRequestSent` calls on a store that started empty,
`CountRequestsSince(cutoff)` is the number of calls with a timestamp strictly after the cutoff
among those that no later call for the same profile URL followed (one per profile URL, the
latest); when no profile URL is repeated this is the number of all calls with a timestamp
strictly after the cutoff. -/
theorem CountRequestsSince_after_marks (clock cutoff : Time) (calls : List SentCall) :
    (CountRequestsSince (markAll (New clock) calls) cutoff).1 =
        sentAfter cutoff (lastPerProfile calls) ∧
      ((calls.map SentCall.ProfileURL).Nodup →
        (CountRequestsSince (markAll (New clock) calls) cutoff).1 = sentAfter cutoff calls) := by
  have h := countRequests_markAll cutoff calls (New clock) (by simp [New])
  have h1 : (CountRequestsSince (markAll (New clock) calls) cutoff).1 =
      sentAfter cutoff (lastPerProfile calls) := by
    simp only [CountRequestsSince, h]
    simp [New, countRequests]
  refine ⟨h1, ?_⟩
  intro hn
  rw [h1, lastPerProfile_of_nodup calls hn]

theorem CountRequestsSince_after_marks_witness :
    (CountRequestsSince (markAll (New tuesdayEleven) sameProfileTwice) tuesdayEleven).1 =
        sentAfter tuesdayEleven (lastPerProfile sameProfileTwice) ∧
      (CountRequestsSince (markAll (New tuesdayEleven) twoProfiles) tuesdayEleven).1 =
        sentAfter tuesdayEleven twoProfiles :=
  ⟨(CountRequestsSince_after_marks tuesdayEleven tuesdayEleven sameProfileTwice).1,
    (CountRequestsSince_after_marks tuesdayEleven tuesdayEleven twoProfiles).2 (by decide)⟩

end Store

namespace Stealth

open GoTime

end Stealth

namespace Stealth

open GoTime

/-- Every key that `neighborKeys` lists as a neighbour is a rune other than 0, and so is its
upper case. -/
theorem neighborKeys_values : ∀ entry ∈ neighborKeys, ∀ k ∈ entry.2,
    k ≠ Char.ofNat 0 ∧ upperByte k ≠ Char.ofNat 0 := by
  decide

theorem mapGet_mem (key : Char) (table : List (Char × List Char))
    (h : mapGet key table ≠ []) : ∃ entry ∈ table, entry.2 = mapGet key table := by
  induction table with
  | nil => exact absurd rfl h
  | cons entry rest ih =>
    unfold mapGet at h ⊢
    split
    · exact ⟨entry, List.mem_cons_self _ _, rfl⟩
    · rename_i he
      simp only [he, if_false] at h
      obtain ⟨e, he1, he2⟩ := ih h
      exact ⟨e, List.mem_cons_of_mem _ he1, he2⟩

/-- The ASCII letters are letters with an entry in `neighborKeys`. -/
theorem asciiLetter_hasNeighbours (u : UnicodeLib) (hu : u.knowsAscii) (ch : Char)
    (h : asciiLetter ch) : hasNeighbours u ch := by
  have hl : ∀ n : Nat, 97 ≤ n → n < 123 →
      mapGet (asciiLower (Char.ofNat n)) neighborKeys ≠ [] := by decide
  have hup : ∀ n : Nat, 65 ≤ n → n < 91 →
      mapGet (asciiLower (Char.ofNat n)) neighborKeys ≠ [] := by decide
  refine ⟨(hu ch h).1, ?_⟩
  rw [(hu ch h).2, ← Char.ofNat_toNat ch]
  rcases h with h | h
  · exact hl _ h.1 (by omega)
  · exact hup _ h.1 (by omega)

theorem requests_append (xs ys : List Action) :
    requests (xs ++ ys) = requests xs ++ requests ys := by
  induction xs with
  | nil => rfl
  | cons a rest ih => cases a <;> simp [requests, ih]

theorem mem_requests (a : Action) (trace : List Action) (h : a ∈ trace)
    (hs : ∀ d, a ≠ Action.sleep d) : a ∈ requests trace := by
  induction trace with
  | nil => cases h
  | cons b rest ih =>
    rcases List.mem_cons.mp h with h1 | h1
    · subst h1
      cases a <;> simp [requests] at hs ⊢
    · cases b <;> simp [requests, ih h1]

theorem randomDuration_spec (c : Controller) (minMs maxMs : Int)
    (hmin : -9223372036854775808 ≤ minMs) (hmax : maxMs < 9223372036854775808)
    (hfit : maxMs - minMs < 9223372036854775807) :
    ∃ d c1, randomDuration c minMs maxMs = some (d, c1) ∧ c1.cfg = c.cfg := by
  unfold randomDuration
  split
  · exact ⟨_, _, rfl, rfl⟩
  · obtain ⟨r, c1, h, hc, _, _⟩ := randomInt_spec c minMs maxMs hmin hmax hfit
    simp only [h]
    exact ⟨_, _, rfl, hc⟩

theorem TypingDelay_spec (c : Controller) (h : typingDelayFits c.cfg) :
    ∃ d c1, TypingDelay c = some (d, c1) ∧ c1.cfg = c.cfg :=
  randomDuration_spec c _ _ h.1 h.2.1 h.2.2

/-- With a typo chance of 0 the loop of `TypeHuman` dispatches the runes one by one. -/
theorem typeLoop_no_typos (u : UnicodeLib) (env : Env) (henv : env.quiet) (text : List Char) :
    ∀ (c : Controller) (trace : List Action), c.cfg.TypoChance = 0 → typingDelayFits c.cfg →
      ∃ trace1 c1, typeLoop u env text c trace = some (none, trace1, c1) ∧
        requests trace1 = requests trace ++ text.map charRequest ∧ c1.cfg = c.cfg := by
  induction text with
  | nil =>
    intro c trace _ _
    exact ⟨trace, c, rfl, by simp, rfl⟩
  | cons ch rest ih =>
    intro c trace h0 hfit
    have hroll : ShouldTypo c = some (false, c) := by
      simp [ShouldTypo, rollPercent, h0]
    obtain ⟨d, c1, hd, hc1⟩ := TypingDelay_spec c hfit
    obtain ⟨trace1, c2, hrun, hreq, hc2⟩ :=
      ih c1 (trace ++ [charRequest ch, Action.sleep d]) (by rw [hc1]; exact h0)
        (by rw [hc1]; exact hfit)
    refine ⟨trace1, c2, ?_, ?_, by rw [hc2, hc1]⟩
    · simp only [typeLoop, henv.1, hroll, Bool.false_and, Bool.false_eq_true, if_false, henv.2,
        hd, hrun]
    · rw [hreq, requests_append]
      have : requests [charRequest ch, Action.sleep d] = [charRequest ch] := by
        unfold charRequest
        split
        · rfl
        · split <;> rfl
      rw [this]
      simp

/-- C23: for every text, with a typo chance of 0, a context that is never cancelled, a driver
that never fails and typing delays that fit an `int`, `TypeHuman` returns nil after exactly
one request per rune, in input order: the Enter key for a line break, the Tab key for a tab, an
insertion of exactly that rune otherwise; it never presses Backspace. -/
theorem TypeHuman_without_typos (u : UnicodeLib) (env : Env) (c : Controller)
    (text : List Char) (henv : env.quiet) (h0 : c.cfg.TypoChance = 0)
    (hfit : typingDelayFits c.cfg) :
    ∃ trace c1, TypeHuman u env c text = some (none, trace, c1) ∧
      requests trace = text.map charRequest ∧ (requests trace).length = text.length ∧
      Action.press Key.Backspace ∉ trace ∧
      ∀ ch, charRequest ch =
        if ch = '\n' then Action.press Key.Enter
        else if ch = '\t' then Action.press Key.Tab
        else Action.insertText [ch] := by
  obtain ⟨trace, c1, hrun, hreq, _⟩ := typeLoop_no_typos u env henv text c [] h0 hfit
  simp only [requests, List.nil_append] at hreq
  refine ⟨trace, c1, hrun, hreq, by rw [hreq, List.length_map], ?_, fun _ => rfl⟩
  intro hmem
  have := mem_requests _ _ hmem (by intro d hd; cases hd)
  rw [hreq, List.mem_map] at this
  obtain ⟨ch, _, hch⟩ := this
  unfold charRequest at hch
  split at hch
  · cases hch
  · split at hch <;> cases hch

theorem TypeHuman_without_typos_witness :
    ∃ trace c1, TypeHuman latin1 quietEnv carefulController "a\nB\t".toList =
        some (none, trace, c1) ∧
      requests trace = "a\nB\t".toList.map charRequest ∧
      (requests trace).length = "a\nB\t".toList.length ∧
      Action.press Key.Backspace ∉ trace ∧
      ∀ ch, charRequest ch =
        if ch = '\n' then Action.press Key.Enter
        else if ch = '\t' then Action.press Key.Tab
        else Action.insertText [ch] :=
  TypeHuman_without_typos latin1 quietEnv carefulController "a\nB\t".toList
    ⟨fun _ => rfl, fun _ _ => rfl⟩ rfl (by decide)

theorem randomNeighbor_spec (u : UnicodeLib) (c : Controller) (ch : Char)
    (hne : mapGet (u.ToLower ch) neighborKeys ≠ []) :
    ∃ typo c1, randomNeighbor u c ch = some (typo, c1) ∧ typo ≠ Char.ofNat 0 ∧
      nextTo u ch typo ∧ c1.cfg = c.cfg := by
  obtain ⟨entry, hentry, hval⟩ := mapGet_mem _ _ hne
  have hkeys := neighborKeys_values entry hentry
  rw [hval] at hkeys
  have hlen : (0 : Int) < ((mapGet (u.ToLower ch) neighborKeys).length : Int) := by
    have := List.length_pos.mpr hne
    exact_mod_cast this
  obtain ⟨index, rng1, hi, hi0, hi1, _⟩ := Intn_some c.rng _ hlen
  have hlt : index.toNat < (mapGet (u.ToLower ch) neighborKeys).length := by omega
  have hmem : (mapGet (u.ToLower ch) neighborKeys).getD index.toNat (Char.ofNat 0) ∈
      mapGet (u.ToLower ch) neighborKeys := by
    rw [List.getD_eq_getElem _ _ hlt]
    exact List.getElem_mem _
  simp only [randomNeighbor, hne, if_false, hi]
  by_cases hup : u.IsUpper ch = true
  · simp only [hup, if_true]
    exact ⟨_, _, rfl, (hkeys _ hmem).2, ⟨_, hmem, Or.inr rfl⟩, rfl⟩
  · simp only [hup, Bool.false_eq_true, if_false]
    exact ⟨_, _, rfl, (hkeys _ hmem).1, ⟨_, hmem, Or.inl rfl⟩, rfl⟩

theorem typoBlock_spec (u : UnicodeLib) (env : Env) (henv : env.quiet)
    (c : Controller) (ch : Char) (trace : List Action)
    (hne : mapGet (u.ToLower ch) neighborKeys ≠ []) (hfit : typingDelayFits c.cfg) :
    ∃ typo d1 d2 c1, typoBlock u env c ch trace =
        some (none,
          trace ++ [Action.insertText [typo], Action.sleep d1, Action.press Key.Backspace,
            Action.sleep d2], c1) ∧
      nextTo u ch typo ∧ c1.cfg = c.cfg := by
  obtain ⟨typo, c1, h1, hne, hnext, hc1⟩ := randomNeighbor_spec u c ch hne
  obtain ⟨d1, c2, h2, hc2⟩ := TypingDelay_spec c1 (by rw [hc1]; exact hfit)
  obtain ⟨r, c3, h3, hc3, _, _⟩ := randomInt_spec c2 30 80 (by omega) (by omega) (by omega)
  refine ⟨typo, d1, wrapInt64 (r * Millisecond), c3, ?_, hnext, by rw [hc3, hc2, hc1]⟩
  simp only [typoBlock, h1, hne, if_false, henv.2, h2, h3]
  simp

/-- With a typo chance of 100 the loop of `TypeHuman` types every letter that has an entry in
`neighborKeys` as a typo, Backspace, the letter. -/
theorem typeLoop_all_typos (u : UnicodeLib)
    (hctl : u.IsLetter '\n' = false ∧ u.IsLetter '\t' = false) (env : Env) (henv : env.quiet)
    (text : List Char) :
    ∀ (c : Controller) (trace : List Action), (∀ ch ∈ text, hasNeighbours u ch) →
      100 ≤ c.cfg.TypoChance → typingDelayFits c.cfg →
      ∃ typos trace1 c1, typeLoop u env text c trace = some (none, trace1, c1) ∧
        typos.length = text.length ∧ (∀ pair ∈ text.zip typos, nextTo u pair.1 pair.2) ∧
        requests trace1 = requests trace ++ (text.zip typos).flatMap typoTriple ∧
        c1.cfg = c.cfg := by
  induction text with
  | nil =>
    intro c trace _ _ _
    exact ⟨[], trace, c, rfl, rfl, by simp, by simp, rfl⟩
  | cons ch rest ih =>
    intro c trace hall h100 hfit
    have hch := hall ch (List.mem_cons_self _ _)
    have hroll : ShouldTypo c = some (true, c) := by
      have : ¬ c.cfg.TypoChance ≤ 0 := by omega
      simp [ShouldTypo, rollPercent, this, h100]
    obtain ⟨typo, d1, d2, c1, hblock, hnext, hc1⟩ :=
      typoBlock_spec u env henv c ch trace hch.2 hfit
    obtain ⟨d, c2, hd, hc2⟩ := TypingDelay_spec c1 (by rw [hc1]; exact hfit)
    obtain ⟨typos, trace1, c3, hrun, hlen, hnexts, hreq, hc3⟩ :=
      ih c2 (trace ++ [Action.insertText [typo], Action.sleep d1, Action.press Key.Backspace,
          Action.sleep d2] ++ [charRequest ch, Action.sleep d])
        (fun x hx => hall x (List.mem_cons_of_mem _ hx)) (by rw [hc2, hc1]; exact h100)
        (by rw [hc2, hc1]; exact hfit)
    have hn : ch ≠ '\n' := by
      intro h
      have := hch.1
      rw [h, hctl.1] at this
      cases this
    have ht : ch ≠ '\t' := by
      intro h
      have := hch.1
      rw [h, hctl.2] at this
      cases this
    have hreqch : charRequest ch = Action.insertText [ch] := by
      simp [charRequest, hn, ht]
    refine ⟨typo :: typos, trace1, c3, ?_, by simp [hlen], ?_, ?_, by rw [hc3, hc2, hc1]⟩
    · simp only [typeLoop, henv.1, hroll, isTypoCandidate, hch.1, Bool.and_self,
        if_true, hblock, henv.2, hd, hrun]
    · intro pair hp
      simp only [List.zip_cons_cons, List.mem_cons] at hp
      rcases hp with hp | hp
      · subst hp; exact hnext
      · exact hnexts pair hp
    · rw [hreq, requests_append, requests_append, hreqch]
      simp [requests, typoTriple, List.flatMap]

/-- C24, the claim as worded fails: for the text "é", a letter with no entry in `neighborKeys`,
and a typo chance of 100, `TypeHuman` makes one request, the insertion of the letter, with no
typo and no Backspace before it. -/
theorem TypeHuman_letter_without_neighbours :
    latin1.IsLetter 'é' = true ∧
      (TypeHuman latin1 quietEnv clumsyController ['é']).map
        (fun r => (r.1, requests r.2.1)) = some (none, [Action.insertText ['é']]) := by
  refine ⟨by decide, by decide⟩

/-- C24, amended: for every text consisting only of letters whose lower case has an entry in
`neighborKeys`, as have the letters a to z and A to Z, with a typo chance of 100, a context
that is never cancelled, a driver that never fails and typing delays that fit an `int`,
`TypeHuman` returns nil and its requests are, for each rune in order, the insertion of a typo,
Backspace, the insertion of the rune, the typo being a key next to the rune's key in
`neighborKeys`, in lower or upper case. -/
theorem TypeHuman_all_typos (u : UnicodeLib) (env : Env) (c : Controller) (text : List Char)
    (hctl : u.IsLetter '\n' = false ∧ u.IsLetter '\t' = false) (henv : env.quiet)
    (hall : ∀ ch ∈ text, hasNeighbours u ch)
    (h100 : c.cfg.TypoChance = 100) (hfit : typingDelayFits c.cfg) :
    ∃ typos trace c1, TypeHuman u env c text = some (none, trace, c1) ∧
      typos.length = text.length ∧ (∀ pair ∈ text.zip typos, nextTo u pair.1 pair.2) ∧
      requests trace = (text.zip typos).flatMap typoTriple := by
  obtain ⟨typos, trace, c1, hrun, hlen, hnext, hreq, _⟩ :=
    typeLoop_all_typos u hctl env henv text c [] hall (by omega) hfit
  exact ⟨typos, trace, c1, hrun, hlen, hnext, by simpa [requests] using hreq⟩

theorem latin1_knowsAscii : latin1.knowsAscii := by
  intro ch h
  have hl : ∀ n : Nat, 97 ≤ n → n < 123 →
      latin1.IsLetter (Char.ofNat n) = true ∧
        latin1.ToLower (Char.ofNat n) = asciiLower (Char.ofNat n) := by
    decide
  have hu : ∀ n : Nat, 65 ≤ n → n < 91 →
      latin1.IsLetter (Char.ofNat n) = true ∧
        latin1.ToLower (Char.ofNat n) = asciiLower (Char.ofNat n) := by
    decide
  rw [← Char.ofNat_toNat ch]
  rcases h with h | h
  · exact hl _ h.1 (by omega)
  · exact hu _ h.1 (by omega)

theorem TypeHuman_all_typos_witness :
    ∃ typos trace c1, TypeHuman latin1 quietEnv clumsyController ['a', 'B'] =
        some (none, trace, c1) ∧
      typos.length = ['a', 'B'].length ∧
      (∀ pair ∈ ['a', 'B'].zip typos, nextTo latin1 pair.1 pair.2) ∧
      requests trace = (['a', 'B'].zip typos).flatMap typoTriple :=
  TypeHuman_all_typos latin1 quietEnv clumsyController ['a', 'B'] (by decide)
    ⟨fun _ => rfl, fun _ _ => rfl⟩
    (fun ch _ => asciiLetter_hasNeighbours latin1 latin1_knowsAscii ch (by
      have : ∀ x ∈ ['a', 'B'], asciiLetter x := by decide
      exact this ch ‹_›))
    rfl (by decide)

end Stealth

namespace Stealth

open GoTime

theorem truncInt_natCast (m : Nat) (h : m < 9223372036854775808) :
    truncInt ((m : Nat) : ℚ) = (m : Int) := by
  unfold truncInt int64OfFloat
  have h0 : (0 : ℚ) ≤ ((m : Nat) : ℚ) := Nat.cast_nonneg m
  have hf : ⌊((m : Nat) : ℚ)⌋ = (m : Int) := Int.floor_natCast m
  simp only [h0, if_true, hf]
  rw [if_pos ⟨by omega, by omega⟩]

theorem abs_float_gt (s r : Int) :
    |float64OfInt s| > |float64OfInt r| ↔ nearestFloat s.natAbs > nearestFloat r.natAbs := by
  rw [float64OfInt_abs, float64OfInt_abs, gt_iff_lt, Nat.cast_lt]

/-- The loop condition of `ScrollHuman`, `math.Abs(float64(remaining)) > 0`, holds exactly when
`remaining` is not zero. -/
theorem abs_float_pos (r : Int)
    (hr : -9223372036854775808 ≤ r ∧ r < 9223372036854775808) :
    |float64OfInt r| > 0 ↔ r ≠ 0 := by
  obtain ⟨h1, h2, _, _⟩ := nearestFloat_spec r.natAbs (by omega)
  rw [float64OfInt_abs, gt_iff_lt, Nat.cast_pos]
  constructor
  · intro h hr0
    subst hr0
    have := h1 (by decide)
    simp only [Int.natAbs_zero] at this h
    omega
  · intro hne
    by_cases hle : r.natAbs ≤ 9007199254740992
    · rw [h1 hle]
      omega
    · have := h2 (by omega)
      omega

/-- The comparison and the cut of lines 21-23 of `ScrollHuman`, when they are between exact
values: the step is replaced by the magnitude of the distance when it is larger. -/
theorem clip_spec (s r : Int) (hs : 0 < s ∧ s < 9223372036854775808)
    (hr : -9223372036854775808 ≤ r ∧ r < 9223372036854775808)
    (hex : |r| < 9007199254740992 ∨ s ≤ 9007199254740992) :
    (if |float64OfInt s| > |float64OfInt r| then truncInt |float64OfInt r| else s) =
      (if s > |r| then |r| else s) := by
  obtain ⟨hs1, hs2, _, _⟩ := nearestFloat_spec s.natAbs (by omega)
  obtain ⟨hr1, hr2, _, _⟩ := nearestFloat_spec r.natAbs (by omega)
  have habs : ((r.natAbs : Nat) : Int) = |r| := Int.natCast_natAbs r
  have hsabs : ((s.natAbs : Nat) : Int) = s := by omega
  have hiff : (|float64OfInt s| > |float64OfInt r|) ↔ s > |r| := by
    rw [abs_float_gt]
    rcases hex with hex | hex
    · have hrn : nearestFloat r.natAbs = r.natAbs := hr1 (by omega)
      rw [hrn]
      by_cases hsle : s.natAbs ≤ 9007199254740992
      · rw [hs1 hsle]
        omega
      · have := hs2 (by omega)
        omega
    · have hsn : nearestFloat s.natAbs = s.natAbs := hs1 (by omega)
      rw [hsn]
      by_cases hrle : r.natAbs ≤ 9007199254740992
      · rw [hr1 hrle]
        omega
      · have := hr2 (by omega)
        omega
  by_cases hgt : s > |r|
  · rw [if_pos (hiff.mpr hgt), if_pos hgt]
    have hrn : nearestFloat r.natAbs = r.natAbs := hr1 (by omega)
    rw [float64OfInt_abs, hrn, truncInt_natCast _ (by omega), habs]
  · rw [if_neg (fun h => hgt (hiff.mp h)), if_neg hgt]

/-- Lines 18-26 of `ScrollHuman`, when the comparison of line 21 is between exact values,
give a delta that is not zero, has the sign of the distance that remains and at most its
magnitude, and that `float64` holds exactly. -/
theorem primaryStep_spec (drawn remaining : Int)
    (hd : -9223372036854775808 ≤ drawn ∧ drawn < 9223372036854775808)
    (hr : -9223372036854775808 ≤ remaining ∧ remaining < 9223372036854775808)
    (hne : remaining ≠ 0)
    (hex : |remaining| < 9007199254740992 ∨ drawn ≤ 9007199254740992) :
    primaryStep drawn remaining ≠ 0 ∧
      (0 < remaining → 0 < primaryStep drawn remaining ∧ primaryStep drawn remaining ≤ remaining) ∧
      (remaining < 0 → remaining ≤ primaryStep drawn remaining ∧ primaryStep drawn remaining < 0) ∧
      float64OfInt (primaryStep drawn remaining) = (primaryStep drawn remaining : ℚ) ∧
      (|remaining| < 9007199254740992 ∨ |primaryStep drawn remaining| ≤ 9007199254740992) := by
  have hs : 0 < (if drawn ≤ 0 then 220 else drawn) ∧
      (if drawn ≤ 0 then 220 else drawn) < 9223372036854775808 := by
    split <;> omega
  have hex2 : |remaining| < 9007199254740992 ∨
      (if drawn ≤ 0 then 220 else drawn) ≤ 9007199254740992 := by
    rcases hex with h | h
    · exact Or.inl h
    · right
      split <;> omega
  have hclip := clip_spec _ remaining hs hr hex2
  have habs : (0 ≤ remaining ∧ |remaining| = remaining) ∨
      (remaining < 0 ∧ |remaining| = -remaining) := by
    rcases le_or_lt 0 remaining with h | h
    · exact Or.inl ⟨h, abs_of_nonneg h⟩
    · exact Or.inr ⟨h, abs_of_neg h⟩
  have hkey : primaryStep drawn remaining ≠ 0 ∧
      (0 < remaining → 0 < primaryStep drawn remaining ∧ primaryStep drawn remaining ≤ remaining) ∧
      (remaining < 0 → remaining ≤ primaryStep drawn remaining ∧ primaryStep drawn remaining < 0) ∧
      (|remaining| < 9007199254740992 ∨ |primaryStep drawn remaining| ≤ 9007199254740992) := by
    unfold primaryStep
    simp only
    rw [hclip]
    generalize (if drawn ≤ 0 then 220 else drawn) = s at *
    rcases habs with ⟨h1, h2⟩ | ⟨h1, h2⟩ <;> rw [h2] at hex2 ⊢ <;> unfold wrapInt64 <;>
      split <;> (try split) <;> refine ⟨?_, ?_, ?_, ?_⟩ <;>
      first
        | omega
        | (rcases hex2 with h | h
           · exact Or.inl h
           · right
             rw [abs_le]
             omega)
  obtain ⟨k1, k2, k3, k4⟩ := hkey
  refine ⟨k1, k2, k3, ?_, k4⟩
  apply float64OfInt_exact
  rcases k4 with k4 | k4
  · rw [abs_le]
    have := abs_lt.mp k4
    constructor
    · by_cases h : 0 < remaining
      · have := k2 h
        omega
      · have := k3 (by omega)
        omega
    · by_cases h : 0 < remaining
      · have := k2 h
        omega
      · have := k3 (by omega)
        omega
  · exact k4

theorem rollPercent_some (c : Controller) (p : Int) :
    ∃ roll c1, rollPercent c p = some (roll, c1) ∧ c1.cfg = c.cfg := by
  unfold rollPercent
  split
  · exact ⟨_, _, rfl, rfl⟩
  · split
    · exact ⟨_, _, rfl, rfl⟩
    · obtain ⟨d, rng1, hd, _⟩ := Intn_some c.rng 100 (by omega)
      simp only [hd]
      exact ⟨_, _, rfl, rfl⟩

theorem rollPercent_cfg (c c1 : Controller) (p : Int) (roll : Bool)
    (h : rollPercent c p = some (roll, c1)) : c1.cfg = c.cfg := by
  obtain ⟨roll1, c2, h1, h2⟩ := rollPercent_some c p
  rw [h] at h1
  simp only [Option.some.injEq, Prod.mk.injEq] at h1
  rw [h1.2]
  exact h2

theorem randomDuration_cfg (c c1 : Controller) (minMs maxMs d : Int)
    (hmin : -9223372036854775808 ≤ minMs) (hmax : maxMs < 9223372036854775808)
    (hfit : maxMs - minMs < 9223372036854775807)
    (h : randomDuration c minMs maxMs = some (d, c1)) : c1.cfg = c.cfg := by
  obtain ⟨d1, c2, h1, h2⟩ := randomDuration_spec c minMs maxMs hmin hmax hfit
  rw [h] at h1
  simp only [Option.some.injEq, Prod.mk.injEq] at h1
  rw [h1.2]
  exact h2

theorem scrollDeltas_append (xs ys : List Action) :
    scrollDeltas (xs ++ ys) = scrollDeltas xs ++ scrollDeltas ys := by
  induction xs with
  | nil => rfl
  | cons a rest ih => cases a <;> simp [scrollDeltas, ih]

/-- One pass through the body of the loop of `ScrollHuman`, when the comparison of line 21 is
between exact values, keeps what claim C25 says of the iterations so far, and the iterations
remain the scroll requests of the trace. -/
theorem scrollBody_inv (env : Env) (remaining : Int) (c : Controller) (turns : List ScrollTurn)
    (trace : List Action)
    (out : ScrollRun ⊕ (Int × Controller × List ScrollTurn × List Action))
    (hr : -9223372036854775808 ≤ remaining ∧ remaining < 9223372036854775808)
    (hne : remaining ≠ 0) (hcfg : scrollStepInts c.cfg) (hex : scrollExact c.cfg remaining)
    (hgood : ∀ t ∈ turns, goodTurn t)
    (hdelta : scrollDeltas trace = turns.flatMap turnDeltas)
    (h : scrollBody env remaining c turns trace = out) :
    match out with
    | Sum.inl run =>
      (∀ t ∈ run.turns, goodTurn t) ∧ scrollDeltas run.trace = run.turns.flatMap turnDeltas
    | Sum.inr (left, c1, turns1, trace1) =>
      (∀ t ∈ turns1, goodTurn t) ∧ scrollDeltas trace1 = turns1.flatMap turnDeltas ∧
        (-9223372036854775808 ≤ left ∧ left < 9223372036854775808) ∧ c1.cfg = c.cfg ∧
        scrollExact c1.cfg left := by
  unfold scrollBody at h
  rcases hctx : env.ctxErr trace with _ | err
  swap
  · simp only [hctx] at h
    subst h
    exact ⟨hgood, hdelta⟩
  simp only [hctx] at h
  rcases hstep : ScrollStep c with _ | ⟨drawn, c1⟩
  · simp only [hstep] at h
    subst h
    exact ⟨hgood, hdelta⟩
  simp only [hstep] at h
  obtain ⟨hc1, hd1, hd2⟩ := randomInt_of_some c c1 _ _ drawn hcfg.1 hcfg.2 hstep
  have hd : -9223372036854775808 ≤ drawn ∧ drawn < 9223372036854775808 := by
    have := hcfg.1
    have := hcfg.2
    by_cases hle : c.cfg.ScrollStepMax ≤ c.cfg.ScrollStepMin
    · have := (hd1 hle).1
      omega
    · have := hd2 (not_le.mp hle)
      omega
  have hexd : |remaining| < 9007199254740992 ∨ drawn ≤ 9007199254740992 := by
    rcases hex with hex | hex
    · exact Or.inl hex
    · right
      by_cases hle : c.cfg.ScrollStepMax ≤ c.cfg.ScrollStepMin
      · have := (hd1 hle).1
        omega
      · have := hd2 (not_le.mp hle)
        omega
  obtain ⟨hs0, hs1, hs2, _, _⟩ := primaryStep_spec drawn remaining hd hr hne hexd
  have hleft : -9223372036854775808 ≤ wrapInt64 (remaining - primaryStep drawn remaining) ∧
      wrapInt64 (remaining - primaryStep drawn remaining) < 9223372036854775808 :=
    wrapInt64_range _
  have hexl : ∀ c9 : Controller, c9.cfg = c.cfg →
      scrollExact c9.cfg (wrapInt64 (remaining - primaryStep drawn remaining)) := by
    intro c9 h9
    rw [h9]
    rcases hex with hex | hex
    · left
      have hw : wrapInt64 (remaining - primaryStep drawn remaining) =
          remaining - primaryStep drawn remaining := by
        apply wrapInt64_of_small <;> omega
      rw [hw]
      have := abs_lt.mp hex
      rw [abs_lt]
      omega
    · exact Or.inr hex
  have good1 : ∀ t ∈ turns ++ [⟨remaining, primaryStep drawn remaining, none⟩], goodTurn t := by
    intro t ht
    rcases List.mem_append.mp ht with ht | ht
    · exact hgood t ht
    · simp only [List.mem_singleton] at ht
      subst ht
      exact ⟨hs0, hs1, hs2, fun back hb => by cases hb⟩
  rcases h310 : randomInt c1 3 10 with _ | ⟨steps, c2⟩
  · simp only [h310] at h
    subst h
    exact ⟨hgood, hdelta⟩
  simp only [h310] at h
  obtain ⟨hc2, _, _⟩ := randomInt_of_some c1 c2 3 10 steps (by omega) (by omega) h310
  rcases hans : env.answer trace (Action.scroll 0 (float64OfInt (primaryStep drawn remaining)) steps)
    with _ | err
  swap
  · simp only [hans] at h
    subst h
    refine ⟨good1, ?_⟩
    simp [scrollDeltas_append, scrollDeltas, hdelta, turnDeltas]
  simp only [hans] at h
  rcases hdur : randomDuration c2 60 220 with _ | ⟨d, c3⟩
  · simp only [hdur] at h
    subst h
    refine ⟨good1, ?_⟩
    simp [scrollDeltas_append, scrollDeltas, hdelta, turnDeltas]
  simp only [hdur] at h
  have hc3 := randomDuration_cfg c2 c3 60 220 d (by omega) (by omega) (by omega) hdur
  rcases hroll : ShouldScrollBack c3 with _ | ⟨roll, c4⟩
  · simp only [hroll] at h
    subst h
    refine ⟨good1, ?_⟩
    simp [scrollDeltas_append, scrollDeltas, hdelta, turnDeltas]
  have hc4 := rollPercent_cfg c3 c4 _ roll hroll
  cases roll with
  | false =>
    simp only [hroll] at h
    subst h
    refine ⟨good1, ?_, hleft, by rw [hc4, hc3, hc2, hc1],
      hexl c4 (by rw [hc4, hc3, hc2, hc1])⟩
    simp [scrollDeltas_append, scrollDeltas, hdelta, turnDeltas]
  | true =>
    simp only [hroll] at h
    rcases hback : randomInt c4 40 120 with _ | ⟨drawnBack, c5⟩
    · simp only [hback] at h
      subst h
      refine ⟨good1, ?_⟩
      simp [scrollDeltas_append, scrollDeltas, hdelta, turnDeltas]
    simp only [hback] at h
    obtain ⟨hc5, _, hb⟩ := randomInt_of_some c4 c5 40 120 drawnBack (by omega) (by omega) hback
    have hb := hb (by omega)
    have good2 : ∀ t ∈ turns ++ [⟨remaining, primaryStep drawn remaining,
        some (wrapInt64 (-(if primaryStep drawn remaining < 0 then wrapInt64 (-drawnBack)
          else drawnBack)))⟩], goodTurn t := by
      intro t ht
      rcases List.mem_append.mp ht with ht | ht
      · exact hgood t ht
      · simp only [List.mem_singleton] at ht
        subst ht
        refine ⟨hs0, hs1, hs2, ?_⟩
        intro back hback1
        simp only [Option.some.injEq] at hback1
        subst hback1
        dsimp only
        unfold wrapInt64
        constructor
        · intro hpos
          split <;> omega
        · intro hneg
          split <;> omega
    rcases h26 : randomInt c5 2 6 with _ | ⟨backSteps, c6⟩
    · simp only [h26] at h
      subst h
      refine ⟨good1, ?_⟩
      simp [scrollDeltas_append, scrollDeltas, hdelta, turnDeltas]
    simp only [h26] at h
    obtain ⟨hc6, _, _⟩ := randomInt_of_some c5 c6 2 6 backSteps (by omega) (by omega) h26
    rcases hans2 : env.answer (trace ++
        [Action.scroll 0 (float64OfInt (primaryStep drawn remaining)) steps, Action.sleep d])
        (Action.scroll 0
          (float64OfInt (wrapInt64 (-(if primaryStep drawn remaining < 0
            then wrapInt64 (-drawnBack) else drawnBack)))) backSteps) with _ | err
    swap
    · simp only [hans2] at h
      subst h
      refine ⟨good2, ?_⟩
      simp [scrollDeltas_append, scrollDeltas, hdelta, turnDeltas]
    simp only [hans2] at h
    rcases hdur2 : randomDuration c6 80 240 with _ | ⟨d2, c7⟩
    · simp only [hdur2] at h
      subst h
      refine ⟨good2, ?_⟩
      simp [scrollDeltas_append, scrollDeltas, hdelta, turnDeltas]
    simp only [hdur2] at h
    have hc7 := randomDuration_cfg c6 c7 80 240 d2 (by omega) (by omega) (by omega) hdur2
    subst h
    refine ⟨good2, ?_, hleft, by rw [hc7, hc6, hc5, hc4, hc3, hc2, hc1],
      hexl c7 (by rw [hc7, hc6, hc5, hc4, hc3, hc2, hc1])⟩
    simp [scrollDeltas_append, scrollDeltas, hdelta, turnDeltas]

/-- Every run of the loop of `ScrollHuman`, however it ends, keeps what claim C25 says of its
iterations when the comparison of line 21 is between exact values. -/
theorem scrollLoop_inv (env : Env) (fuel : Nat) :
    ∀ (remaining : Int) (c : Controller) (turns : List ScrollTurn) (trace : List Action),
      (-9223372036854775808 ≤ remaining ∧ remaining < 9223372036854775808) →
      scrollStepInts c.cfg → scrollExact c.cfg remaining → (∀ t ∈ turns, goodTurn t) →
      scrollDeltas trace = turns.flatMap turnDeltas →
      (∀ t ∈ (scrollLoop env fuel remaining c turns trace).turns, goodTurn t) ∧
        scrollDeltas (scrollLoop env fuel remaining c turns trace).trace =
          (scrollLoop env fuel remaining c turns trace).turns.flatMap turnDeltas := by
  induction fuel with
  | zero =>
    intro remaining c turns trace _ _ _ hgood hdelta
    unfold scrollLoop
    split <;> exact ⟨hgood, hdelta⟩
  | succ fuel ih =>
    intro remaining c turns trace hr hcfg hex hgood hdelta
    unfold scrollLoop
    split
    · rename_i hpos
      have hne := (abs_float_pos remaining hr).mp hpos
      split
      · rename_i run hrun
        exact scrollBody_inv env remaining c turns trace _ hr hne hcfg hex hgood hdelta hrun
      · rename_i left c1 turns1 trace1 hrun
        obtain ⟨h1, h2, h3, h4, h5⟩ :=
          scrollBody_inv env remaining c turns trace _ hr hne hcfg hex hgood hdelta hrun
        exact ih left c1 turns1 trace1 h3 (by rw [h4]; exact hcfg) h5 h1 h2
    · exact ⟨hgood, hdelta⟩

theorem chained_append (total : Int) (turns : List ScrollTurn) (turn : ScrollTurn) :
    chained total (turns ++ [turn]) ↔
      chained total turns ∧ turn.remaining = leftAfter total turns := by
  induction turns generalizing total with
  | nil => simp [chained, leftAfter]
  | cons t rest ih => simp [chained, leftAfter, ih, and_assoc]

theorem leftAfter_append (total : Int) (turns : List ScrollTurn) (turn : ScrollTurn) :
    leftAfter total (turns ++ [turn]) = wrapInt64 (leftAfter total turns - turn.step) := by
  induction turns generalizing total with
  | nil => simp [leftAfter]
  | cons t rest ih => simp [leftAfter, ih]

/-- What one pass through the body of the loop of `ScrollHuman` adds to the iterations: at
most one, which started from `remaining`; when the loop goes on, exactly one, and its primary
delta has been taken off `remaining`. -/
theorem scrollBody_turns (env : Env) (remaining : Int) (c : Controller)
    (turns : List ScrollTurn) (trace : List Action)
    (out : ScrollRun ⊕ (Int × Controller × List ScrollTurn × List Action))
    (h : scrollBody env remaining c turns trace = out) :
    match out with
    | Sum.inl run =>
      run.turns = turns ∨ ∃ t, run.turns = turns ++ [t] ∧ t.remaining = remaining
    | Sum.inr (left, _, turns1, _) =>
      ∃ t, turns1 = turns ++ [t] ∧ t.remaining = remaining ∧
        left = wrapInt64 (remaining - t.step) := by
  unfold scrollBody at h
  simp only at h
  repeat' split at h
  all_goals subst h
  all_goals first
    | exact Or.inl rfl
    | exact Or.inr ⟨_, rfl, rfl⟩
    | exact ⟨_, rfl, rfl, rfl⟩

theorem scrollLoop_chained (env : Env) (total : Int) (fuel : Nat) :
    ∀ (remaining : Int) (c : Controller) (turns : List ScrollTurn) (trace : List Action),
      chained total turns → remaining = leftAfter total turns →
      chained total (scrollLoop env fuel remaining c turns trace).turns := by
  induction fuel with
  | zero =>
    intro remaining c turns trace hch _
    unfold scrollLoop
    split <;> exact hch
  | succ fuel ih =>
    intro remaining c turns trace hch hleft
    unfold scrollLoop
    split
    · split
      · rename_i run hrun
        rcases scrollBody_turns env remaining c turns trace _ hrun with h | ⟨t, h1, h2⟩
        · rw [h]; exact hch
        · rw [h1, chained_append]
          exact ⟨hch, by rw [h2, hleft]⟩
      · rename_i left c1 turns1 trace1 hrun
        obtain ⟨t, h1, h2, h3⟩ := scrollBody_turns env remaining c turns trace _ hrun
        apply ih
        · rw [h1, chained_append]
          exact ⟨hch, by rw [h2, hleft]⟩
        · rw [h1, leftAfter_append, h3, hleft]
    · exact hch

/-- When the comparison of line 21 is between exact values (a total below `2^53` in magnitude,
or step bounds of at most `2^53`), in every run of `ScrollHuman`, however it ends, each
primary scroll delta is not zero, has the sign of the distance that remained before it and at
most its magnitude, and each corrective scroll delta has the sign opposite to the primary
delta it follows; the deltas of the iterations are the vertical deltas of the scroll requests
made, and the distance that remained before a primary scroll is the total less the primary
deltas before it. -/
theorem ScrollHuman_steps_when_exact (env : Env) (c : Controller) (totalPx : Int)
    (hint : -9223372036854775808 ≤ totalPx ∧ totalPx < 9223372036854775808)
    (hcfg : scrollStepInts c.cfg) (hex : scrollExact c.cfg totalPx) :
    (∀ t ∈ (ScrollHuman env c totalPx).turns,
      t.step ≠ 0 ∧
      (0 < t.remaining → 0 < t.step ∧ t.step ≤ t.remaining) ∧
      (t.remaining < 0 → t.remaining ≤ t.step ∧ t.step < 0) ∧
      ∀ back, t.back = some back → (0 < t.step → back < 0) ∧ (t.step < 0 → 0 < back)) ∧
    scrollDeltas (ScrollHuman env c totalPx).trace =
      (ScrollHuman env c totalPx).turns.flatMap turnDeltas ∧
    chained totalPx (ScrollHuman env c totalPx).turns :=
  ⟨(scrollLoop_inv env totalPx.natAbs totalPx c [] [] hint hcfg hex (by simp) rfl).1,
    (scrollLoop_inv env totalPx.natAbs totalPx c [] [] hint hcfg hex (by simp) rfl).2,
    scrollLoop_chained env totalPx totalPx.natAbs totalPx c [] [] trivial rfl⟩

/-- C25, what the code does: the comparison of line 21 is between the `float64` values of the
step and of the distance, and above `2^53` these are not the values themselves.  With a
distance of `2^53` and a step of `2^53 + 1`, both convert to `2^53`, the step is not cut, and
the first primary step is `2^53 + 1`, one more than the distance that remained; the distance
becomes -1 and a second primary scroll of -1 goes back.  With a distance of `2^53 + 3` and a
step of `2^53 + 4`, both convert to `2^53 + 4`, and the first scroll request has the vertical
delta `2^53 + 4`, one more than the distance that remained. -/
theorem ScrollHuman_overshoots :
    ((ScrollHuman quietEnv overshootController 9007199254740992).turns.map
        (fun t => (t.remaining, t.step)) =
        [(9007199254740992, 9007199254740993), (-1, -1)] ∧
      (¬ ∀ t ∈ (ScrollHuman quietEnv overshootController 9007199254740992).turns,
        0 < t.remaining → t.step ≤ t.remaining) ∧
      scrollDeltas (ScrollHuman quietEnv overshootController 9007199254740992).trace =
        [9007199254740992, -1] ∧
      float64OfInt 9007199254740993 = 9007199254740992 ∧
      ScrollStep overshootController = some (9007199254740993, overshootController)) ∧
    ((ScrollHuman quietEnv longStepController 9007199254740995).turns.map
        (fun t => (t.remaining, t.step)) =
        [(9007199254740995, 9007199254740996), (-1, -1)] ∧
      (¬ ∀ t ∈ (ScrollHuman quietEnv longStepController 9007199254740995).turns,
        0 < t.remaining → t.step ≤ t.remaining) ∧
      scrollDeltas (ScrollHuman quietEnv longStepController 9007199254740995).trace =
        [9007199254740996, -1] ∧
      float64OfInt 9007199254740995 = 9007199254740996 ∧
      ScrollStep longStepController = some (9007199254740996, longStepController)) := by
  refine ⟨⟨by decide!, by decide!, by decide!, by decide!, rfl⟩,
    ⟨by decide!, by decide!, by decide!, by decide!, rfl⟩⟩

/-- Under a context that is never cancelled and a driver that never fails, with a step range
whose span fits an `int` and a comparison of line 21 between exact values, the body of the
loop of `ScrollHuman` goes on to the next iteration with the distance shortened by its primary
delta. -/
theorem scrollBody_quiet (env : Env) (henv : env.quiet) (remaining : Int) (c : Controller)
    (turns : List ScrollTurn) (trace : List Action)
    (hr : -9223372036854775808 ≤ remaining ∧ remaining < 9223372036854775808)
    (hne : remaining ≠ 0) (hcfg : scrollStepInts c.cfg) (hfit : scrollStepFits c.cfg)
    (hex : scrollExact c.cfg remaining) :
    ∃ t c1 trace1, scrollBody env remaining c turns trace =
        Sum.inr (remaining - t.step, c1, turns ++ [t], trace1) ∧
      t.step ≠ 0 ∧ (0 < remaining → 0 < t.step ∧ t.step ≤ remaining) ∧
      (remaining < 0 → remaining ≤ t.step ∧ t.step < 0) ∧ c1.cfg = c.cfg ∧
      float64OfInt t.step = (t.step : ℚ) := by
  obtain ⟨drawn, c1, hstep, hc1, hd1, hd2⟩ :=
    randomInt_spec c c.cfg.ScrollStepMin c.cfg.ScrollStepMax hcfg.1.1 hcfg.2.2 hfit
  have hd : -9223372036854775808 ≤ drawn ∧ drawn < 9223372036854775808 := by
    have := hcfg.1
    have := hcfg.2
    by_cases hle : c.cfg.ScrollStepMax ≤ c.cfg.ScrollStepMin
    · have := (hd2 hle).1
      omega
    · have := hd1 (by omega)
      omega
  have hexd : |remaining| < 9007199254740992 ∨ drawn ≤ 9007199254740992 := by
    rcases hex with hex | hex
    · exact Or.inl hex
    · right
      by_cases hle : c.cfg.ScrollStepMax ≤ c.cfg.ScrollStepMin
      · have := (hd2 hle).1
        omega
      · have := hd1 (by omega)
        omega
  obtain ⟨hs0, hs1, hs2, hs3, _⟩ := primaryStep_spec drawn remaining hd hr hne hexd
  have hleft : wrapInt64 (remaining - primaryStep drawn remaining) =
      remaining - primaryStep drawn remaining := by
    apply wrapInt64_of_small <;> omega
  obtain ⟨steps, c2, h310, hc2, _, _⟩ := randomInt_spec c1 3 10 (by omega) (by omega) (by omega)
  obtain ⟨d, c3, hdur, hc3⟩ := randomDuration_spec c2 60 220 (by omega) (by omega) (by omega)
  obtain ⟨roll, c4, hroll, hc4⟩ := rollPercent_some c3 c3.cfg.ScrollBackChance
  cases roll with
  | false =>
    simp only [scrollBody, henv.1, henv.2, ScrollStep, hstep, h310, hdur, ShouldScrollBack,
      hroll, hleft]
    exact ⟨⟨remaining, primaryStep drawn remaining, none⟩, c4, _, rfl, hs0, hs1, hs2,
      by rw [hc4, hc3, hc2, hc1], hs3⟩
  | true =>
    obtain ⟨drawnBack, c5, hback, hc5, _, _⟩ :=
      randomInt_spec c4 40 120 (by omega) (by omega) (by omega)
    obtain ⟨backSteps, c6, h26, hc6, _, _⟩ :=
      randomInt_spec c5 2 6 (by omega) (by omega) (by omega)
    obtain ⟨d2, c7, hdur2, hc7⟩ :=
      randomDuration_spec c6 80 240 (by omega) (by omega) (by omega)
    simp only [scrollBody, henv.1, henv.2, ScrollStep, hstep, h310, hdur, ShouldScrollBack,
      hroll, hback, h26, hdur2, hleft]
    exact ⟨⟨remaining, primaryStep drawn remaining, some _⟩, c7, _, rfl, hs0, hs1, hs2,
      by rw [hc7, hc6, hc5, hc4, hc3, hc2, hc1], hs3⟩

/-- Under a context that is never cancelled and a driver that never fails, with a step range
whose span fits an `int` and a comparison of line 21 between exact values, the loop of
`ScrollHuman` ends by itself within `|remaining|` iterations, and its primary deltas, which
`float64` holds exactly, sum to `remaining`. -/
theorem scrollLoop_quiet (env : Env) (henv : env.quiet) (fuel : Nat) :
    ∀ (remaining : Int) (c : Controller) (turns : List ScrollTurn) (trace : List Action),
      remaining.natAbs ≤ fuel →
      (-9223372036854775808 ≤ remaining ∧ remaining < 9223372036854775808) →
      scrollStepInts c.cfg → scrollStepFits c.cfg → scrollExact c.cfg remaining →
      ∃ new, (scrollLoop env fuel remaining c turns trace).ending = Ending.returned none ∧
        (scrollLoop env fuel remaining c turns trace).turns = turns ++ new ∧
        new.length ≤ remaining.natAbs ∧ (new.map ScrollTurn.step).sum = remaining ∧
        (∀ t ∈ new, float64OfInt t.step = (t.step : ℚ)) ∧
        (remaining = 0 → (scrollLoop env fuel remaining c turns trace).trace = trace) := by
  induction fuel with
  | zero =>
    intro remaining c turns trace hfuel hr _ _ _
    have h0 : remaining = 0 := by omega
    have hnot : ¬ |float64OfInt remaining| > 0 := by
      rw [abs_float_pos remaining hr]; exact not_not.mpr h0
    refine ⟨[], ?_, ?_, by simp, by simp [h0], by simp, ?_⟩ <;> simp [scrollLoop, hnot]
  | succ fuel ih =>
    intro remaining c turns trace hfuel hr hcfg hfit hex
    by_cases h0 : remaining = 0
    · have hnot : ¬ |float64OfInt remaining| > 0 := by
        rw [abs_float_pos remaining hr]; exact not_not.mpr h0
      refine ⟨[], ?_, ?_, by simp, by simp [h0], by simp, ?_⟩ <;> simp [scrollLoop, hnot]
    · have hpos : |float64OfInt remaining| > 0 := (abs_float_pos remaining hr).mpr h0
      obtain ⟨t, c1, trace1, hbody, hs0, hs1, hs2, hc1, hs3⟩ :=
        scrollBody_quiet env henv remaining c turns trace hr h0 hcfg hfit hex
      have hrun : scrollLoop env (fuel + 1) remaining c turns trace =
          scrollLoop env fuel (remaining - t.step) c1 (turns ++ [t]) trace1 := by
        rw [scrollLoop]
        simp only [hpos, if_true, hbody]
      have hex1 : scrollExact c1.cfg (remaining - t.step) := by
        rw [hc1]
        rcases hex with hex | hex
        · left
          have := abs_lt.mp hex
          rw [abs_lt]
          omega
        · exact Or.inr hex
      obtain ⟨new, h1, h2, h3, h4, h5, _⟩ := ih (remaining - t.step) c1 (turns ++ [t]) trace1
        (by omega) (by omega) (by rw [hc1]; exact hcfg) (by rw [hc1]; exact hfit) hex1
      refine ⟨t :: new, by rw [hrun, h1], by rw [hrun, h2]; simp, ?_, ?_, ?_,
        fun h => absurd h h0⟩
      · simp only [List.length_cons]
        omega
      · simp only [List.map_cons, List.sum_cons, h4]
        ring
      · intro t1 ht1
        rcases List.mem_cons.mp ht1 with ht1 | ht1
        · rw [ht1]; exact hs3
        · exact h5 t1 ht1

theorem sum_map_cast (xs : List Int) :
    (xs.map (fun n : Int => (n : ℚ))).sum = ((xs.sum : Int) : ℚ) := by
  induction xs with
  | nil => simp
  | cons x rest ih => rw [List.map_cons, List.sum_cons, List.sum_cons, ih, Int.cast_add]

/-- C30, the claim as worded fails, in two ways.  With a step range from 0 to `2^63 - 1` the
span of the draw of `ScrollStep` does not fit an `int`, `Intn` panics in the first iteration
and `ScrollHuman` neither returns nor requests any scroll.  With a total of `2^53` and a step
of `2^53 + 1`, whose span fits, `ScrollHuman` returns nil after two primary scrolls whose
vertical deltas are `2^53` and -1: they sum to `2^53 - 1`, not to the total. -/
theorem ScrollHuman_panics_or_falls_short :
    ((ScrollHuman quietEnv wideStepController 100).ending = Ending.panicked ∧
      (ScrollHuman quietEnv wideStepController 100).trace = [] ∧
      primaryDeltas (ScrollHuman quietEnv wideStepController 100) = [] ∧
      ScrollStep wideStepController = none) ∧
    ((ScrollHuman quietEnv overshootController 9007199254740992).ending =
        Ending.returned none ∧
      scrollStepFits overshootController.cfg ∧
      primaryDeltas (ScrollHuman quietEnv overshootController 9007199254740992) =
        [9007199254740992, -1] ∧
      (primaryDeltas (ScrollHuman quietEnv overshootController 9007199254740992)).sum =
        9007199254740991 ∧
      (primaryDeltas (ScrollHuman quietEnv overshootController 9007199254740992)).sum ≠
        ((9007199254740992 : Int) : ℚ)) := by
  refine ⟨⟨by decide!, by decide!, by decide!, rfl⟩,
    ⟨by decide!, by decide!, by decide!, by decide!, by decide!⟩⟩

/-- C30, amended: for every `int` total, every step range of `int` bounds whose span
`max - min + 1` fits an `int` (a draw that is not positive falls back to 220) and every state
of the random source, when the total is below `2^53` in magnitude or neither bound of the step
is above `2^53`, under a context that is never cancelled and a driver that never fails,
`ScrollHuman` returns nil after at most `|totalPx|` primary scrolls, whose vertical deltas are
the steps themselves and sum to `totalPx`; for a total of 0 it requests nothing. -/
theorem ScrollHuman_terminates (env : Env) (c : Controller) (totalPx : Int)
    (henv : env.quiet)
    (hint : -9223372036854775808 ≤ totalPx ∧ totalPx < 9223372036854775808)
    (hcfg : scrollStepInts c.cfg) (hfit : scrollStepFits c.cfg)
    (hex : scrollExact c.cfg totalPx) :
    (ScrollHuman env c totalPx).ending = Ending.returned none ∧
      ((primaryDeltas (ScrollHuman env c totalPx)).length : Int) ≤ |totalPx| ∧
      (primaryDeltas (ScrollHuman env c totalPx)).sum = (totalPx : ℚ) ∧
      primaryDeltas (ScrollHuman env c totalPx) =
        (ScrollHuman env c totalPx).turns.map (fun turn => (turn.step : ℚ)) ∧
      (totalPx = 0 → (ScrollHuman env c totalPx).trace = []) ∧
      (∀ drawn remaining : Int, drawn ≤ 0 →
        primaryStep drawn remaining = primaryStep 220 remaining) := by
  obtain ⟨new, h1, h2, h3, h4, h5, h6⟩ :=
    scrollLoop_quiet env henv totalPx.natAbs totalPx c [] [] (le_refl _) hint hcfg hfit hex
  have hmap : primaryDeltas (ScrollHuman env c totalPx) =
      (ScrollHuman env c totalPx).turns.map (fun turn => (turn.step : ℚ)) := by
    simp only [primaryDeltas, ScrollHuman, h2, List.nil_append]
    exact List.map_congr_left h5
  refine ⟨h1, ?_, ?_, hmap, h6, ?_⟩
  · simp only [primaryDeltas, ScrollHuman, h2, List.nil_append, List.length_map]
    have : ((totalPx.natAbs : Nat) : Int) = |totalPx| := Int.natCast_natAbs totalPx
    omega
  · rw [hmap]
    simp only [ScrollHuman, h2, List.nil_append]
    have : new.map (fun turn => (turn.step : ℚ)) =
        (new.map ScrollTurn.step).map (fun n : Int => (n : ℚ)) := by
      rw [List.map_map]
      rfl
    rw [this, sum_map_cast, h4]
  · intro drawn remaining hd
    simp [primaryStep, hd]

theorem ScrollHuman_terminates_witness :
    (ScrollHuman quietEnv backwardsStepController (-500)).ending = Ending.returned none ∧
      ((primaryDeltas (ScrollHuman quietEnv backwardsStepController (-500))).length : Int) ≤
        |(-500 : Int)| ∧
      (primaryDeltas (ScrollHuman quietEnv backwardsStepController (-500))).sum =
        ((-500 : Int) : ℚ) ∧
      primaryDeltas (ScrollHuman quietEnv backwardsStepController (-500)) =
        (ScrollHuman quietEnv backwardsStepController (-500)).turns.map
          (fun turn => (turn.step : ℚ)) ∧
      ((-500 : Int) = 0 → (ScrollHuman quietEnv backwardsStepController (-500)).trace = []) ∧
      (∀ drawn remaining : Int, drawn ≤ 0 →
        primaryStep drawn remaining = primaryStep 220 remaining) :=
  ScrollHuman_terminates quietEnv backwardsStepController (-500) ⟨fun _ => rfl, fun _ _ => rfl⟩
    (by decide) (by decide) (by decide) (by decide)


end Stealth
